import Mathlib

/-! # Parallel quicksort over a bounded job queue (quicksort.c)

A shallow embedding of quicksort.c and a verification of its specification.

Modelling conventions.

* C `int` values are `Int`, C `unsigned` values are `Nat`.  All region lengths are taken to
  fit in an `int` (the program sorts `N = 100000` elements), so that no conversion between
  `unsigned` and `int` wraps.
* A `double *` into the shared array is its offset (in elements) from the base of the array.
* Array elements are values of a total preorder with a decidable `<` (doubles without NaN);
  the theorems assume totality, the definitions only use `<`.
* Reading or writing a region outside of its bounds is a fault, reported as
  `Except.error Fault.out_of_bounds`; loops without a syntactic bound run on fuel and report
  `Fault.out_of_fuel` when it is exhausted.
* Uninitialised memory (the slots of the queue buffer after `malloc`) is an arbitrary value;
  the uninitialised local returned by `dequeue` on an empty queue is `none`.
-/

namespace Quicksort

/-! ## The circular queue -/

/-- The constant `CIRCULAR_QUEUE_SIZE` of quicksort.c. -/
def CIRCULAR_QUEUE_SIZE : Int := 1000

/-- The struct `quicksort_data`: `a` is the offset of the region's first element in the shared
array and `pivot` is the length of the region (this is how the program uses the field).  The
fields `start` and `end` are never written or read and are left out. -/
structure quicksort_data where
  a : Nat
  pivot : Nat
deriving DecidableEq, Repr

/-- The struct `circular_queue`.  The buffer `array` is a map from C indices to tasks; the field
`capacity` is written once by `main` and never read, and is left out. -/
structure circular_queue where
  front : Int
  rear : Int
  array : Int → quicksort_data

/-- The function `circular_queue_full`. -/
def circular_queue_full (q : circular_queue) : Bool :=
  (q.front == q.rear + 1) || (q.front == 0 && q.rear == CIRCULAR_QUEUE_SIZE - 1)

/-- The function `circular_queue_empty`. -/
def circular_queue_empty (q : circular_queue) : Bool :=
  q.front == -1

/-- The function `enqueue`; `%` of C is truncated division, `Int.tmod`. -/
def enqueue (q : circular_queue) (element : quicksort_data) : circular_queue :=
  if circular_queue_full q then q
  else
    let front := if q.front == -1 then 0 else q.front
    let rear := Int.tmod (q.rear + 1) CIRCULAR_QUEUE_SIZE
    { front := front, rear := rear, array := Function.update q.array rear element }

/-- The function `dequeue`.  On an empty queue the C function returns its uninitialised local
`element`; this indeterminate value is `none`. -/
def dequeue (q : circular_queue) : Option quicksort_data × circular_queue :=
  if circular_queue_empty q then (none, q)
  else
    let element := q.array q.front
    if q.front == q.rear then
      (some element, { q with front := -1, rear := -1 })
    else
      (some element, { q with front := Int.tmod (q.front + 1) CIRCULAR_QUEUE_SIZE })

/-- The queue as `main` sets it up: `front = rear = -1` over a freshly allocated buffer with
arbitrary contents `buf`. -/
def queue_init (buf : Int → quicksort_data) : circular_queue :=
  { front := -1, rear := -1, array := buf }

/-- The number of slots between `front` and `rear`, inclusive and with wrap-around. -/
def queue_count (q : circular_queue) : Nat :=
  if q.front = -1 then 0 else ((q.rear - q.front) % CIRCULAR_QUEUE_SIZE).toNat + 1

/-- The tasks stored from `front` to `rear`, with wrap-around: the abstraction function of the
queue. -/
def queue_toList (q : circular_queue) : List quicksort_data :=
  (List.range (queue_count q)).map
    (fun (k : Nat) => q.array ((q.front + (k : Int)) % CIRCULAR_QUEUE_SIZE))

/-- The index invariant of the queue: `front` and `rear` are both `-1`, or both are indices of
the buffer. -/
def queue_wf (q : circular_queue) : Prop :=
  (q.front = -1 ∧ q.rear = -1) ∨
    (0 ≤ q.front ∧ q.front < CIRCULAR_QUEUE_SIZE ∧ 0 ≤ q.rear ∧ q.rear < CIRCULAR_QUEUE_SIZE)

/-- A call on the queue: `enqueue` of a task, or `dequeue`. -/
inductive queue_op where
  | enq (element : quicksort_data)
  | deq
deriving DecidableEq, Repr

/-- One call on the concrete queue. -/
def queue_apply (q : circular_queue) : queue_op → circular_queue
  | queue_op.enq x => enqueue q x
  | queue_op.deq => (dequeue q).2

/-- A sequence of calls on the concrete queue, first call first. -/
def queue_run (q : circular_queue) (ops : List queue_op) : circular_queue :=
  ops.foldl queue_apply q

/-- The bounded FIFO of the specification, `push`: insert at the tail if not full. -/
def fifo_push (l : List quicksort_data) (x : quicksort_data) : List quicksort_data :=
  if l.length < 1000 then l ++ [x] else l

/-- The bounded FIFO of the specification, `pop`: remove from the head if not empty. -/
def fifo_pop (l : List quicksort_data) : Option quicksort_data × List quicksort_data :=
  (l.head?, l.tail)

/-- One call on the bounded FIFO of the specification. -/
def fifo_apply (l : List quicksort_data) : queue_op → List quicksort_data
  | queue_op.enq x => fifo_push l x
  | queue_op.deq => (fifo_pop l).2

/-- A sequence of calls on the bounded FIFO of the specification. -/
def fifo_run (ops : List queue_op) : List quicksort_data :=
  ops.foldl fifo_apply []

/-- The tasks that `k` calls of `dequeue` return, first call first. -/
def queue_drain : Nat → circular_queue → List (Option quicksort_data)
  | 0, _ => []
  | k + 1, q => (dequeue q).1 :: queue_drain k (dequeue q).2

/-! ## Regions of the shared array -/

/-- Faults of the embedding: an access outside of the region, or a loop that ran out of fuel. -/
inductive Fault where
  | out_of_bounds
  | out_of_fuel
deriving DecidableEq, Repr

section Sorting

variable {α : Type} [Preorder α] [DecidableRel (fun (x y : α) => x < y)]

/-- The read `a[i]` with an `unsigned` index. -/
def read_at (a : List α) (i : Nat) : Except Fault α :=
  match a[i]? with
  | some x => Except.ok x
  | none => Except.error Fault.out_of_bounds

/-- The write `a[i] = v` with an `unsigned` index. -/
def write_at (a : List α) (i : Nat) (v : α) : Except Fault (List α) :=
  if i < a.length then Except.ok (a.set i v) else Except.error Fault.out_of_bounds

/-- The read `a[i]` with an `int` index. -/
def read_int (a : List α) (i : Int) : Except Fault α :=
  if 0 ≤ i then read_at a i.toNat else Except.error Fault.out_of_bounds

/-- The write `a[i] = v` with an `int` index. -/
def write_int (a : List α) (i : Int) (v : α) : Except Fault (List α) :=
  if 0 ≤ i then write_at a i.toNat v else Except.error Fault.out_of_bounds

/-! ## Insertion sort -/

/-- The inner loop of `inssort`, started at `j`:
`while ((j > 0) && (a[j - 1] > a[j])) { t = a[j - 1]; a[j - 1] = a[j]; a[j] = t; j--; }`. -/
def inssort_while : Nat → List α → Except Fault (List α)
  | 0, a => Except.ok a
  | j + 1, a => do
    let x ← read_at a j
    let y ← read_at a (j + 1)
    if x > y then
      let t := x
      let a1 ← write_at a j y
      let a2 ← write_at a1 (j + 1) t
      inssort_while j a2
    else
      Except.ok a

/-- The function `inssort`: `for (i = 1; i < n; i++) { j = i; while ... }`. -/
def inssort (a : List α) (n : Nat) : Except Fault (List α) :=
  (List.range' 1 (n - 1)).foldlM (fun a i => inssort_while i a) a

/-! ## Partitioning -/

/-- The statement `if (a[x] < a[y]) { t = a[x]; a[x] = a[y]; a[y] = t; }`, which
`perform_quicksort` executes three times. -/
def swap_if_less (a : List α) (x y : Int) : Except Fault (List α) := do
  let ax ← read_int a x
  let ay ← read_int a y
  if ax < ay then
    let t := ax
    let a1 ← write_int a x ay
    write_int a1 y t
  else
    Except.ok a

/-- The three conditional swaps of `perform_quicksort`, with the names of the source:
`first = 0; middle = n - 1; last = n / 2`. -/
def median_of_three (a : List α) (n : Nat) : Except Fault (List α) := do
  let first : Int := 0
  let middle : Int := (n : Int) - 1
  let last : Int := ((n / 2 : Nat) : Int)
  let a1 ← swap_if_less a middle first
  let a2 ← swap_if_less a1 last middle
  swap_if_less a2 middle first

/-- The loop `while (a[i] < p) i++;`. -/
def scan_up (a : List α) (p : α) : Nat → Int → Except Fault Int
  | 0, _ => Except.error Fault.out_of_fuel
  | fuel + 1, i => do
    let x ← read_int a i
    if x < p then scan_up a p fuel (i + 1) else Except.ok i

/-- The loop `while (p < a[j]) j--;`. -/
def scan_down (a : List α) (p : α) : Nat → Int → Except Fault Int
  | 0, _ => Except.error Fault.out_of_fuel
  | fuel + 1, j => do
    let x ← read_int a j
    if p < x then scan_down a p fuel (j - 1) else Except.ok j

/-- The loop `for (...;; i++, j--) { ... if (i >= j) break; swap a[i], a[j] }` of
`perform_quicksort`, entered with the cursors `i` and `j`; it returns the array and the final
`i`.  The two scans get the fuel `a.length + 1`. -/
def partition_loop (p : α) : Nat → List α → Int → Int → Except Fault (List α × Int)
  | 0, _, _, _ => Except.error Fault.out_of_fuel
  | fuel + 1, a, i, j => do
    let i1 ← scan_up a p (a.length + 1) i
    let j1 ← scan_down a p (a.length + 1) j
    if i1 ≥ j1 then
      Except.ok (a, i1)
    else
      let t ← read_int a i1
      let aj ← read_int a j1
      let a1 ← write_int a i1 aj
      let a2 ← write_int a1 j1 t
      partition_loop p fuel a2 (i1 + 1) (j1 - 1)

/-- The pivot `p = a[middle]` that `perform_quicksort` reads after the three conditional swaps. -/
def pivot_value (a : List α) (n : Nat) : Except Fault α := do
  let a3 ← median_of_three a n
  read_int a3 ((n : Int) - 1)

/-- The function `perform_quicksort` on the region `a` of length `n`: the region after the call
and the returned index.  The partition loop gets the fuel `n + 1`. -/
def perform_quicksort (a : List α) (n : Nat) : Except Fault (List α × Int) := do
  let middle : Int := (n : Int) - 1
  let a3 ← median_of_three a n
  let p ← read_int a3 middle
  partition_loop p (n + 1) a3 0 ((n : Int) - 1)

/-- The value `p` is a median of the values `l` (of the three sampled values): it is one of
them, at least two of them are not above `p` and at least two of them are not below `p`. -/
def is_median (p : α) (l : List α) : Prop :=
  p ∈ l ∧ 2 ≤ l.countP (fun v => decide (¬ p < v)) ∧ 2 ≤ l.countP (fun v => decide (¬ v < p))

/-- The element `v` compares equal to `z`: neither is below the other. -/
def ties (z v : α) : Bool :=
  decide (¬ z < v) && decide (¬ v < z)

/-! ## The worker loop -/

/-- The struct `thread_data`. -/
structure thread_data where
  shutdown : Bool
  sorted_elements : Int
deriving DecidableEq, Repr

/-- The region of `n` elements at offset `off` of the shared array `mem`: what a callee sees
through the pointer `mem + off`. -/
def region (mem : List α) (off n : Nat) : List α :=
  (mem.drop off).take n

/-- The shared array after a callee has turned the region at offset `off` into `r`. -/
def region_store (mem : List α) (off : Nat) (r : List α) : List α :=
  mem.take off ++ r ++ mem.drop (off + r.length)

/-- The function `get_job_from_circular_queue`, on the queue: `none` when the queue is empty
(the worker then waits on `msg_in`, and leaves if `shutdown` is set when it wakes up), else the
result of `dequeue`. -/
def get_job_from_circular_queue (q : circular_queue) :
    Option (Option quicksort_data × circular_queue) :=
  if circular_queue_empty q then none else some (dequeue q)

/-- The function `perform_insertion_sort`, on the shared array `mem` and the pointer `mem + a`. -/
def perform_insertion_sort (mem : List α) (a : Nat) (n : Int) (thr_data : thread_data) :
    Except Fault (List α × thread_data) := do
  let mem1 ←
    if n > 1 then
      (inssort (region mem a n.toNat) n.toNat).map (region_store mem a)
    else
      Except.ok mem
  Except.ok (mem1, { thr_data with sorted_elements := thr_data.sorted_elements + n })

/-- The two tasks `thr1` and `thr2` that `add_jobs_to_circular_queue` builds:
`thr1.a = a; thr1.pivot = new_pivot; thr2.a = a + new_pivot; thr2.pivot = n - new_pivot`. -/
def child_tasks (a : Nat) (new_pivot : Int) (n : Int) : quicksort_data × quicksort_data :=
  ({ a := a, pivot := new_pivot.toNat },
    { a := a + new_pivot.toNat, pivot := (n - new_pivot).toNat })

/-- The function `add_jobs_to_circular_queue`, on the queue: `none` when the queue is full
(the worker then waits on `msg_out`), else the queue after the two calls of `enqueue`. -/
def add_jobs_to_circular_queue (q : circular_queue) (a : Nat) (new_pivot : Int) (n : Int) :
    Option circular_queue :=
  let thr1 : quicksort_data := (child_tasks a new_pivot n).1
  let thr2 : quicksort_data := (child_tasks a new_pivot n).2
  if circular_queue_full q then none
  else some (enqueue (enqueue q thr1) thr2)

/-- The state of the program: the shared array `a`, the queue `global_buffer`, the record
`thr_data`, and the tasks that the workers hold (the local `q` of a worker between
`get_job_from_circular_queue` and the end of the iteration). -/
structure State (α : Type) where
  a : List α
  global_buffer : circular_queue
  thr_data : thread_data
  held : List quicksort_data

/-- The state in which `main` starts the workers: the root task `{a, N}` is the only task in
the queue, nothing is sorted and no worker holds a task. -/
def initial_state (input : List α) (buf : Int → quicksort_data) : State α :=
  { a := input
    global_buffer := enqueue (queue_init buf) { a := 0, pivot := input.length }
    thr_data := { shutdown := false, sorted_elements := 0 }
    held := [] }

/-- The first half of an iteration of `quicksort_thread_function`: a worker takes a task from
the queue. -/
def worker_fetch (s : State α) : Option (State α) :=
  match get_job_from_circular_queue s.global_buffer with
  | some (some t, q1) => some { s with global_buffer := q1, held := t :: s.held }
  | _ => none

/-- The second half of an iteration of `quicksort_thread_function` for a worker that holds the
task `q`; `rest` are the tasks of the other workers.  The result is `none` when the worker
cannot go on: a fault, or a full queue. -/
def worker_process (cutoff : Nat) (s : State α) (q : quicksort_data)
    (rest : List quicksort_data) : Option (State α) :=
  let a := q.a
  let n := q.pivot
  if n ≤ cutoff then
    match perform_insertion_sort s.a a (n : Int) s.thr_data with
    | Except.ok (mem1, thr1) => some { s with a := mem1, thr_data := thr1, held := rest }
    | Except.error _ => none
  else
    match perform_quicksort (region s.a a n) n with
    | Except.ok (r, i) =>
      match add_jobs_to_circular_queue s.global_buffer a i (n : Int) with
      | some q1 => some { s with a := region_store s.a a r, global_buffer := q1, held := rest }
      | none => none
    | Except.error _ => none

/-- The controller in `main`, where `N` is the length of the array: it waits while
`sorted_elements < N`, then sets `shutdown`, once (it runs this code once, and nothing else
writes the flag, so that it has set the flag exactly when the flag is set). -/
def controller (s : State α) : Option (State α) :=
  if s.thr_data.sorted_elements < (s.a.length : Int) then none
  else if s.thr_data.shutdown then none
  else some { s with thr_data := { s.thr_data with shutdown := true } }

/-- One step of the program with the cut-off `cutoff`: some worker takes a task from the queue,
some worker that holds a task processes it, or the controller sets `shutdown`. -/
inductive Step (cutoff : Nat) : State α → State α → Prop where
  | fetch {s s1 : State α} : worker_fetch s = some s1 → Step cutoff s s1
  | process {s s1 : State α} (h1 h2 : List quicksort_data) (q : quicksort_data) :
      s.held = h1 ++ q :: h2 → worker_process cutoff s q (h1 ++ h2) = some s1 → Step cutoff s s1
  | control {s s1 : State α} : controller s = some s1 → Step cutoff s s1

/-- The states that a run from `s` reaches. -/
inductive Reachable (cutoff : Nat) (s : State α) : State α → Prop where
  | refl : Reachable cutoff s s
  | step {s1 s2 : State α} : Reachable cutoff s s1 → Step cutoff s1 s2 → Reachable cutoff s s2

/-- One iteration of `quicksort_thread_function` by a single worker. -/
def worker_iteration (cutoff : Nat) (s : State α) : Option (State α) :=
  match worker_fetch s with
  | some s1 =>
    match s1.held with
    | q :: rest => worker_process cutoff s1 q rest
    | [] => none
  | none => none

/-- The run of a single worker: iterations of `quicksort_thread_function` until the worker
cannot go on, or the fuel is exhausted. -/
def worker_run (cutoff : Nat) : Nat → State α → State α
  | 0, s => s
  | fuel + 1, s =>
    match worker_iteration cutoff s with
    | some s1 => worker_run cutoff fuel s1
    | none => s

/-- The array is non-decreasing: `a[i] ≤ a[i + 1]` for all `i` in `[0, N - 2]`. -/
def nondecreasing (a : List α) : Prop :=
  ∀ (i : Nat) (h : i + 1 < a.length), a[i] ≤ a[i + 1]

/-- The index ranges of two tasks do not overlap. -/
def task_disjoint (t1 t2 : quicksort_data) : Prop :=
  t1.a + t1.pivot ≤ t2.a ∨ t2.a + t2.pivot ≤ t1.a

/-- The tasks that are live in the state `s`: queued, or held by a worker. -/
def live (s : State α) : List quicksort_data :=
  queue_toList s.global_buffer ++ s.held

/-- No task is queued and no worker holds a task. -/
def quiescent (s : State α) : Prop :=
  circular_queue_empty s.global_buffer = true ∧ s.held = []

/-! ## The bookkeeping of the regions

The shared array is cut into consecutive blocks: the regions of the live tasks (queued or held
by a worker), the regions that a leaf task has sorted, and the regions of tasks that were
handed to `enqueue` while the queue was full. -/

/-- What has become of the task of a block. -/
inductive Status where
  | live
  | done
  | lost
deriving DecidableEq, Repr

/-- A block: the elements of a region of the shared array, and the status of its task. -/
structure Block (α : Type) where
  elems : List α
  st : Status

/-- The array that consecutive blocks make up. -/
def blocks_flat (bs : List (Block α)) : List α :=
  (bs.map Block.elems).flatten

/-- The tasks of the live blocks, for blocks that start at offset `off`. -/
def live_tasks : Nat → List (Block α) → List quicksort_data
  | _, [] => []
  | off, b :: bs =>
    (if b.st = Status.live then [{ a := off, pivot := b.elems.length }] else [])
      ++ live_tasks (off + b.elems.length) bs

/-- The number of elements in sorted blocks. -/
def done_count : List (Block α) → Nat
  | [] => 0
  | b :: bs => (if b.st = Status.done then b.elems.length else 0) + done_count bs

/-- No element of the block `b1` is above an element of the block `b2`. -/
def block_le (b1 b2 : Block α) : Prop :=
  ∀ x ∈ b1.elems, ∀ y ∈ b2.elems, x ≤ y

/-- The invariant of the worker loop, for a run on `input` with cut-off `cutoff`, in terms of
the blocks `bs` of the state `s`. -/
structure Inv (input : List α) (cutoff : Nat) (s : State α) (bs : List (Block α)) : Prop where
  flat : s.a = blocks_flat bs
  perm : s.a.Perm input
  wf : queue_wf s.global_buffer
  tasks : (queue_toList s.global_buffer ++ s.held).Perm (live_tasks 0 bs)
  order : bs.Pairwise block_le
  sorted : ∀ b ∈ bs, b.st = Status.done → b.elems.Pairwise (fun x y => x ≤ y)
  count : s.thr_data.sorted_elements = (done_count bs : Int)
  nonempty : 1 ≤ cutoff → 1 ≤ input.length → ∀ b ∈ bs, b.st = Status.live → b.elems ≠ []
  nolost : 1 ≤ cutoff → input.length ≤ 1000 → ∀ b ∈ bs, b.st ≠ Status.lost
  flag : s.thr_data.shutdown = true → (input.length : Int) ≤ s.thr_data.sorted_elements

/-- The weight of a queued task of length `n`. -/
def weight_queued (n : Nat) : Nat := 4 * max n 1 - 2

/-- The weight of a task of length `n` that a worker holds. -/
def weight_held (n : Nat) : Nat := 4 * max n 1 - 3

/-- The measure of a state that every step decreases when the cut-off is at least 1. -/
def measure (s : State α) : Nat :=
  ((queue_toList s.global_buffer).map (fun t => weight_queued t.pivot)).sum
    + (s.held.map (fun t => weight_held t.pivot)).sum
    + (if s.thr_data.shutdown then 0 else 1)

end Sorting

/-! ## Elements with a key and a tag

A total preorder in which different elements compare equal, to observe stability. -/

/-- An element with a key, which is compared, and a tag, which is not. -/
structure tagged where
  key : Int
  tag : Nat
deriving DecidableEq, Repr

/-- The elements of `tagged` are compared by their keys. -/
instance tagged_preorder : Preorder tagged := Preorder.lift tagged.key

/-- The comparison `<` of `tagged` is that of the keys. -/
instance tagged_decidable_lt : DecidableRel (fun (x y : tagged) => x < y) :=
  fun x y => Int.decLt x.key y.key

/-- The comparison of `tagged` is total. -/
instance tagged_total : IsTotal tagged (fun x y => x ≤ y) :=
  ⟨fun x y => le_total x.key y.key⟩

/-! ## The run of one worker on an array of equal elements

On an array of equal elements `perform_quicksort` splits a region of length `n` at `n / 2` and
no call changes the array, so that the run of one worker is determined by the tasks alone. -/

/-- One iteration of a single worker on an array of equal elements, in terms of the list of
queued tasks and of `sorted_elements`. -/
def shape_iteration (cutoff : Nat) (st : List quicksort_data × Int) :
    Option (List quicksort_data × Int) :=
  match st.1 with
  | [] => none
  | t :: rest =>
    if t.pivot ≤ cutoff then some (rest, st.2 + (t.pivot : Int))
    else
      some (fifo_push
        (fifo_push rest (child_tasks t.a ((t.pivot / 2 : Nat) : Int) (t.pivot : Int)).1)
        (child_tasks t.a ((t.pivot / 2 : Nat) : Int) (t.pivot : Int)).2, st.2)

/-- The run of a single worker on an array of equal elements, in terms of the list of queued
tasks and of `sorted_elements`. -/
def shape_run (cutoff : Nat) : Nat → List quicksort_data × Int → List quicksort_data × Int
  | 0, st => st
  | fuel + 1, st =>
    match shape_iteration cutoff st with
    | some st1 => shape_run cutoff fuel st1
    | none => st

/-- The list of queued tasks as a front list and a reversed back list, with its length, and
`sorted_elements`: a representation on which an iteration takes constant time. -/
structure fast_state where
  front : List quicksort_data
  back : List quicksort_data
  size : Nat
  count : Int

/-- The list of queued tasks and `sorted_elements` that a `fast_state` stands for. -/
def fast_abs (st : fast_state) : List quicksort_data × Int :=
  (st.front ++ st.back.reverse, st.count)

/-- The function `fifo_push` on a `fast_state`. -/
def fast_push (st : fast_state) (x : quicksort_data) : fast_state :=
  if st.size < 1000 then { st with back := x :: st.back, size := st.size + 1 } else st

/-- The processing of the task `t` in `shape_iteration`, on a `fast_state`. -/
def fast_process (cutoff : Nat) (t : quicksort_data) (st : fast_state) : fast_state :=
  if t.pivot ≤ cutoff then { st with count := st.count + (t.pivot : Int) }
  else
    fast_push (fast_push st (child_tasks t.a ((t.pivot / 2 : Nat) : Int) (t.pivot : Int)).1)
      (child_tasks t.a ((t.pivot / 2 : Nat) : Int) (t.pivot : Int)).2

/-- The function `shape_iteration` on a `fast_state`. -/
def fast_iteration (cutoff : Nat) (st : fast_state) : Option fast_state :=
  match st.front with
  | t :: rest => some (fast_process cutoff t { st with front := rest, size := st.size - 1 })
  | [] =>
    match st.back.reverse with
    | t :: rest =>
      some (fast_process cutoff t { st with front := rest, back := [], size := st.size - 1 })
    | [] => none

/-- The function `shape_run` on a `fast_state`. -/
def fast_run (cutoff : Nat) : Nat → fast_state → fast_state
  | 0, st => st
  | fuel + 1, st =>
    match fast_iteration cutoff st with
    | some st1 => fast_run cutoff fuel st1
    | none => st

/-- The state `s` of the program is a state between two iterations of a single worker on an
array of `N` elements equal to `c`, with the queued tasks and the counter of `st`. -/
def shape_sim {α : Type} (N : Nat) (c : α) (s : State α) (st : List quicksort_data × Int) :
    Prop :=
  s.a = List.replicate N c ∧ s.held = [] ∧ queue_wf s.global_buffer ∧
    queue_toList s.global_buffer = st.1 ∧ s.thr_data.sorted_elements = st.2 ∧
    ∀ t ∈ st.1, t.a + t.pivot ≤ N

/-! # Properties -/

/-! ### Lemmas on the queue -/

theorem queue_wf_init (buf : Int → quicksort_data) : queue_wf (queue_init buf) :=
  Or.inl ⟨rfl, rfl⟩

theorem queue_count_le {q : circular_queue} (_h : queue_wf q) : queue_count q ≤ 1000 := by
  unfold queue_count CIRCULAR_QUEUE_SIZE
  split
  · omega
  · omega

theorem queue_empty_iff {q : circular_queue} (h : queue_wf q) :
    circular_queue_empty q = true ↔ queue_count q = 0 := by
  unfold circular_queue_empty queue_count
  rcases h with ⟨h1, _⟩ | h
  · simp [h1]
  · have : q.front ≠ -1 := by omega
    simp [this]

theorem queue_full_iff {q : circular_queue} (h : queue_wf q) :
    circular_queue_full q = true ↔ queue_count q = 1000 := by
  unfold circular_queue_full queue_count queue_wf CIRCULAR_QUEUE_SIZE at *
  simp only [Bool.or_eq_true, Bool.and_eq_true, beq_iff_eq]
  rcases h with ⟨h1, h2⟩ | h
  · simp [h1, h2]
  · have : q.front ≠ -1 := by omega
    simp only [this, if_false]
    omega

theorem enqueue_full {q : circular_queue} (x : quicksort_data)
    (h : circular_queue_full q = true) : enqueue q x = q := by
  simp [enqueue, h]

theorem queue_wf_enqueue {q : circular_queue} (x : quicksort_data) (h : queue_wf q) :
    queue_wf (enqueue q x) := by
  unfold enqueue
  split
  · exact h
  · right
    unfold queue_wf CIRCULAR_QUEUE_SIZE at *
    have hr : 0 ≤ q.rear + 1 := by omega
    simp only [Int.tmod_eq_emod hr (by norm_num : (0 : Int) ≤ 1000), beq_iff_eq]
    rcases h with ⟨h1, h2⟩ | h
    · simp [h1, h2]
    · have : q.front ≠ -1 := by omega
      simp only [this, if_false]
      omega

theorem queue_wf_dequeue {q : circular_queue} (h : queue_wf q) : queue_wf (dequeue q).2 := by
  unfold dequeue
  split
  · exact h
  · rename_i he
    split
    · exact Or.inl ⟨rfl, rfl⟩
    · right
      unfold queue_wf CIRCULAR_QUEUE_SIZE circular_queue_empty at *
      simp only [beq_iff_eq] at he
      rcases h with ⟨h1, _⟩ | h
      · exact absurd h1 he
      · have hr : 0 ≤ q.front + 1 := by omega
        simp only [Int.tmod_eq_emod hr (by norm_num : (0 : Int) ≤ 1000)]
        omega

theorem queue_count_enqueue {q : circular_queue} (x : quicksort_data) (h : queue_wf q)
    (hf : circular_queue_full q = false) : queue_count (enqueue q x) = queue_count q + 1 := by
  have hc := queue_count_le h
  have hne : queue_count q ≠ 1000 := by
    intro hc1
    rw [(queue_full_iff h).2 hc1] at hf
    exact Bool.noConfusion hf
  unfold enqueue
  simp only [hf, Bool.false_eq_true, if_false]
  unfold queue_count queue_wf CIRCULAR_QUEUE_SIZE at *
  rcases h with ⟨h1, h2⟩ | h
  · simp [h1, h2]
  · have h1 : q.front ≠ -1 := by omega
    have hr : 0 ≤ q.rear + 1 := by omega
    simp only [Int.tmod_eq_emod hr (by norm_num : (0 : Int) ≤ 1000), beq_iff_eq, h1, if_false]
      at hc hne ⊢
    omega

theorem queue_front_enqueue {q : circular_queue} (x : quicksort_data)
    (hf : circular_queue_full q = false) :
    (enqueue q x).front = if q.front = -1 then 0 else q.front := by
  simp [enqueue, hf]

theorem queue_toList_enqueue {q : circular_queue} (x : quicksort_data) (h : queue_wf q)
    (hf : circular_queue_full q = false) :
    queue_toList (enqueue q x) = queue_toList q ++ [x] := by
  have hcnt := queue_count_enqueue x h hf
  have hc := queue_count_le h
  have hne : queue_count q ≠ 1000 := by
    intro hc1
    rw [(queue_full_iff h).2 hc1] at hf
    exact Bool.noConfusion hf
  unfold queue_toList
  rw [hcnt, List.range_succ, List.map_append]
  have hrear : (enqueue q x).rear = ((enqueue q x).front + (queue_count q : Int)) % 1000 := by
    unfold enqueue
    simp only [hf, Bool.false_eq_true, if_false]
    unfold queue_count queue_wf CIRCULAR_QUEUE_SIZE at *
    rcases h with ⟨h1, h2⟩ | h
    · simp [h1, h2]
    · have h1 : q.front ≠ -1 := by omega
      have hr : 0 ≤ q.rear + 1 := by omega
      simp only [Int.tmod_eq_emod hr (by norm_num : (0 : Int) ≤ 1000), beq_iff_eq, h1, if_false]
        at hc hne ⊢
      omega
  have harr : (enqueue q x).array = Function.update q.array (enqueue q x).rear x := by
    simp [enqueue, hf]
  congr 1
  · apply List.map_congr_left
    intro k hk
    rw [List.mem_range] at hk
    rw [harr, hrear, Function.update_noteq]
    · by_cases h1 : q.front = -1
      · have : queue_count q = 0 := by simp [queue_count, h1]
        omega
      · rw [queue_front_enqueue x hf, if_neg h1]
    · rw [queue_front_enqueue x hf]
      unfold queue_wf CIRCULAR_QUEUE_SIZE at *
      split <;> omega
  · simp only [List.map_cons, List.map_nil, List.cons.injEq, and_true]
    rw [harr, hrear]
    unfold CIRCULAR_QUEUE_SIZE
    rw [Function.update_same]

theorem queue_dequeue_nonempty {q : circular_queue} (h : queue_wf q)
    (he : circular_queue_empty q = false) :
    ∃ t, (dequeue q).1 = some t ∧ queue_toList q = t :: queue_toList (dequeue q).2 := by
  have hfr : q.front ≠ -1 := by
    simpa [circular_queue_empty] using he
  have hw : 0 ≤ q.front ∧ q.front < 1000 ∧ 0 ≤ q.rear ∧ q.rear < 1000 := by
    rcases h with ⟨h1, _⟩ | h
    · exact absurd h1 hfr
    · exact h
  refine ⟨q.array q.front, ?_, ?_⟩
  · unfold dequeue
    simp only [he, Bool.false_eq_true, if_false]
    split <;> rfl
  · unfold dequeue
    simp only [he, Bool.false_eq_true, if_false]
    by_cases heq : q.front = q.rear
    · have h1 : queue_count q = 1 := by
        unfold queue_count CIRCULAR_QUEUE_SIZE
        simp [hfr, ← heq]
      simp only [heq, beq_self_eq_true, if_true]
      unfold queue_toList
      rw [← heq, h1]
      have h0 : queue_count { front := -1, rear := -1, array := q.array } = 0 := by
        simp [queue_count]
      rw [h0]
      have hm : q.front % 1000 = q.front := Int.emod_eq_of_lt hw.1 hw.2.1
      simp [List.range_succ, CIRCULAR_QUEUE_SIZE, hm]
    · have hb : (q.front == q.rear) = false := by simpa using heq
      simp only [hb, Bool.false_eq_true, if_false]
      have hr : 0 ≤ q.front + 1 := by omega
      have hcq : queue_count q = queue_count
          { q with front := Int.tmod (q.front + 1) CIRCULAR_QUEUE_SIZE } + 1 := by
        unfold queue_count CIRCULAR_QUEUE_SIZE
        simp only [Int.tmod_eq_emod hr (by norm_num : (0 : Int) ≤ 1000), hfr, if_false]
        have : (q.front + 1) % 1000 ≠ -1 := by omega
        simp only [this, if_false]
        omega
      unfold queue_toList
      rw [hcq, List.range_succ_eq_map]
      simp only [List.map_cons, List.map_map, Nat.cast_zero, add_zero, CIRCULAR_QUEUE_SIZE]
      rw [Int.emod_eq_of_lt hw.1 hw.2.1]
      congr 1
      apply List.map_congr_left
      intro k _
      simp only [Function.comp, Int.tmod_eq_emod hr (by norm_num : (0 : Int) ≤ 1000),
        Nat.succ_eq_add_one, Nat.cast_add, Nat.cast_one]
      congr 1
      omega

theorem queue_dequeue_empty {q : circular_queue} (he : circular_queue_empty q = true) :
    dequeue q = (none, q) := by
  simp [dequeue, he]

theorem queue_length_toList (q : circular_queue) : (queue_toList q).length = queue_count q := by
  simp [queue_toList]

section SortingLemmas

variable {α : Type}

@[simp] theorem except_ok_bind {β γ : Type} (x : β) (f : β → Except Fault γ) :
    (Except.ok x >>= f) = f x := rfl

@[simp] theorem except_error_bind {β γ : Type} (e : Fault) (f : β → Except Fault γ) :
    ((Except.error e : Except Fault β) >>= f) = Except.error e := rfl

@[simp] theorem except_pure_eq {β : Type} (x : β) : (pure x : Except Fault β) = Except.ok x := rfl

theorem read_at_of_lt (a : List α) (i : Nat) (h : i < a.length) :
    read_at a i = Except.ok a[i] := by
  simp [read_at, List.getElem?_eq_getElem h]

theorem read_at_ok_iff (a : List α) (i : Nat) (x : α) :
    read_at a i = Except.ok x ↔ a[i]? = some x := by
  unfold read_at
  cases h : a[i]? <;> simp

theorem write_at_of_lt (a : List α) (i : Nat) (v : α) (h : i < a.length) :
    write_at a i v = Except.ok (a.set i v) := by
  simp [write_at, h]

theorem read_int_natCast (a : List α) (i : Nat) : read_int a (i : Int) = read_at a i := by
  simp [read_int]

theorem write_int_natCast (a : List α) (i : Nat) (v : α) :
    write_int a (i : Int) v = write_at a i v := by
  simp [write_int]

theorem read_int_neg (a : List α) (i : Int) (h : i < 0) :
    read_int a i = Except.error Fault.out_of_bounds := by
  simp [read_int, not_le.2 h]

/-- Exchanging two positions of a list is a permutation. -/
theorem swap_perm (a : List α) (i j : Nat) (hi : i < a.length) (hj : j < a.length) :
    ((a.set i a[j]).set j a[i]).Perm a := by
  classical
  rw [List.perm_iff_count]
  intro b
  have hj1 : j < (a.set i a[j]).length := by simpa using hj
  rw [List.count_set _ _ _ _ hj1, List.count_set _ _ _ _ hi]
  have hjj : (a.set i a[j])[j] = a[j] := by
    rw [List.getElem_set]
    split <;> rfl
  rw [hjj]
  have h1 : (if (a[i] == b) = true then 1 else 0) ≤ List.count b a := by
    split
    · rename_i h
      have : a[i] = b := by simpa using h
      exact List.count_pos_iff.2 (this ▸ List.getElem_mem _)
    · omega
  generalize (if (a[i] == b) = true then 1 else 0) = A at h1 ⊢
  generalize (if (a[j] == b) = true then 1 else 0) = B
  omega

theorem getElem?_mid (l : List α) (x : α) (r : List α) : (l ++ x :: r)[l.length]? = some x := by
  rw [List.getElem?_append_right (le_refl _)]
  simp

theorem set_mid (l : List α) (x v : α) (r : List α) :
    (l ++ x :: r).set l.length v = l ++ v :: r := by
  induction l with
  | nil => rfl
  | cons y l ih => simp [ih]

theorem read_at_mid (l : List α) (x : α) (r : List α) {k : Nat} (hk : k = l.length) :
    read_at (l ++ x :: r) k = Except.ok x := by
  subst hk
  rw [read_at_ok_iff]
  exact getElem?_mid l x r

theorem write_at_mid (l : List α) (x v : α) (r : List α) {k : Nat} (hk : k = l.length) :
    write_at (l ++ x :: r) k v = Except.ok (l ++ v :: r) := by
  subst hk
  rw [write_at_of_lt _ _ _ (by simp), set_mid]

variable [Preorder α] [DecidableRel (fun (x y : α) => x < y)] [IsTotal α (fun x y => x ≤ y)]

omit [DecidableRel (fun (x y : α) => x < y)] in
theorem le_of_not_lt_total {x y : α} (h : ¬ x < y) : y ≤ x := by
  rcases IsTotal.total (r := fun (x y : α) => x ≤ y) x y with h1 | h1
  · by_contra h2
    exact h (lt_of_le_not_le h1 h2)
  · exact h1

/-- The inner loop of `inssort` inserts the element after a sorted prefix into the prefix. -/
theorem inssort_while_spec : ∀ (j : Nat) (l : List α) (x : α) (r : List α), l.length = j →
    ∃ l1, inssort_while j (l ++ x :: r) = Except.ok (l1 ++ r) ∧ l1.Perm (l ++ [x]) ∧
      (l.Pairwise (fun x y => x ≤ y) → l1.Pairwise (fun x y => x ≤ y)) := by
  intro j
  induction j with
  | zero =>
    intro l x r hl
    have : l = [] := List.length_eq_zero.1 hl
    subst this
    exact ⟨[x], rfl, List.Perm.refl _, fun _ => List.pairwise_singleton _ x⟩
  | succ j ih =>
    intro l x r hl
    rcases List.eq_nil_or_concat l with h | ⟨l0, y, h⟩
    · subst h
      simp at hl
    · rw [List.concat_eq_append] at h
      subst h
      have hl0 : l0.length = j := by simpa using hl
      have e1 : l0 ++ [y] ++ x :: r = l0 ++ y :: x :: r := by simp
      have e2 : l0 ++ y :: x :: r = (l0 ++ [y]) ++ x :: r := by simp
      rw [e1]
      unfold inssort_while
      rw [read_at_mid l0 y (x :: r) hl0.symm, e2,
        read_at_mid (l0 ++ [y]) x r (by simp [hl0]), ← e2]
      simp only [except_ok_bind, gt_iff_lt]
      by_cases hxy : x < y
      · simp only [hxy, if_true]
        rw [write_at_mid l0 y x (x :: r) hl0.symm]
        simp only [except_ok_bind]
        have e3 : l0 ++ x :: x :: r = (l0 ++ [x]) ++ x :: r := by simp
        rw [e3, write_at_mid (l0 ++ [x]) x y r (by simp [hl0])]
        simp only [except_ok_bind]
        have e4 : l0 ++ [x] ++ y :: r = l0 ++ x :: (y :: r) := by simp
        rw [e4]
        obtain ⟨l1, h1, h2, h3⟩ := ih l0 x (y :: r) hl0
        refine ⟨l1 ++ [y], ?_, ?_, ?_⟩
        · rw [h1]; simp
        · calc (l1 ++ [y]).Perm ((l0 ++ [x]) ++ [y]) := List.Perm.append_right _ h2
            _ = l0 ++ ([x] ++ [y]) := by simp
            _ |>.Perm (l0 ++ ([y] ++ [x])) :=
                List.Perm.append_left _ (List.Perm.swap y x [])
            _ = l0 ++ [y] ++ [x] := by simp
        · intro hs
          have hs0 : l0.Pairwise (fun x y => x ≤ y) := (List.pairwise_append.1 hs).1
          have hle : ∀ z ∈ l0, z ≤ y := fun z hz =>
            (List.pairwise_append.1 hs).2.2 z hz y (List.mem_singleton_self y)
          refine List.pairwise_append.2 ⟨h3 hs0, List.pairwise_singleton _ y, ?_⟩
          intro z hz w hw
          rw [List.mem_singleton] at hw
          subst hw
          have := h2.subset hz
          rw [List.mem_append, List.mem_singleton] at this
          rcases this with hz0 | rfl
          · exact hle z hz0
          · exact le_of_lt hxy
      · simp only [hxy, if_false]
        refine ⟨l0 ++ [y] ++ [x], by simp, List.Perm.refl _, ?_⟩
        intro hs
        refine List.pairwise_append.2 ⟨hs, List.pairwise_singleton _ x, ?_⟩
        intro z hz w hw
        rw [List.mem_singleton] at hw
        subst hw
        have hyx : y ≤ w := le_of_not_lt_total hxy
        rw [List.mem_append, List.mem_singleton] at hz
        rcases hz with hz0 | rfl
        · exact le_trans ((List.pairwise_append.1 hs).2.2 z hz0 y (List.mem_singleton_self y)) hyx
        · exact hyx

theorem inssort_fold_spec : ∀ (k s : Nat) (l r : List α), l.length = s → k ≤ r.length →
    ∃ l1, (List.range' s k).foldlM (fun a i => inssort_while i a) (l ++ r)
        = Except.ok (l1 ++ r.drop k) ∧
      l1.Perm (l ++ r.take k) ∧
      (l.Pairwise (fun x y => x ≤ y) → l1.Pairwise (fun x y => x ≤ y)) := by
  intro k
  induction k with
  | zero =>
    intro s l r _ _
    exact ⟨l, by simp, by simp, fun h => h⟩
  | succ k ih =>
    intro s l r hl hk
    cases r with
    | nil => simp at hk
    | cons x r =>
      have hk1 : k ≤ r.length := by simpa using hk
      obtain ⟨l1, h1, h2, h3⟩ := inssort_while_spec s l x r hl
      have hl1 : l1.length = s + 1 := by rw [List.Perm.length_eq h2]; simp [hl]
      obtain ⟨l2, g1, g2, g3⟩ := ih (s + 1) l1 r hl1 hk1
      refine ⟨l2, ?_, ?_, fun hs => g3 (h3 hs)⟩
      · rw [List.range', List.foldlM_cons, h1]
        simpa using g1
      · calc l2.Perm (l1 ++ r.take k) := g2
          _ |>.Perm ((l ++ [x]) ++ r.take k) := List.Perm.append_right _ h2
          _ = l ++ (x :: r).take (k + 1) := by simp

/-- The function `inssort` sorts the first `n` elements of `a` in place and leaves the rest:
it returns normally, the prefix of length `n` of the result is a sorted permutation of that
of `a`. -/
theorem inssort_take (a : List α) (n : Nat) (hn : n ≤ a.length) :
    ∃ l1, inssort a n = Except.ok (l1 ++ a.drop n) ∧ l1.Perm (a.take n) ∧
      l1.Pairwise (fun x y => x ≤ y) := by
  unfold inssort
  cases a with
  | nil =>
    have : n = 0 := by simpa using hn
    subst this
    exact ⟨[], rfl, List.Perm.refl _, List.Pairwise.nil⟩
  | cons x r =>
    cases n with
    | zero => exact ⟨[], rfl, List.Perm.refl _, List.Pairwise.nil⟩
    | succ n =>
      have hn1 : n ≤ r.length := by simpa using hn
      obtain ⟨l1, h1, h2, h3⟩ := inssort_fold_spec n 1 [x] r rfl hn1
      refine ⟨l1, ?_, ?_, h3 (List.pairwise_singleton _ x)⟩
      · simpa using h1
      · simpa using h2

theorem inssort_spec (a : List α) (n : Nat) (hn : a.length = n) :
    ∃ a1, inssort a n = Except.ok a1 ∧ a1.Perm a ∧ a1.Pairwise (fun x y => x ≤ y) := by
  obtain ⟨l1, h1, h2, h3⟩ := inssort_take a n (le_of_eq hn.symm)
  refine ⟨l1, ?_, ?_, h3⟩
  · rw [h1, List.drop_eq_nil_of_le (le_of_eq hn)]; simp
  · rw [List.take_of_length_le (le_of_eq hn)] at h2; exact h2

end SortingLemmas

section PartitionLemmas

variable {α : Type} [Preorder α] [DecidableRel (fun (x y : α) => x < y)]

theorem swap_if_less_eq (a : List α) (x y : Nat) (hx : x < a.length) (hy : y < a.length) :
    swap_if_less a (x : Int) (y : Int)
      = Except.ok (if a[x] < a[y] then (a.set x a[y]).set y a[x] else a) := by
  unfold swap_if_less
  rw [read_int_natCast, read_int_natCast, read_at_of_lt a x hx, read_at_of_lt a y hy]
  simp only [except_ok_bind]
  split
  · rw [write_int_natCast, write_at_of_lt a x _ hx]
    simp only [except_ok_bind]
    rw [write_int_natCast, write_at_of_lt _ y _ (by simpa using hy)]
  · rfl

theorem swap_if_less_spec (a : List α) (x y : Nat) (hx : x < a.length) (hy : y < a.length) :
    ∃ a1, swap_if_less a (x : Int) (y : Int) = Except.ok a1 ∧ a1.Perm a := by
  refine ⟨_, swap_if_less_eq a x y hx hy, ?_⟩
  split
  · exact swap_perm a x y hx hy
  · exact List.Perm.refl a

/-- The three conditional swaps return normally on a non-empty region and permute it. -/
theorem median_of_three_spec (a : List α) (n : Nat) (hn : a.length = n) (h1 : 1 ≤ n) :
    ∃ a3, median_of_three a n = Except.ok a3 ∧ a3.Perm a := by
  unfold median_of_three
  have e1 : ((n : Int) - 1) = ((n - 1 : Nat) : Int) := by omega
  have e0 : (0 : Int) = ((0 : Nat) : Int) := rfl
  simp only [e1]
  rw [e0]
  obtain ⟨a1, h1a, p1⟩ := swap_if_less_spec a (n - 1) 0 (by omega) (by omega)
  have l1 : a1.length = n := by rw [List.Perm.length_eq p1, hn]
  obtain ⟨a2, h2a, p2⟩ := swap_if_less_spec a1 (n / 2) (n - 1) (by omega) (by omega)
  have l2 : a2.length = n := by rw [List.Perm.length_eq p2, l1]
  obtain ⟨a3, h3a, p3⟩ := swap_if_less_spec a2 (n - 1) 0 (by omega) (by omega)
  refine ⟨a3, ?_, (p3.trans p2).trans p1⟩
  rw [h1a]
  simp only [except_ok_bind]
  rw [h2a]
  simp only [except_ok_bind]
  rw [h3a]

theorem scan_up_spec (a : List α) (p : α) : ∀ (d i k fuel : Nat), k = i + d →
    (∃ x, a[k]? = some x ∧ ¬ x < p) → d < fuel →
    ∃ i1 : Nat, scan_up a p fuel (i : Int) = Except.ok (i1 : Int) ∧ i ≤ i1 ∧ i1 ≤ k ∧
      (∀ m y, i ≤ m → m < i1 → a[m]? = some y → y < p) ∧
      (∃ y, a[i1]? = some y ∧ ¬ y < p) := by
  intro d
  induction d with
  | zero =>
    intro i k fuel hk hs hf
    obtain ⟨x, hx, hxp⟩ := hs
    have : k = i := by omega
    subst this
    obtain ⟨fuel, rfl⟩ : ∃ f, fuel = f + 1 := ⟨fuel - 1, by omega⟩
    refine ⟨k, ?_, le_refl _, le_refl _, fun m y h1 h2 => by omega, ⟨x, hx, hxp⟩⟩
    unfold scan_up
    rw [read_int_natCast, (read_at_ok_iff a k x).2 hx]
    simp [hxp]
  | succ d ih =>
    intro i k fuel hk hs hf
    obtain ⟨fuel, rfl⟩ : ∃ f, fuel = f + 1 := ⟨fuel - 1, by omega⟩
    have hklt : k < a.length := by
      obtain ⟨x, hx, _⟩ := hs
      by_contra hc
      rw [List.getElem?_eq_none (by omega)] at hx
      exact Option.noConfusion hx
    have hi : i < a.length := by omega
    unfold scan_up
    rw [read_int_natCast, read_at_of_lt a i hi]
    simp only [except_ok_bind]
    by_cases hlt : a[i] < p
    · simp only [hlt, if_true]
      obtain ⟨i1, g1, g2, g3, g4, g5⟩ := ih (i + 1) k fuel (by omega) hs (by omega)
      refine ⟨i1, ?_, by omega, g3, ?_, g5⟩
      · rw [← g1]; congr 1
      · intro m y h1 h2 h3
        by_cases hm : m = i
        · subst hm
          rw [List.getElem?_eq_getElem hi] at h3
          cases h3
          exact hlt
        · exact g4 m y (by omega) h2 h3
    · simp only [hlt, if_false]
      exact ⟨i, rfl, le_refl _, by omega, fun m y h1 h2 => by omega,
        ⟨a[i], List.getElem?_eq_getElem hi, hlt⟩⟩

theorem scan_down_spec (a : List α) (p : α) : ∀ (d j k fuel : Nat), j = k + d →
    j < a.length → (∃ x, a[k]? = some x ∧ ¬ p < x) → d < fuel →
    ∃ j1 : Nat, scan_down a p fuel (j : Int) = Except.ok (j1 : Int) ∧ k ≤ j1 ∧ j1 ≤ j ∧
      (∀ m y, j1 < m → m ≤ j → a[m]? = some y → p < y) ∧
      (∃ y, a[j1]? = some y ∧ ¬ p < y) := by
  intro d
  induction d with
  | zero =>
    intro j k fuel hk hj hs hf
    obtain ⟨x, hx, hxp⟩ := hs
    have : k = j := by omega
    subst this
    obtain ⟨fuel, rfl⟩ : ∃ f, fuel = f + 1 := ⟨fuel - 1, by omega⟩
    refine ⟨k, ?_, le_refl _, le_refl _, fun m y h1 h2 => by omega, ⟨x, hx, hxp⟩⟩
    unfold scan_down
    rw [read_int_natCast, (read_at_ok_iff a k x).2 hx]
    simp [hxp]
  | succ d ih =>
    intro j k fuel hk hj hs hf
    obtain ⟨fuel, rfl⟩ : ∃ f, fuel = f + 1 := ⟨fuel - 1, by omega⟩
    unfold scan_down
    rw [read_int_natCast, read_at_of_lt a j hj]
    simp only [except_ok_bind]
    by_cases hlt : p < a[j]
    · simp only [hlt, if_true]
      obtain ⟨j1, g1, g2, g3, g4, g5⟩ := ih (j - 1) k fuel (by omega) (by omega) hs (by omega)
      refine ⟨j1, ?_, g2, by omega, ?_, g5⟩
      · rw [← g1]; congr 1; omega
      · intro m y h1 h2 h3
        by_cases hm : m = j
        · subst hm
          rw [List.getElem?_eq_getElem hj] at h3
          cases h3
          exact hlt
        · exact g4 m y h1 (by omega) h3
    · simp only [hlt, if_false]
      exact ⟨j, rfl, by omega, le_refl _, fun m y h1 h2 => by omega,
        ⟨a[j], List.getElem?_eq_getElem hj, hlt⟩⟩

end PartitionLemmas

section PartitionLoop

variable {α : Type}

theorem getElem?_swap (a : List α) (i j : Nat) (hi : i < a.length) (hj : j < a.length)
    (m : Nat) :
    ((a.set i a[j]).set j a[i])[m]?
      = if m = j then some a[i] else if m = i then some a[j] else a[m]? := by
  rw [List.getElem?_set, List.getElem?_set]
  by_cases h1 : j = m
  · subst h1; simp [hj]
  · have h1b : ¬ m = j := fun h => h1 h.symm
    simp only [h1, h1b, if_false]
    by_cases h2 : i = m
    · subst h2; simp [hi]
    · have h2b : ¬ m = i := fun h => h2 h.symm
      simp only [h2, h2b, if_false]

variable [Preorder α] [DecidableRel (fun (x y : α) => x < y)] [IsTotal α (fun x y => x ≤ y)]

/-- The partition loop, entered with cursors `i ≤ j + 1`, a stop for each scan, everything
left of `i` at most `p` and everything right of `j` at least `p`: it returns normally, permutes
the region, and splits it at the returned index. -/
theorem partition_loop_spec (p : α) : ∀ (fuel : Nat) (a : List α) (i j : Nat),
    j < a.length → i ≤ j + 1 →
    (∃ k x, i ≤ k ∧ a[k]? = some x ∧ ¬ x < p) →
    (∃ k x, k ≤ j ∧ a[k]? = some x ∧ ¬ p < x) →
    (∀ m y, m < i → a[m]? = some y → y ≤ p) →
    (∀ m y, j < m → a[m]? = some y → p ≤ y) →
    j + 2 ≤ fuel + i →
    ∃ (a1 : List α) (r : Nat), partition_loop p fuel a (i : Int) (j : Int) = Except.ok (a1, (r : Int)) ∧
      a1.Perm a ∧ i ≤ r ∧ r < a.length ∧
      (∀ m y, m < r → a1[m]? = some y → y ≤ p) ∧
      (∀ m y, r ≤ m → a1[m]? = some y → p ≤ y) ∧
      ((1 ≤ i ∨ (j + 1 = a.length ∧ 2 ≤ a.length ∧ ∃ y, a[j]? = some y ∧ ¬ p < y)) → 1 ≤ r) := by
  intro fuel
  induction fuel with
  | zero =>
    intro a i j hj hij _ _ _ _ hf
    omega
  | succ fuel ih =>
    intro a i j hj hij hup hdown hL hR hf
    obtain ⟨ku, xu, hku, hxu, hxup⟩ := hup
    obtain ⟨kd, xd, hkd, hxd, hxdp⟩ := hdown
    have hkult : ku < a.length := by
      by_contra hc
      rw [List.getElem?_eq_none (by omega)] at hxu
      exact Option.noConfusion hxu
    obtain ⟨i1, s1, s2, s3, s4, y1, hy1, hy1p⟩ :=
      scan_up_spec a p (ku - i) i ku (a.length + 1) (by omega) ⟨xu, hxu, hxup⟩ (by omega)
    obtain ⟨j1, t1, t2, t3, t4, y2, hy2, hy2p⟩ :=
      scan_down_spec a p (j - kd) j kd (a.length + 1) (by omega) hj ⟨xd, hxd, hxdp⟩ (by omega)
    have hi1 : i1 < a.length := by omega
    have hj1 : j1 < a.length := by omega
    have hL1 : ∀ m y, m < i1 → a[m]? = some y → y ≤ p := by
      intro m y hm hy
      by_cases hmi : m < i
      · exact hL m y hmi hy
      · exact le_of_lt (s4 m y (by omega) hm hy)
    have hR1 : ∀ m y, j1 < m → a[m]? = some y → p ≤ y := by
      intro m y hm hy
      by_cases hmj : j < m
      · exact hR m y hmj hy
      · exact le_of_lt (t4 m y hm (by omega) hy)
    have ey1 : a[i1] = y1 := by
      rw [List.getElem?_eq_getElem hi1] at hy1; exact Option.some.inj hy1
    have ey2 : a[j1] = y2 := by
      rw [List.getElem?_eq_getElem hj1] at hy2; exact Option.some.inj hy2
    unfold partition_loop
    rw [s1, t1]
    simp only [except_ok_bind]
    by_cases hge : (i1 : Int) ≥ (j1 : Int)
    · simp only [hge, if_true]
      have hge1 : j1 ≤ i1 := by omega
      refine ⟨a, i1, rfl, List.Perm.refl a, s2, hi1, hL1, ?_, ?_⟩
      · intro m y hm hy
        by_cases hmi : m = i1
        · subst hmi
          rw [hy1] at hy
          cases hy
          exact le_of_not_lt_total hy1p
        · exact hR1 m y (by omega) hy
      · rintro (h | ⟨h1, h2, y, hy, hyp⟩)
        · omega
        · have : j1 = j := by
            by_contra hne
            exact hyp (t4 j y (by omega) (le_refl _) hy)
          omega
    · simp only [hge, if_false]
      have hlt : i1 < j1 := by omega
      rw [read_int_natCast, read_int_natCast, read_at_of_lt a i1 hi1, read_at_of_lt a j1 hj1]
      simp only [except_ok_bind]
      rw [write_int_natCast, write_at_of_lt a i1 _ hi1]
      simp only [except_ok_bind]
      rw [write_int_natCast, write_at_of_lt _ j1 _ (by simpa using hj1)]
      simp only [except_ok_bind]
      have hlen : ((a.set i1 a[j1]).set j1 a[i1]).length = a.length := by simp
      have hget := getElem?_swap a i1 j1 hi1 hj1
      have ec1 : ((i1 : Int) + 1) = ((i1 + 1 : Nat) : Int) := by omega
      have ec2 : ((j1 : Int) - 1) = ((j1 - 1 : Nat) : Int) := by omega
      rw [ec1, ec2]
      obtain ⟨a1, r, g1, g2, g3, g4, g5, g6, _⟩ :=
        ih ((a.set i1 a[j1]).set j1 a[i1]) (i1 + 1) (j1 - 1) (by omega) (by omega)
          ⟨j1, a[i1], by omega, by rw [hget]; simp, by rw [ey1]; exact hy1p⟩
          ⟨i1, a[j1], by omega, by
            rw [hget]
            have : ¬ i1 = j1 := by omega
            simp [this], by rw [ey2]; exact hy2p⟩
          (by
            intro m y hm hy
            rw [hget] at hy
            by_cases hmi : m = i1
            · subst hmi
              have : ¬ m = j1 := by omega
              simp only [this, if_false, if_true] at hy
              cases hy
              rw [ey2]
              exact le_of_not_lt_total hy2p
            · have : ¬ m = j1 := by omega
              simp only [this, hmi, if_false] at hy
              exact hL1 m y (by omega) hy)
          (by
            intro m y hm hy
            rw [hget] at hy
            by_cases hmj : m = j1
            · subst hmj
              simp only [if_true] at hy
              cases hy
              rw [ey1]
              exact le_of_not_lt_total hy1p
            · have : ¬ m = i1 := by omega
              simp only [this, hmj, if_false] at hy
              exact hR1 m y (by omega) hy)
          (by omega)
      refine ⟨a1, r, g1, g2.trans (swap_perm a i1 j1 hi1 hj1), by omega, by omega, g5, g6, ?_⟩
      intro _
      omega

end PartitionLoop

section PerformQuicksort

variable {α : Type} [Preorder α] [DecidableRel (fun (x y : α) => x < y)]
  [IsTotal α (fun x y => x ≤ y)]

/-- The function `perform_quicksort` on a non-empty region: it returns normally, permutes the
region, returns an index `r < n` (at least 1 when `n ≥ 2`), and with the pivot `p` it read,
everything before `r` is at most `p` and everything from `r` on is at least `p`. -/
theorem perform_quicksort_spec (a : List α) (n : Nat) (hn : a.length = n) (h1 : 1 ≤ n) :
    ∃ (a1 : List α) (r : Nat) (p : α),
      perform_quicksort a n = Except.ok (a1, (r : Int)) ∧ pivot_value a n = Except.ok p ∧
      a1.Perm a ∧ r < n ∧
      (∀ m y, m < r → a1[m]? = some y → y ≤ p) ∧
      (∀ m y, r ≤ m → a1[m]? = some y → p ≤ y) ∧
      (2 ≤ n → 1 ≤ r) := by
  obtain ⟨a3, hm, pm⟩ := median_of_three_spec a n hn h1
  have l3 : a3.length = n := by rw [List.Perm.length_eq pm, hn]
  have e1 : ((n : Int) - 1) = ((n - 1 : Nat) : Int) := by omega
  have hlt : n - 1 < a3.length := by omega
  have hp : a3[n - 1]? = some a3[n - 1] := List.getElem?_eq_getElem hlt
  obtain ⟨a1, r, g1, g2, _, g4, g5, g6, g7⟩ :=
    partition_loop_spec a3[n - 1] (n + 1) a3 0 (n - 1) hlt (by omega)
      ⟨n - 1, a3[n - 1], by omega, hp, lt_irrefl _⟩
      ⟨n - 1, a3[n - 1], le_refl _, hp, lt_irrefl _⟩
      (fun m y hm0 _ => by omega)
      (fun m y hm1 hy => by
        rw [List.getElem?_eq_none (by omega)] at hy
        exact Option.noConfusion hy)
      (by omega)
  refine ⟨a1, r, a3[n - 1], ?_, ?_, g2.trans pm, by omega, g5, g6, ?_⟩
  · unfold perform_quicksort
    rw [hm]
    simp only [except_ok_bind]
    rw [e1, read_int_natCast, read_at_of_lt a3 _ hlt]
    simp only [except_ok_bind]
    exact g1
  · unfold pivot_value
    rw [hm]
    simp only [except_ok_bind]
    rw [e1, read_int_natCast, read_at_of_lt a3 _ hlt]
  · intro h2
    exact g7 (Or.inr ⟨by omega, by omega, a3[n - 1], hp, lt_irrefl _⟩)

/-- The result of `perform_quicksort` in terms of the two halves: the region after the call is
`l ++ r` with `l` of the returned length, and no element of `l` is above an element of `r`. -/
theorem perform_quicksort_halves (a : List α) (n : Nat) (hn : a.length = n) (h1 : 1 ≤ n) :
    ∃ (l r : List α), perform_quicksort a n = Except.ok (l ++ r, (l.length : Int)) ∧
      (l ++ r).Perm a ∧ l.length < n ∧ (2 ≤ n → 1 ≤ l.length) ∧
      (∀ x ∈ l, ∀ y ∈ r, x ≤ y) := by
  obtain ⟨a1, k, p, g1, _, g3, g4, g5, g6, g7⟩ := perform_quicksort_spec a n hn h1
  have l1 : a1.length = n := by rw [List.Perm.length_eq g3, hn]
  have hk : (a1.take k).length = k := by rw [List.length_take]; omega
  refine ⟨a1.take k, a1.drop k, ?_, ?_, by omega, by rw [hk]; exact g7, ?_⟩
  · rw [List.take_append_drop, hk]; exact g1
  · rw [List.take_append_drop]; exact g3
  · intro x hx y hy
    obtain ⟨i, hi, rfl⟩ := List.getElem_of_mem hx
    obtain ⟨j, hj, rfl⟩ := List.getElem_of_mem hy
    have hx1 : (a1.take k)[i]? = some (a1.take k)[i] := List.getElem?_eq_getElem hi
    have hy1 : (a1.drop k)[j]? = some (a1.drop k)[j] := List.getElem?_eq_getElem hj
    rw [hk] at hi
    rw [List.getElem?_take_of_lt hi] at hx1
    rw [List.getElem?_drop] at hy1
    exact le_trans (g5 i _ hi hx1) (g6 (k + j) _ (by omega) hy1)

end PerformQuicksort

section BlockLemmas

variable {α : Type}

theorem blocks_flat_nil : blocks_flat ([] : List (Block α)) = [] := rfl

theorem blocks_flat_cons (b : Block α) (bs : List (Block α)) :
    blocks_flat (b :: bs) = b.elems ++ blocks_flat bs := by
  simp [blocks_flat]

theorem blocks_flat_append (xs ys : List (Block α)) :
    blocks_flat (xs ++ ys) = blocks_flat xs ++ blocks_flat ys := by
  simp [blocks_flat]

theorem mem_blocks_flat {x : α} {bs : List (Block α)} :
    x ∈ blocks_flat bs ↔ ∃ b ∈ bs, x ∈ b.elems := by
  simp [blocks_flat]

theorem live_tasks_append (off : Nat) (xs ys : List (Block α)) :
    live_tasks off (xs ++ ys)
      = live_tasks off xs ++ live_tasks (off + (blocks_flat xs).length) ys := by
  induction xs generalizing off with
  | nil => simp [live_tasks, blocks_flat_nil]
  | cons b xs ih =>
    rw [List.cons_append, live_tasks, live_tasks, ih, blocks_flat_cons, List.length_append,
      List.append_assoc, Nat.add_assoc]

theorem done_count_append (xs ys : List (Block α)) :
    done_count (xs ++ ys) = done_count xs + done_count ys := by
  induction xs with
  | nil => simp [done_count]
  | cons b xs ih => rw [List.cons_append, done_count, done_count, ih, Nat.add_assoc]

theorem done_count_le (bs : List (Block α)) : done_count bs ≤ (blocks_flat bs).length := by
  induction bs with
  | nil => simp [done_count]
  | cons b bs ih =>
    rw [blocks_flat_cons, List.length_append, done_count]
    split <;> omega

/-- When the sorted blocks hold as many elements as the array, every other block is empty. -/
theorem empty_of_done_count_eq (bs : List (Block α))
    (h : done_count bs = (blocks_flat bs).length) :
    ∀ b ∈ bs, b.st ≠ Status.done → b.elems = [] := by
  induction bs with
  | nil => intro b hb; simp at hb
  | cons c bs ih =>
    rw [blocks_flat_cons, List.length_append, done_count] at h
    have hle := done_count_le bs
    intro b hb hst
    rcases List.mem_cons.1 hb with rfl | hb
    · rw [if_neg hst] at h
      exact List.length_eq_zero.1 (by omega)
    · refine ih ?_ b hb hst
      split at h <;> omega

theorem region_mid (pre e post : List α) : region (pre ++ e ++ post) pre.length e.length = e := by
  simp [region]

theorem region_store_mid (pre e post r : List α) (h : r.length = e.length) :
    region_store (pre ++ e ++ post) pre.length r = pre ++ r ++ post := by
  simp [region_store, h]

/-- A live task is the task of a live block. -/
theorem mem_live_tasks {t : quicksort_data} : ∀ {bs : List (Block α)} {off : Nat},
    t ∈ live_tasks off bs →
    ∃ pre b post, bs = pre ++ b :: post ∧ b.st = Status.live ∧
      t = { a := off + (blocks_flat pre).length, pivot := b.elems.length } := by
  intro bs
  induction bs with
  | nil => intro off h; simp [live_tasks] at h
  | cons c bs ih =>
    intro off h
    rw [live_tasks, List.mem_append] at h
    rcases h with h | h
    · by_cases hc : c.st = Status.live
      · rw [if_pos hc, List.mem_singleton] at h
        exact ⟨[], c, bs, rfl, hc, by simp [h, blocks_flat_nil]⟩
      · rw [if_neg hc] at h
        simp at h
    · obtain ⟨pre, b, post, h1, h2, h3⟩ := ih h
      refine ⟨c :: pre, b, post, by simp [h1], h2, ?_⟩
      rw [h3, blocks_flat_cons, List.length_append, Nat.add_assoc]

variable [Preorder α]

/-- Blocks that are sorted and in order make up a sorted array. -/
theorem pairwise_blocks_flat (bs : List (Block α))
    (horder : bs.Pairwise block_le)
    (hsorted : ∀ b ∈ bs, b.elems.Pairwise (fun x y => x ≤ y)) :
    (blocks_flat bs).Pairwise (fun x y => x ≤ y) := by
  induction bs with
  | nil => simp [blocks_flat_nil]
  | cons c bs ih =>
    rw [blocks_flat_cons, List.pairwise_append]
    rw [List.pairwise_cons] at horder
    refine ⟨hsorted c (List.mem_cons_self _ _),
      ih horder.2 (fun b hb => hsorted b (List.mem_cons_of_mem _ hb)), ?_⟩
    intro x hx y hy
    obtain ⟨b, hb, hyb⟩ := mem_blocks_flat.1 hy
    exact horder.1 b hb x hx y hyb

end BlockLemmas

section StepLemmas

variable {α : Type}

theorem pairwise_replace_one {β : Type} (R : β → β → Prop) (pre post : List β) (b c : β)
    (h1 : ∀ d, R d b → R d c) (h2 : ∀ d, R b d → R c d)
    (h : (pre ++ b :: post).Pairwise R) : (pre ++ c :: post).Pairwise R := by
  rw [List.pairwise_append, List.pairwise_cons] at h ⊢
  refine ⟨h.1, ⟨fun d hd => h2 d (h.2.1.1 d hd), h.2.1.2⟩, ?_⟩
  intro x hx y hy
  rcases List.mem_cons.1 hy with rfl | hy
  · exact h1 x (h.2.2 x hx b (List.mem_cons_self _ _))
  · exact h.2.2 x hx y (List.mem_cons_of_mem _ hy)

theorem pairwise_replace_two {β : Type} (R : β → β → Prop) (pre post : List β) (b c1 c2 : β)
    (h1 : ∀ d, R d b → R d c1 ∧ R d c2) (h2 : ∀ d, R b d → R c1 d ∧ R c2 d) (h12 : R c1 c2)
    (h : (pre ++ b :: post).Pairwise R) : (pre ++ c1 :: c2 :: post).Pairwise R := by
  rw [List.pairwise_append, List.pairwise_cons] at h
  rw [List.pairwise_append, List.pairwise_cons, List.pairwise_cons]
  refine ⟨h.1, ⟨?_, fun d hd => (h2 d (h.2.1.1 d hd)).2, h.2.1.2⟩, ?_⟩
  · intro d hd
    rcases List.mem_cons.1 hd with rfl | hd
    · exact h12
    · exact (h2 d (h.2.1.1 d hd)).1
  · intro x hx y hy
    have hb := h.2.2 x hx b (List.mem_cons_self _ _)
    rcases List.mem_cons.1 hy with rfl | hy
    · exact (h1 x hb).1
    · rcases List.mem_cons.1 hy with rfl | hy
      · exact (h1 x hb).2
      · exact h.2.2 x hx y (List.mem_cons_of_mem _ hy)

theorem perm_remove_mid {β : Type} {A H1 H2 P S : List β} {t : β}
    (h : (A ++ (H1 ++ t :: H2)).Perm (P ++ t :: S)) : (A ++ (H1 ++ H2)).Perm (P ++ S) := by
  have e1 : (t :: (A ++ (H1 ++ H2))).Perm (A ++ (H1 ++ t :: H2)) := by
    rw [← List.append_assoc, ← List.append_assoc]
    exact List.perm_middle.symm
  have e2 : (P ++ t :: S).Perm (t :: (P ++ S)) := List.perm_middle
  exact List.Perm.cons_inv ((e1.trans h).trans e2)

theorem perm_insert_mid {β : Type} {A H P S : List β} (X : List β)
    (h : (A ++ H).Perm (P ++ S)) : ((A ++ X) ++ H).Perm (P ++ (X ++ S)) := by
  calc ((A ++ X) ++ H).Perm (A ++ (H ++ X)) := by
        rw [List.append_assoc]
        exact List.Perm.append_left _ List.perm_append_comm
    _ = (A ++ H) ++ X := by rw [List.append_assoc]
    _ |>.Perm ((P ++ S) ++ X) := List.Perm.append_right _ h
    _ = P ++ (S ++ X) := by rw [List.append_assoc]
    _ |>.Perm (P ++ (X ++ S)) := List.Perm.append_left _ List.perm_append_comm

theorem live_tasks_length_le : ∀ (bs : List (Block α)) (off : Nat),
    (∀ b ∈ bs, b.st = Status.live → b.elems ≠ []) →
    (live_tasks off bs).length ≤ (blocks_flat bs).length := by
  intro bs
  induction bs with
  | nil => intro off _; simp [live_tasks]
  | cons c bs ih =>
    intro off h
    rw [live_tasks, blocks_flat_cons, List.length_append, List.length_append]
    have h1 := ih (off + c.elems.length) (fun b hb => h b (List.mem_cons_of_mem _ hb))
    by_cases hc : c.st = Status.live
    · have := List.length_pos.2 (h c (List.mem_cons_self _ _) hc)
      rw [if_pos hc]
      simp only [List.length_singleton]
      omega
    · rw [if_neg hc]
      simp only [List.length_nil]
      omega

theorem weight_queued_eq (n : Nat) : weight_queued n = weight_held n + 1 := by
  unfold weight_queued weight_held
  omega

theorem weight_held_pos (n : Nat) : 1 ≤ weight_held n := by
  unfold weight_held
  omega

theorem weight_split (i k : Nat) (hi : 1 ≤ i) (hk : 1 ≤ k) :
    weight_queued i + weight_queued k < weight_held (i + k) := by
  unfold weight_queued weight_held
  omega

theorem weight_queued_lt (i k : Nat) (hi : 1 ≤ i) (hk : 1 ≤ k) :
    weight_queued i < weight_held (i + k) := by
  unfold weight_queued weight_held
  omega

variable [Preorder α]

/-- A worker that takes a task from the queue keeps the invariant. -/
theorem inv_fetch {input : List α} {cutoff : Nat} {s s1 : State α} {bs : List (Block α)}
    (h : Inv input cutoff s bs) (hs : worker_fetch s = some s1) :
    Inv input cutoff s1 bs ∧ measure s1 < measure s := by
  unfold worker_fetch get_job_from_circular_queue at hs
  by_cases he : circular_queue_empty s.global_buffer = true
  · simp [he] at hs
  · have he1 : circular_queue_empty s.global_buffer = false := by simpa using he
    obtain ⟨t, ht, hl⟩ := queue_dequeue_nonempty h.wf he1
    have hd : dequeue s.global_buffer = (some t, (dequeue s.global_buffer).2) := by
      rw [← ht]
    rw [if_neg he, hd] at hs
    simp only [Option.some.injEq] at hs
    subst hs
    constructor
    · exact
        { flat := h.flat
          perm := h.perm
          wf := queue_wf_dequeue h.wf
          tasks := by
            refine List.Perm.trans ?_ h.tasks
            show (queue_toList (dequeue s.global_buffer).2 ++ t :: s.held).Perm _
            rw [hl]
            exact List.perm_middle
          order := h.order
          sorted := h.sorted
          count := h.count
          nonempty := h.nonempty
          nolost := h.nolost
          flag := h.flag }
    · unfold measure
      show ((queue_toList (dequeue s.global_buffer).2).map _).sum + ((t :: s.held).map _).sum + _
        < _
      rw [hl]
      simp only [List.map_cons, List.sum_cons]
      have := weight_queued_eq t.pivot
      omega

/-- The controller keeps the invariant. -/
theorem inv_control {input : List α} {cutoff : Nat} {s s1 : State α} {bs : List (Block α)}
    (h : Inv input cutoff s bs) (hs : controller s = some s1) :
    Inv input cutoff s1 bs ∧ measure s1 < measure s := by
  unfold controller at hs
  split at hs
  · exact Option.noConfusion hs
  · rename_i hlt
    split at hs
    · exact Option.noConfusion hs
    · rename_i hsh
      simp only [Option.some.injEq] at hs
      subst hs
      constructor
      · exact
          { flat := h.flat
            perm := h.perm
            wf := h.wf
            tasks := h.tasks
            order := h.order
            sorted := h.sorted
            count := h.count
            nonempty := h.nonempty
            nolost := h.nolost
            flag := by
              intro _
              have := List.Perm.length_eq h.perm
              show (input.length : Int) ≤ s.thr_data.sorted_elements
              omega }
      · unfold measure
        simp [hsh]

end StepLemmas

section ProcessLemmas

variable {α : Type} [Preorder α] [DecidableRel (fun (x y : α) => x < y)]
  [IsTotal α (fun x y => x ≤ y)]

/-- The function `perform_insertion_sort` on the region `e` of the array `pre ++ e ++ post`:
it returns normally, sorts the region in place and adds its length to `sorted_elements`. -/
theorem perform_insertion_sort_spec (pre e post : List α) (thr : thread_data) :
    ∃ e1, perform_insertion_sort (pre ++ e ++ post) pre.length (e.length : Int) thr
        = Except.ok (pre ++ e1 ++ post,
            { thr with sorted_elements := thr.sorted_elements + (e.length : Int) }) ∧
      e1.Perm e ∧ e1.Pairwise (fun x y => x ≤ y) := by
  unfold perform_insertion_sort
  by_cases hn : (e.length : Int) > 1
  · obtain ⟨e1, h1, h2, h3⟩ := inssort_spec e e.length rfl
    refine ⟨e1, ?_, h2, h3⟩
    simp only [hn, if_true, Int.toNat_ofNat, region_mid, h1, Except.map]
    rw [region_store_mid pre e post e1 (List.Perm.length_eq h2)]
    rfl
  · refine ⟨e, ?_, List.Perm.refl e, ?_⟩
    · simp only [hn, if_false]
      rfl
    · have hl : e.length ≤ 1 := by omega
      match e, hl with
      | [], _ => exact List.Pairwise.nil
      | [x], _ => exact List.pairwise_singleton _ x

omit [DecidableRel (fun (x y : α) => x < y)] [IsTotal α (fun x y => x ≤ y)] in
/-- The block of a task that a worker holds. -/
theorem held_block {input : List α} {cutoff : Nat} {s : State α} {bs : List (Block α)}
    (h : Inv input cutoff s bs) {h1 h2 : List quicksort_data} {q : quicksort_data}
    (hh : s.held = h1 ++ q :: h2) :
    ∃ pre b post, bs = pre ++ b :: post ∧ b.st = Status.live ∧
      q = { a := (blocks_flat pre).length, pivot := b.elems.length } ∧
      (queue_toList s.global_buffer ++ (h1 ++ h2)).Perm
        (live_tasks 0 pre ++ live_tasks ((blocks_flat pre).length + b.elems.length) post) := by
  have hmem : q ∈ live_tasks 0 bs := by
    refine h.tasks.subset ?_
    rw [hh]
    simp
  obtain ⟨pre, b, post, e1, e2, e3⟩ := mem_live_tasks hmem
  rw [Nat.zero_add] at e3
  refine ⟨pre, b, post, e1, e2, e3, ?_⟩
  have ht := h.tasks
  rw [hh, e1, live_tasks_append, live_tasks, if_pos e2, Nat.zero_add, ← e3] at ht
  exact perm_remove_mid ht

end ProcessLemmas

section LeafLemmas

variable {α : Type} [Preorder α] [DecidableRel (fun (x y : α) => x < y)]
  [IsTotal α (fun x y => x ≤ y)]

/-- A worker that holds a task of length at most `cutoff` can process it, and this keeps the
invariant. -/
theorem inv_leaf {input : List α} {cutoff : Nat} {s : State α} {bs : List (Block α)}
    (h : Inv input cutoff s bs) {h1 h2 : List quicksort_data} {q : quicksort_data}
    (hh : s.held = h1 ++ q :: h2) (hle : q.pivot ≤ cutoff) :
    ∃ s1 bs1, worker_process cutoff s q (h1 ++ h2) = some s1 ∧ Inv input cutoff s1 bs1 ∧
      measure s1 < measure s := by
  obtain ⟨pre, b, post, e1, e2, e3, hperm⟩ := held_block h hh
  have hflat : s.a = blocks_flat pre ++ b.elems ++ blocks_flat post := by
    rw [h.flat, e1, blocks_flat_append, blocks_flat_cons, List.append_assoc]
  obtain ⟨el, hrun, hp, hsorted⟩ :=
    perform_insertion_sort_spec (blocks_flat pre) b.elems (blocks_flat post) s.thr_data
  have hqa : q.a = (blocks_flat pre).length := by rw [e3]
  have hqn : q.pivot = b.elems.length := by rw [e3]
  have hlen : el.length = b.elems.length := List.Perm.length_eq hp
  refine ⟨{ s with
      a := blocks_flat pre ++ el ++ blocks_flat post
      thr_data := { s.thr_data with
        sorted_elements := s.thr_data.sorted_elements + (b.elems.length : Int) }
      held := h1 ++ h2 }, pre ++ { elems := el, st := Status.done } :: post, ?_, ?_, ?_⟩
  · unfold worker_process
    simp only [hle, if_true]
    rw [hflat, hqa, hqn, hrun]
  · exact
      { flat := by
          show blocks_flat pre ++ el ++ blocks_flat post = _
          rw [blocks_flat_append, blocks_flat_cons, List.append_assoc]
        perm := by
          show (blocks_flat pre ++ el ++ blocks_flat post).Perm input
          refine List.Perm.trans ?_ h.perm
          rw [hflat]
          exact List.Perm.append_right _ (List.Perm.append_left _ hp)
        wf := h.wf
        tasks := by
          show (queue_toList s.global_buffer ++ (h1 ++ h2)).Perm _
          rw [live_tasks_append, live_tasks]
          simp only [Nat.zero_add, hlen]
          exact hperm
        order := by
          rw [e1] at h
          refine pairwise_replace_one block_le pre post b _ ?_ ?_ h.order
          · intro d hd x hx y hy
            exact hd x hx y (hp.subset hy)
          · intro d hd x hx y hy
            exact hd x (hp.subset hx) y hy
        sorted := by
          intro c hc hst
          rw [List.mem_append, List.mem_cons] at hc
          rcases hc with hc | rfl | hc
          · exact h.sorted c (by rw [e1]; simp [hc]) hst
          · exact hsorted
          · exact h.sorted c (by rw [e1]; simp [hc]) hst
        count := by
          show s.thr_data.sorted_elements + (b.elems.length : Int) = _
          rw [h.count, e1, done_count_append, done_count_append, done_count, done_count]
          simp only [e2, hlen, if_true]
          simp
          omega
        nonempty := by
          intro hc hn c hc1 hst
          rw [List.mem_append, List.mem_cons] at hc1
          rcases hc1 with hc1 | rfl | hc1
          · exact h.nonempty hc hn c (by rw [e1]; simp [hc1]) hst
          · exact Status.noConfusion hst
          · exact h.nonempty hc hn c (by rw [e1]; simp [hc1]) hst
        nolost := by
          intro hc hn c hc1
          rw [List.mem_append, List.mem_cons] at hc1
          rcases hc1 with hc1 | rfl | hc1
          · exact h.nolost hc hn c (by rw [e1]; simp [hc1])
          · exact fun hx => Status.noConfusion hx
          · exact h.nolost hc hn c (by rw [e1]; simp [hc1])
        flag := by
          intro hsd
          have := h.flag hsd
          show (input.length : Int) ≤ s.thr_data.sorted_elements + (b.elems.length : Int)
          omega }
  · unfold measure
    show _ + ((h1 ++ h2).map _).sum + _ < _
    rw [hh]
    simp only [List.map_append, List.map_cons, List.sum_append, List.sum_cons]
    have := weight_held_pos q.pivot
    omega

end LeafLemmas

section SplitLemmas

/-- The function `add_jobs_to_circular_queue` on a queue that is not full: the first child is
stored, the second one only if the first one did not fill the queue. -/
theorem add_jobs_spec {q : circular_queue} (hwf : queue_wf q)
    (hf : circular_queue_full q = false) (a i n : Nat) (hin : i ≤ n) :
    ∃ q1, add_jobs_to_circular_queue q a (i : Int) (n : Int) = some q1 ∧ queue_wf q1 ∧
      queue_toList q1 = queue_toList q ++
        ({ a := a, pivot := i } ::
          if queue_count q + 1 < 1000 then [{ a := a + i, pivot := n - i }] else []) := by
  have e2 : ((n : Int) - (i : Int)).toNat = n - i := by omega
  refine ⟨enqueue (enqueue q { a := a, pivot := i }) { a := a + i, pivot := n - i }, ?_,
    queue_wf_enqueue _ (queue_wf_enqueue _ hwf), ?_⟩
  · unfold add_jobs_to_circular_queue
    simp only [hf, Bool.false_eq_true, if_false, child_tasks, Int.toNat_ofNat, e2]
  · have hwf1 := queue_wf_enqueue { a := a, pivot := i } hwf
    have hc1 := queue_count_enqueue { a := a, pivot := i } hwf hf
    have hl1 := queue_toList_enqueue { a := a, pivot := i } hwf hf
    by_cases hroom : queue_count q + 1 < 1000
    · have hf1 : circular_queue_full (enqueue q { a := a, pivot := i }) = false := by
        cases hfull : circular_queue_full (enqueue q { a := a, pivot := i })
        · rfl
        · have := (queue_full_iff hwf1).1 hfull
          omega
      rw [queue_toList_enqueue _ hwf1 hf1, hl1, if_pos hroom, List.append_assoc]
      rfl
    · have hle := queue_count_le hwf1
      have hfull : circular_queue_full (enqueue q { a := a, pivot := i }) = true :=
        (queue_full_iff hwf1).2 (by omega)
      rw [enqueue_full _ hfull, hl1, if_neg hroom]

theorem add_jobs_full {q : circular_queue} (hf : circular_queue_full q = true)
    (a : Nat) (i n : Int) : add_jobs_to_circular_queue q a i n = none := by
  simp [add_jobs_to_circular_queue, hf]

variable {α : Type} [Preorder α]

/-- With a cut-off of at least 1 and at most 1000 elements, the queue has room for two more
tasks whenever a worker holds a task above the cut-off. -/
theorem queue_room {input : List α} {cutoff : Nat} {s : State α} {bs : List (Block α)}
    (h : Inv input cutoff s bs) {h1 h2 : List quicksort_data} {q : quicksort_data}
    (hh : s.held = h1 ++ q :: h2) (hgt : cutoff < q.pivot) (hc : 1 ≤ cutoff)
    (hN : input.length ≤ 1000) : queue_count s.global_buffer + 2 ≤ 1000 := by
  obtain ⟨pre, b, post, e1, e2, e3, hperm⟩ := held_block h hh
  have hqn : q.pivot = b.elems.length := by rw [e3]
  have hlenN : input.length = (blocks_flat pre).length + b.elems.length
      + (blocks_flat post).length := by
    rw [← List.Perm.length_eq h.perm, h.flat, e1, blocks_flat_append, blocks_flat_cons]
    simp only [List.length_append]
    omega
  have hne := h.nonempty hc (by omega)
  have hpre := live_tasks_length_le pre 0
    (fun c hc1 => hne c (by rw [e1]; simp [hc1]))
  have hpost := live_tasks_length_le post ((blocks_flat pre).length + b.elems.length)
    (fun c hc1 => hne c (by rw [e1]; simp [hc1]))
  have hl := List.Perm.length_eq hperm
  simp only [List.length_append, queue_length_toList] at hl
  omega

end SplitLemmas

section SplitStep

variable {α : Type} [Preorder α] [DecidableRel (fun (x y : α) => x < y)]
  [IsTotal α (fun x y => x ≤ y)]

/-- A worker that holds a task above the cut-off can split it when the queue is not full, and
this keeps the invariant. -/
theorem inv_split {input : List α} {cutoff : Nat} {s : State α} {bs : List (Block α)}
    (h : Inv input cutoff s bs) {h1 h2 : List quicksort_data} {q : quicksort_data}
    (hh : s.held = h1 ++ q :: h2) (hgt : cutoff < q.pivot)
    (hf : circular_queue_full s.global_buffer = false) :
    ∃ s1 bs1, worker_process cutoff s q (h1 ++ h2) = some s1 ∧ Inv input cutoff s1 bs1 ∧
      (1 ≤ cutoff → measure s1 < measure s) := by
  obtain ⟨pre, b, post, e1, e2, e3, hperm⟩ := held_block h hh
  have hflat : s.a = blocks_flat pre ++ b.elems ++ blocks_flat post := by
    rw [h.flat, e1, blocks_flat_append, blocks_flat_cons, List.append_assoc]
  have hqa : q.a = (blocks_flat pre).length := by rw [e3]
  have hqn : q.pivot = b.elems.length := by rw [e3]
  have hn1 : 1 ≤ b.elems.length := by omega
  obtain ⟨l, r, hrun, hp, hlt, hge, hlr⟩ :=
    perform_quicksort_halves b.elems b.elems.length rfl hn1
  have hlen : l.length + r.length = b.elems.length := by
    rw [← List.length_append, List.Perm.length_eq hp]
  obtain ⟨q1, hadd, hwf1, hl1⟩ :=
    add_jobs_spec h.wf hf (blocks_flat pre).length l.length b.elems.length (by omega)
  have hr : b.elems.length - l.length = r.length := by omega
  rw [hr] at hl1
  refine ⟨{ s with
      a := blocks_flat pre ++ (l ++ r) ++ blocks_flat post
      global_buffer := q1
      held := h1 ++ h2 },
    pre ++ { elems := l, st := Status.live } ::
      { elems := r, st := if queue_count s.global_buffer + 1 < 1000 then Status.live
          else Status.lost } :: post, ?_, ?_, ?_⟩
  · unfold worker_process
    have hng : ¬ q.pivot ≤ cutoff := by omega
    simp only [hng, if_false]
    rw [hflat, hqa, hqn, region_mid, hrun]
    simp only [hadd]
    rw [region_store_mid _ b.elems _ (l ++ r) (List.Perm.length_eq hp)]
  · exact
      { flat := by
          show blocks_flat pre ++ (l ++ r) ++ blocks_flat post = _
          rw [blocks_flat_append, blocks_flat_cons, blocks_flat_cons]
          simp only [List.append_assoc]
        perm := by
          show (blocks_flat pre ++ (l ++ r) ++ blocks_flat post).Perm input
          refine List.Perm.trans ?_ h.perm
          rw [hflat]
          exact List.Perm.append_right _ (List.Perm.append_left _ hp)
        wf := hwf1
        tasks := by
          show (queue_toList q1 ++ (h1 ++ h2)).Perm _
          rw [hl1, live_tasks_append, live_tasks, live_tasks]
          simp only [Nat.zero_add, if_true]
          have hoff : (blocks_flat pre).length + l.length + r.length
              = (blocks_flat pre).length + b.elems.length := by omega
          rw [hoff]
          have := perm_insert_mid
            ({ a := (blocks_flat pre).length, pivot := l.length } ::
              if queue_count s.global_buffer + 1 < 1000 then
                [({ a := (blocks_flat pre).length + l.length, pivot := r.length } :
                  quicksort_data)]
              else []) hperm
          refine List.Perm.trans this ?_
          by_cases hroom : queue_count s.global_buffer + 1 < 1000
          · simp [hroom]
          · simp [hroom]
        order := by
          rw [e1] at h
          refine pairwise_replace_two block_le pre post b _ _ ?_ ?_ ?_ h.order
          · intro d hd
            exact ⟨fun x hx y hy => hd x hx y (hp.subset (List.mem_append_left _ hy)),
              fun x hx y hy => hd x hx y (hp.subset (List.mem_append_right _ hy))⟩
          · intro d hd
            exact ⟨fun x hx y hy => hd x (hp.subset (List.mem_append_left _ hx)) y hy,
              fun x hx y hy => hd x (hp.subset (List.mem_append_right _ hx)) y hy⟩
          · exact hlr
        sorted := by
          intro c hc hst
          rw [List.mem_append, List.mem_cons, List.mem_cons] at hc
          rcases hc with hc | rfl | rfl | hc
          · exact h.sorted c (by rw [e1]; simp [hc]) hst
          · exact Status.noConfusion hst
          · exfalso
            revert hst
            show (if _ then Status.live else Status.lost) = Status.done → False
            split <;> exact fun hx => Status.noConfusion hx
          · exact h.sorted c (by rw [e1]; simp [hc]) hst
        count := by
          show s.thr_data.sorted_elements = _
          rw [h.count, e1, done_count_append, done_count_append, done_count, done_count,
            done_count]
          have hs2 : ¬ (if queue_count s.global_buffer + 1 < 1000 then Status.live
              else Status.lost) = Status.done := by
            split <;> exact fun hx => Status.noConfusion hx
          simp [e2, hs2]
        nonempty := by
          intro hc hn c hc1 hst
          have hl0 : 1 ≤ l.length := hge (by omega)
          rw [List.mem_append, List.mem_cons, List.mem_cons] at hc1
          rcases hc1 with hc1 | rfl | rfl | hc1
          · exact h.nonempty hc hn c (by rw [e1]; simp [hc1]) hst
          · exact List.ne_nil_of_length_pos hl0
          · refine List.ne_nil_of_length_pos ?_
            show 0 < r.length
            omega
          · exact h.nonempty hc hn c (by rw [e1]; simp [hc1]) hst
        nolost := by
          intro hc hn c hc1
          have hroom := queue_room h hh hgt hc hn
          rw [List.mem_append, List.mem_cons, List.mem_cons] at hc1
          rcases hc1 with hc1 | rfl | rfl | hc1
          · exact h.nolost hc hn c (by rw [e1]; simp [hc1])
          · exact fun hx => Status.noConfusion hx
          · have : queue_count s.global_buffer + 1 < 1000 := by omega
            simp [this]
          · exact h.nolost hc hn c (by rw [e1]; simp [hc1])
        flag := h.flag }
  · intro hc
    have hl0 : 1 ≤ l.length := hge (by omega)
    have hr0 : 1 ≤ r.length := by omega
    unfold measure
    show ((queue_toList q1).map _).sum + ((h1 ++ h2).map _).sum + _ < _
    rw [hl1, hh]
    simp only [List.map_append, List.map_cons, List.sum_append, List.sum_cons]
    rw [hqn, ← hlen]
    have w1 := weight_split l.length r.length hl0 hr0
    have w2 := weight_queued_lt l.length r.length hl0 hr0
    by_cases hroom : queue_count s.global_buffer + 1 < 1000
    · simp only [hroom, if_true, List.map_cons, List.map_nil, List.sum_cons, List.sum_nil]
      omega
    · simp only [hroom, if_false, List.map_nil, List.sum_nil]
      omega

end SplitStep

section RunLemmas

theorem queue_init_not_full (buf : Int → quicksort_data) :
    circular_queue_full (queue_init buf) = false := by
  simp [circular_queue_full, queue_init, CIRCULAR_QUEUE_SIZE]

theorem queue_toList_init (buf : Int → quicksort_data) : queue_toList (queue_init buf) = [] := by
  simp [queue_toList, queue_count, queue_init]

variable {α : Type} [Preorder α] [DecidableRel (fun (x y : α) => x < y)]
  [IsTotal α (fun x y => x ≤ y)]

omit [DecidableRel (fun (x y : α) => x < y)] [IsTotal α (fun x y => x ≤ y)] in
/-- The invariant holds when `main` starts the workers. -/
theorem inv_initial (input : List α) (buf : Int → quicksort_data) (cutoff : Nat) :
    Inv input cutoff (initial_state input buf) [{ elems := input, st := Status.live }] :=
  { flat := by simp [initial_state, blocks_flat]
    perm := List.Perm.refl _
    wf := queue_wf_enqueue _ (queue_wf_init buf)
    tasks := by
      show (queue_toList (enqueue (queue_init buf) _) ++ []).Perm _
      rw [queue_toList_enqueue _ (queue_wf_init buf) (queue_init_not_full buf),
        queue_toList_init]
      simp [live_tasks]
    order := List.pairwise_singleton _ _
    sorted := by
      intro b hb hst
      rw [List.mem_singleton] at hb
      subst hb
      exact Status.noConfusion hst
    count := by simp [initial_state, done_count]
    nonempty := by
      intro _ hn b hb _
      rw [List.mem_singleton] at hb
      subst hb
      exact List.ne_nil_of_length_pos hn
    nolost := by
      intro _ _ b hb
      rw [List.mem_singleton] at hb
      subst hb
      exact fun hx => Status.noConfusion hx
    flag := by
      intro hsd
      exact Bool.noConfusion hsd }

omit [IsTotal α (fun x y => x ≤ y)] in
theorem worker_process_full {cutoff : Nat} {s : State α} {q : quicksort_data}
    {rest : List quicksort_data} (hgt : cutoff < q.pivot)
    (hf : circular_queue_full s.global_buffer = true) :
    worker_process cutoff s q rest = none := by
  unfold worker_process
  have hng : ¬ q.pivot ≤ cutoff := by omega
  simp only [hng, if_false]
  split
  · rw [add_jobs_full hf]
  · rfl

/-- Every step keeps the invariant, and decreases the measure when the cut-off is at least 1. -/
theorem inv_step {input : List α} {cutoff : Nat} {s s1 : State α} {bs : List (Block α)}
    (h : Inv input cutoff s bs) (hs : Step cutoff s s1) :
    ∃ bs1, Inv input cutoff s1 bs1 ∧ (1 ≤ cutoff → measure s1 < measure s) := by
  cases hs with
  | fetch hf =>
    obtain ⟨g1, g2⟩ := inv_fetch h hf
    exact ⟨bs, g1, fun _ => g2⟩
  | process h1 h2 q hh hp =>
    by_cases hle : q.pivot ≤ cutoff
    · obtain ⟨s2, bs2, g1, g2, g3⟩ := inv_leaf h hh hle
      rw [hp] at g1
      cases g1
      exact ⟨bs2, g2, fun _ => g3⟩
    · cases hfull : circular_queue_full s.global_buffer
      · obtain ⟨s2, bs2, g1, g2, g3⟩ := inv_split h hh (by omega) hfull
        rw [hp] at g1
        cases g1
        exact ⟨bs2, g2, g3⟩
      · rw [worker_process_full (by omega) hfull] at hp
        exact Option.noConfusion hp
  | control hc =>
    obtain ⟨g1, g2⟩ := inv_control h hc
    exact ⟨bs, g1, fun _ => g2⟩

/-- The invariant holds in every state of a run from the initial state. -/
theorem inv_reachable {input : List α} {buf : Int → quicksort_data} {cutoff : Nat}
    {s : State α} (hr : Reachable cutoff (initial_state input buf) s) :
    ∃ bs, Inv input cutoff s bs := by
  induction hr with
  | refl => exact ⟨_, inv_initial input buf cutoff⟩
  | step _ hs ih =>
    obtain ⟨bs, hb⟩ := ih
    obtain ⟨bs1, g, _⟩ := inv_step hb hs
    exact ⟨bs1, g⟩

omit [IsTotal α (fun x y => x ≤ y)] in
theorem reachable_trans {cutoff : Nat} {s1 s2 s3 : State α}
    (h1 : Reachable cutoff s1 s2) (h2 : Reachable cutoff s2 s3) : Reachable cutoff s1 s3 := by
  induction h2 with
  | refl => exact h1
  | step _ hs ih => exact Reachable.step ih hs

omit [IsTotal α (fun x y => x ≤ y)] in
/-- An iteration of a single worker is two steps of the program. -/
theorem reachable_worker_iteration {cutoff : Nat} {s s1 : State α}
    (h : worker_iteration cutoff s = some s1) : Reachable cutoff s s1 := by
  unfold worker_iteration at h
  cases hf : worker_fetch s with
  | none => rw [hf] at h; exact Option.noConfusion h
  | some s2 =>
    rw [hf] at h
    simp only at h
    cases hh : s2.held with
    | nil => rw [hh] at h; exact Option.noConfusion h
    | cons q rest =>
      rw [hh] at h
      simp only at h
      exact Reachable.step (Reachable.step Reachable.refl (Step.fetch hf))
        (Step.process [] rest q hh h)

omit [IsTotal α (fun x y => x ≤ y)] in
/-- The run of a single worker is a run of the program. -/
theorem reachable_worker_run (cutoff : Nat) : ∀ (fuel : Nat) (s : State α),
    Reachable cutoff s (worker_run cutoff fuel s) := by
  intro fuel
  induction fuel with
  | zero => intro s; exact Reachable.refl
  | succ fuel ih =>
    intro s
    unfold worker_run
    cases h : worker_iteration cutoff s with
    | none => exact Reachable.refl
    | some s1 => exact reachable_trans (reachable_worker_iteration h) (ih s1)

end RunLemmas

section Claims

theorem live_tasks_bounds {α : Type} : ∀ (bs : List (Block α)) (off : Nat),
    (∀ t ∈ live_tasks off bs, off ≤ t.a ∧ t.a + t.pivot ≤ off + (blocks_flat bs).length) ∧
    (live_tasks off bs).Pairwise (fun t1 t2 => t1.a + t1.pivot ≤ t2.a) := by
  intro bs
  induction bs with
  | nil => intro off; simp [live_tasks]
  | cons c bs ih =>
    intro off
    obtain ⟨g1, g2⟩ := ih (off + c.elems.length)
    have hb : ∀ t ∈ live_tasks (off + c.elems.length) bs,
        off + c.elems.length ≤ t.a ∧
          t.a + t.pivot ≤ off + (blocks_flat (c :: bs)).length := by
      intro t ht
      have := g1 t ht
      rw [blocks_flat_cons, List.length_append]
      omega
    rw [live_tasks]
    by_cases hc : c.st = Status.live
    · rw [if_pos hc]
      constructor
      · intro t ht
        rw [List.singleton_append, List.mem_cons] at ht
        rcases ht with rfl | ht
        · rw [blocks_flat_cons, List.length_append]
          simp only
          omega
        · have := hb t ht
          omega
      · rw [List.singleton_append, List.pairwise_cons]
        exact ⟨fun t ht => (hb t ht).1, g2⟩
    · rw [if_neg hc, List.nil_append]
      exact ⟨fun t ht => by have := hb t ht; omega, g2⟩

variable {α : Type} [Preorder α] [DecidableRel (fun (x y : α) => x < y)]
  [IsTotal α (fun x y => x ≤ y)]

omit [DecidableRel (fun (x y : α) => x < y)] [IsTotal α (fun x y => x ≤ y)] in
theorem nondecreasing_of_pairwise {a : List α} (h : a.Pairwise (fun x y => x ≤ y)) :
    nondecreasing a := by
  intro i hi
  exact (List.pairwise_iff_getElem.1 h) i (i + 1) (by omega) hi (by omega)

/-- C1: in every run of the worker loop that starts with only the root task in the queue, any
state in which `sorted_elements` equals `N` has the whole array non-decreasing. -/
theorem sorted_when_all_counted (input : List α) (buf : Int → quicksort_data) (cutoff : Nat)
    (s : State α) (hr : Reachable cutoff (initial_state input buf) s)
    (hN : s.thr_data.sorted_elements = (input.length : Int)) : nondecreasing s.a := by
  obtain ⟨bs, h⟩ := inv_reachable hr
  have hlen : (blocks_flat bs).length = input.length := by
    rw [← h.flat, List.Perm.length_eq h.perm]
  have hcount : done_count bs = (blocks_flat bs).length := by
    have := h.count
    omega
  have hempty := empty_of_done_count_eq bs hcount
  rw [h.flat]
  refine nondecreasing_of_pairwise (pairwise_blocks_flat bs h.order ?_)
  intro b hb
  by_cases hst : b.st = Status.done
  · exact h.sorted b hb hst
  · rw [hempty b hb hst]
    exact List.Pairwise.nil

/-- Witness of C1: the run of one worker on `[3, 1, 2]` with cut-off 1 reaches a state with
`sorted_elements = 3`, and the array of this state is non-decreasing. -/
theorem sorted_when_all_counted_witness :
    Reachable 1 (initial_state ([3, 1, 2] : List Int) (fun _ => { a := 0, pivot := 0 }))
        (worker_run 1 5 (initial_state ([3, 1, 2] : List Int) (fun _ => { a := 0, pivot := 0 }))) ∧
      (worker_run 1 5 (initial_state ([3, 1, 2] : List Int)
        (fun _ => { a := 0, pivot := 0 }))).thr_data.sorted_elements
          = (([3, 1, 2] : List Int).length : Int) ∧
      nondecreasing (worker_run 1 5 (initial_state ([3, 1, 2] : List Int)
        (fun _ => { a := 0, pivot := 0 }))).a :=
  ⟨reachable_worker_run 1 5 _, by decide,
    sorted_when_all_counted _ _ 1 _ (reachable_worker_run 1 5 _) (by decide)⟩

/-- C2: in every state that the worker loop reaches, the multiset of the elements of the array
is the multiset of the elements of the input. -/
theorem permutation_of_input (input : List α) (buf : Int → quicksort_data) (cutoff : Nat)
    (s : State α) (hr : Reachable cutoff (initial_state input buf) s) :
    (s.a : Multiset α) = (input : Multiset α) := by
  obtain ⟨bs, h⟩ := inv_reachable hr
  exact Multiset.coe_eq_coe.2 h.perm

/-- Witness of C2: the state after the run of one worker on `[3, 1, 2]` with cut-off 1. -/
theorem permutation_of_input_witness :
    Reachable 1 (initial_state ([3, 1, 2] : List Int) (fun _ => { a := 0, pivot := 0 }))
        (worker_run 1 5 (initial_state ([3, 1, 2] : List Int) (fun _ => { a := 0, pivot := 0 }))) ∧
      (((worker_run 1 5 (initial_state ([3, 1, 2] : List Int)
        (fun _ => { a := 0, pivot := 0 }))).a : List Int) : Multiset Int)
          = (([3, 1, 2] : List Int) : Multiset Int) :=
  ⟨reachable_worker_run 1 5 _,
    permutation_of_input _ _ 1 _ (reachable_worker_run 1 5 _)⟩

end Claims

section Claims2

variable {α : Type} [Preorder α] [DecidableRel (fun (x y : α) => x < y)]
  [IsTotal α (fun x y => x ≤ y)]

/-- C5: on every non-empty region `a[0..n)`, `perform_quicksort` returns an index `i` with
`0 ≤ i ≤ n`, and with the pivot value `p` that it used, every element at an index below `i` is
at most `p` and every element at an index from `i` on is at least `p`; so that every element
left of the split is at most every element at or right of it. -/
theorem partition_correct (a : List α) (n : Nat) (hn : a.length = n) (h1 : 1 ≤ n) :
    ∃ (a1 : List α) (i : Int) (p : α),
      perform_quicksort a n = Except.ok (a1, i) ∧ pivot_value a n = Except.ok p ∧
      0 ≤ i ∧ i ≤ (n : Int) ∧
      (∀ (m : Nat) (y : α), a1[m]? = some y → (m : Int) < i → y ≤ p) ∧
      (∀ (m : Nat) (y : α), a1[m]? = some y → i ≤ (m : Int) → p ≤ y) ∧
      (∀ (m1 m2 : Nat) (x y : α), a1[m1]? = some x → a1[m2]? = some y →
        (m1 : Int) < i → i ≤ (m2 : Int) → x ≤ y) := by
  obtain ⟨a1, r, p, g1, g2, _, g4, g5, g6, _⟩ := perform_quicksort_spec a n hn h1
  refine ⟨a1, (r : Int), p, g1, g2, by omega, by omega, ?_, ?_, ?_⟩
  · intro m y hy hm
    exact g5 m y (by omega) hy
  · intro m y hy hm
    exact g6 m y (by omega) hy
  · intro m1 m2 x y hx hy h1 h2
    exact le_trans (g5 m1 x (by omega) hx) (g6 m2 y (by omega) hy)

/-- Witness of C5: the region `[5, 3, 4, 1, 2]`. -/
theorem partition_correct_witness :
    ([5, 3, 4, 1, 2] : List Int).length = 5 ∧ 1 ≤ 5 ∧
    ∃ (a1 : List Int) (i : Int) (p : Int),
      perform_quicksort ([5, 3, 4, 1, 2] : List Int) 5 = Except.ok (a1, i) ∧
      pivot_value ([5, 3, 4, 1, 2] : List Int) 5 = Except.ok p ∧
      0 ≤ i ∧ i ≤ ((5 : Nat) : Int) ∧
      (∀ (m : Nat) (y : Int), a1[m]? = some y → (m : Int) < i → y ≤ p) ∧
      (∀ (m : Nat) (y : Int), a1[m]? = some y → i ≤ (m : Int) → p ≤ y) ∧
      (∀ (m1 m2 : Nat) (x y : Int), a1[m1]? = some x → a1[m2]? = some y →
        (m1 : Int) < i → i ≤ (m2 : Int) → x ≤ y) :=
  ⟨rfl, by decide, partition_correct ([5, 3, 4, 1, 2] : List Int) 5 rfl (by decide)⟩

omit [DecidableRel (fun (x y : α) => x < y)] [IsTotal α (fun x y => x ≤ y)] in
theorem live_of_inv {input : List α} {cutoff : Nat} {s : State α} {bs : List (Block α)}
    (h : Inv input cutoff s bs) :
    (∀ t ∈ live s, t.a + t.pivot ≤ input.length) ∧ (live s).Pairwise task_disjoint := by
  have hlen : (blocks_flat bs).length = input.length := by
    rw [← h.flat, List.Perm.length_eq h.perm]
  obtain ⟨g1, g2⟩ := live_tasks_bounds bs 0
  constructor
  · intro t ht
    have := (g1 t (h.tasks.subset ht)).2
    omega
  · refine List.Perm.pairwise h.tasks.symm (List.Pairwise.imp (fun hab => Or.inl hab) g2) ?_
    intro x y hxy
    exact Or.symm hxy

/-- C6: in every state that the worker loop reaches from the root task `{0, N}`, the index
ranges of the live tasks (queued or held by a worker) lie inside `[0, N)` and are pairwise
disjoint; and the two children that are built from a parent `{start, n}` and a split index `i`
are `{start, i}` and `{start + i, n - i}`, that is the ranges `[start, start + i)` and
`[start + i, start + n)`. -/
theorem regions_disjoint (input : List α) (buf : Int → quicksort_data) (cutoff : Nat)
    (s : State α) (hr : Reachable cutoff (initial_state input buf) s)
    (start n i : Nat) (hi : i ≤ n) :
    (∀ t ∈ live s, t.a + t.pivot ≤ input.length) ∧ (live s).Pairwise task_disjoint ∧
    child_tasks start (i : Int) (n : Int)
      = ({ a := start, pivot := i }, { a := start + i, pivot := n - i }) ∧
    (child_tasks start (i : Int) (n : Int)).1.a + (child_tasks start (i : Int) (n : Int)).1.pivot
      = (child_tasks start (i : Int) (n : Int)).2.a ∧
    (child_tasks start (i : Int) (n : Int)).2.a + (child_tasks start (i : Int) (n : Int)).2.pivot
      = start + n := by
  obtain ⟨bs, h⟩ := inv_reachable hr
  obtain ⟨g1, g2⟩ := live_of_inv h
  have e2 : ((n : Int) - (i : Int)).toNat = n - i := by omega
  have hc : child_tasks start (i : Int) (n : Int)
      = ({ a := start, pivot := i }, { a := start + i, pivot := n - i }) := by
    simp only [child_tasks, Int.toNat_ofNat, e2]
  refine ⟨g1, g2, hc, ?_, ?_⟩
  · rw [hc]
  · rw [hc]
    simp only
    omega

/-- Witness of C6: the state after two iterations of one worker on `[5, 3, 4, 1, 2]` with
cut-off 2 (three tasks are queued), and the children of the root task for the split index 4. -/
theorem regions_disjoint_witness :
    Reachable 2 (initial_state ([5, 3, 4, 1, 2] : List Int) (fun _ => { a := 0, pivot := 0 }))
      (worker_run 2 2 (initial_state ([5, 3, 4, 1, 2] : List Int)
        (fun _ => { a := 0, pivot := 0 }))) ∧ 4 ≤ 5 ∧
    (∀ t ∈ live (worker_run 2 2 (initial_state ([5, 3, 4, 1, 2] : List Int)
        (fun _ => { a := 0, pivot := 0 }))),
      t.a + t.pivot ≤ ([5, 3, 4, 1, 2] : List Int).length) ∧
    (live (worker_run 2 2 (initial_state ([5, 3, 4, 1, 2] : List Int)
        (fun _ => { a := 0, pivot := 0 })))).Pairwise task_disjoint ∧
    child_tasks 0 ((4 : Nat) : Int) ((5 : Nat) : Int)
      = ({ a := 0, pivot := 4 }, { a := 0 + 4, pivot := 5 - 4 }) ∧
    (child_tasks 0 ((4 : Nat) : Int) ((5 : Nat) : Int)).1.a
        + (child_tasks 0 ((4 : Nat) : Int) ((5 : Nat) : Int)).1.pivot
      = (child_tasks 0 ((4 : Nat) : Int) ((5 : Nat) : Int)).2.a ∧
    (child_tasks 0 ((4 : Nat) : Int) ((5 : Nat) : Int)).2.a
        + (child_tasks 0 ((4 : Nat) : Int) ((5 : Nat) : Int)).2.pivot
      = 0 + 5 :=
  ⟨reachable_worker_run 2 2 _, by decide,
    regions_disjoint _ _ 2 _ (reachable_worker_run 2 2 _) 0 5 4 (by decide)⟩

end Claims2

section QueueClaims

theorem queue_foldl_refines : ∀ (ops : List queue_op) (q : circular_queue)
    (l : List quicksort_data), queue_wf q → queue_toList q = l →
    queue_wf (ops.foldl queue_apply q) ∧
      queue_toList (ops.foldl queue_apply q) = ops.foldl fifo_apply l := by
  intro ops
  induction ops with
  | nil => intro q l hwf hl; exact ⟨hwf, hl⟩
  | cons op ops ih =>
    intro q l hwf hl
    rw [List.foldl_cons, List.foldl_cons]
    have hlen : l.length = queue_count q := by rw [← hl, queue_length_toList]
    cases op with
    | enq x =>
      refine ih _ _ (queue_wf_enqueue x hwf) ?_
      show queue_toList (enqueue q x) = fifo_push l x
      unfold fifo_push
      cases hf : circular_queue_full q
      · have hne : queue_count q ≠ 1000 := by
          intro hc
          rw [(queue_full_iff hwf).2 hc] at hf
          exact Bool.noConfusion hf
        have hle := queue_count_le hwf
        rw [queue_toList_enqueue x hwf hf, hl, if_pos (by omega)]
      · have := (queue_full_iff hwf).1 hf
        rw [enqueue_full x hf, hl, if_neg (by omega)]
    | deq =>
      refine ih _ _ (queue_wf_dequeue hwf) ?_
      show queue_toList (dequeue q).2 = (fifo_pop l).2
      unfold fifo_pop
      cases he : circular_queue_empty q
      · obtain ⟨t, _, ht⟩ := queue_dequeue_nonempty hwf he
        rw [← hl, ht]
        rfl
      · have := (queue_empty_iff hwf).1 he
        have hnil : l = [] := List.length_eq_zero.1 (by omega)
        rw [queue_dequeue_empty he, hl, hnil]
        rfl

/-- The queue after a sequence of calls stores the contents of the bounded FIFO of the
specification after the same calls. -/
theorem queue_run_refines (buf : Int → quicksort_data) (ops : List queue_op) :
    queue_wf (queue_run (queue_init buf) ops) ∧
      queue_toList (queue_run (queue_init buf) ops) = fifo_run ops :=
  queue_foldl_refines ops (queue_init buf) [] (queue_wf_init buf) (queue_toList_init buf)

theorem queue_drain_toList : ∀ (k : Nat) (q : circular_queue), queue_wf q →
    (queue_toList q).length = k → queue_drain k q = (queue_toList q).map some := by
  intro k
  induction k with
  | zero =>
    intro q _ hk
    rw [List.length_eq_zero.1 hk]
    rfl
  | succ k ih =>
    intro q hwf hk
    have he : circular_queue_empty q = false := by
      cases he : circular_queue_empty q
      · rfl
      · have := (queue_empty_iff hwf).1 he
        rw [queue_length_toList] at hk
        omega
    obtain ⟨t, h1, h2⟩ := queue_dequeue_nonempty hwf he
    rw [queue_drain, h1, h2, List.map_cons, ih _ (queue_wf_dequeue hwf)]
    rw [h2, List.length_cons] at hk
    omega

theorem mem_fifo_foldl {t : quicksort_data} : ∀ (ops : List queue_op)
    (l : List quicksort_data), t ∈ ops.foldl fifo_apply l → t ∈ l ∨ queue_op.enq t ∈ ops := by
  intro ops
  induction ops with
  | nil => intro l h; exact Or.inl h
  | cons op ops ih =>
    intro l h
    rw [List.foldl_cons] at h
    rcases ih _ h with h1 | h1
    · cases op with
      | enq x =>
        change t ∈ fifo_push l x at h1
        unfold fifo_push at h1
        split at h1
        · rw [List.mem_append, List.mem_singleton] at h1
          rcases h1 with h1 | rfl
          · exact Or.inl h1
          · exact Or.inr (List.mem_cons_self _ _)
        · exact Or.inl h1
      | deq =>
        change t ∈ l.tail at h1
        exact Or.inl (List.mem_of_mem_tail h1)
    · exact Or.inr (List.mem_cons_of_mem _ h1)

/-- C7: for every queue state reachable from `front = rear = -1` by calls of `enqueue` and
`dequeue`, the number of stored tasks (that of the bounded FIFO of the specification, which is
the number of slots from `front` to `rear`) is in `[0, 1000]`, `front` and `rear` are both
`-1` or both in `[0, 999]`, `circular_queue_empty` holds exactly when 0 tasks are stored and
`circular_queue_full` exactly when 1000 tasks are stored. -/
theorem queue_bound_and_detection (buf : Int → quicksort_data) (ops : List queue_op) :
    (queue_toList (queue_run (queue_init buf) ops)).length = (fifo_run ops).length ∧
    (fifo_run ops).length ≤ 1000 ∧
    (((queue_run (queue_init buf) ops).front = -1 ∧ (queue_run (queue_init buf) ops).rear = -1) ∨
      (0 ≤ (queue_run (queue_init buf) ops).front ∧
        (queue_run (queue_init buf) ops).front ≤ 999 ∧
        0 ≤ (queue_run (queue_init buf) ops).rear ∧
        (queue_run (queue_init buf) ops).rear ≤ 999)) ∧
    (circular_queue_empty (queue_run (queue_init buf) ops) = true ↔
      (fifo_run ops).length = 0) ∧
    (circular_queue_full (queue_run (queue_init buf) ops) = true ↔
      (fifo_run ops).length = 1000) := by
  obtain ⟨hwf, hl⟩ := queue_run_refines buf ops
  have hlen : (fifo_run ops).length = queue_count (queue_run (queue_init buf) ops) := by
    rw [← hl, queue_length_toList]
  refine ⟨by rw [hl], ?_, ?_, ?_, ?_⟩
  · rw [hlen]; exact queue_count_le hwf
  · rcases hwf with h | h
    · exact Or.inl h
    · right
      unfold CIRCULAR_QUEUE_SIZE at h
      omega
  · rw [hlen]; exact queue_empty_iff hwf
  · rw [hlen]; exact queue_full_iff hwf

/-- C8: the circular queue refines a bounded FIFO list: in every reachable queue state the tasks
stored from `front` to `rear` are the contents of the bounded FIFO of the specification;
`enqueue` on a queue that is not full appends the task at the tail of this list, `dequeue` on a
queue that is not empty returns the head of the list and removes it, and dequeuing everything
returns the stored tasks in the order of the list. -/
theorem queue_refines_fifo (buf : Int → quicksort_data) (ops : List queue_op) :
    queue_toList (queue_run (queue_init buf) ops) = fifo_run ops ∧
    (∀ x, circular_queue_full (queue_run (queue_init buf) ops) = false →
      queue_toList (enqueue (queue_run (queue_init buf) ops) x)
        = queue_toList (queue_run (queue_init buf) ops) ++ [x]) ∧
    (circular_queue_empty (queue_run (queue_init buf) ops) = false →
      ∃ t, (dequeue (queue_run (queue_init buf) ops)).1 = some t ∧
        queue_toList (queue_run (queue_init buf) ops)
          = t :: queue_toList (dequeue (queue_run (queue_init buf) ops)).2) ∧
    queue_drain (fifo_run ops).length (queue_run (queue_init buf) ops)
      = (fifo_run ops).map some := by
  obtain ⟨hwf, hl⟩ := queue_run_refines buf ops
  refine ⟨hl, fun x hf => queue_toList_enqueue x hwf hf,
    fun he => queue_dequeue_nonempty hwf he, ?_⟩
  rw [← hl]
  exact queue_drain_toList _ _ hwf rfl

/-- Witness of C8: after the calls `enqueue {0, 5}; enqueue {5, 3}; dequeue` the queue is
neither full nor empty. -/
theorem queue_refines_fifo_witness :
    circular_queue_full (queue_run (queue_init (fun _ => { a := 0, pivot := 0 }))
      [queue_op.enq { a := 0, pivot := 5 }, queue_op.enq { a := 5, pivot := 3 },
        queue_op.deq]) = false ∧
    circular_queue_empty (queue_run (queue_init (fun _ => { a := 0, pivot := 0 }))
      [queue_op.enq { a := 0, pivot := 5 }, queue_op.enq { a := 5, pivot := 3 },
        queue_op.deq]) = false ∧
    queue_toList (enqueue (queue_run (queue_init (fun _ => { a := 0, pivot := 0 }))
      [queue_op.enq { a := 0, pivot := 5 }, queue_op.enq { a := 5, pivot := 3 },
        queue_op.deq]) { a := 8, pivot := 1 })
      = queue_toList (queue_run (queue_init (fun _ => { a := 0, pivot := 0 }))
        [queue_op.enq { a := 0, pivot := 5 }, queue_op.enq { a := 5, pivot := 3 },
          queue_op.deq]) ++ [{ a := 8, pivot := 1 }] ∧
    ∃ t, (dequeue (queue_run (queue_init (fun _ => { a := 0, pivot := 0 }))
      [queue_op.enq { a := 0, pivot := 5 }, queue_op.enq { a := 5, pivot := 3 },
        queue_op.deq])).1 = some t ∧
      queue_toList (queue_run (queue_init (fun _ => { a := 0, pivot := 0 }))
        [queue_op.enq { a := 0, pivot := 5 }, queue_op.enq { a := 5, pivot := 3 },
          queue_op.deq])
        = t :: queue_toList (dequeue (queue_run (queue_init (fun _ => { a := 0, pivot := 0 }))
          [queue_op.enq { a := 0, pivot := 5 }, queue_op.enq { a := 5, pivot := 3 },
            queue_op.deq])).2 :=
  ⟨by decide, by decide,
    (queue_refines_fifo _ _).2.1 _ (by decide), (queue_refines_fifo _ _).2.2.1 (by decide)⟩

/-- C9: `enqueue` on a full queue leaves `front`, `rear` and every stored task unchanged; and
`get_job_from_circular_queue` calls `dequeue` only on a queue that is not empty, so that in a
reachable queue state the task it returns is one that was enqueued before (the head of the
stored tasks). -/
theorem no_overwrite_no_garbage (q0 : circular_queue) (x : quicksort_data)
    (buf : Int → quicksort_data) (ops : List queue_op) :
    (circular_queue_full q0 = true → enqueue q0 x = q0) ∧
    (∀ r q1, get_job_from_circular_queue (queue_run (queue_init buf) ops) = some (r, q1) →
      circular_queue_empty (queue_run (queue_init buf) ops) = false ∧
      dequeue (queue_run (queue_init buf) ops) = (r, q1) ∧
      ∃ t, r = some t ∧ queue_op.enq t ∈ ops ∧
        queue_toList (queue_run (queue_init buf) ops) = t :: queue_toList q1) := by
  refine ⟨fun hf => enqueue_full x hf, ?_⟩
  intro r q1 hg
  obtain ⟨hwf, hl⟩ := queue_run_refines buf ops
  unfold get_job_from_circular_queue at hg
  cases he : circular_queue_empty (queue_run (queue_init buf) ops)
  · rw [he] at hg
    simp only [Bool.false_eq_true, if_false, Option.some.injEq] at hg
    obtain ⟨t, h1, h2⟩ := queue_dequeue_nonempty hwf he
    rw [hg] at h1 h2
    refine ⟨rfl, hg, t, h1, ?_, h2⟩
    have hmem : t ∈ fifo_run ops := by
      rw [← hl, h2]
      exact List.mem_cons_self _ _
    rcases mem_fifo_foldl ops [] hmem with h | h
    · simp at h
    · exact h
  · rw [he] at hg
    simp at hg

/-- Witness of C9: a full queue (`front = 0`, `rear = 999`), and the queue after
`enqueue {0, 5}`. -/
theorem no_overwrite_no_garbage_witness :
    circular_queue_full { front := 0, rear := 999, array := fun _ => { a := 0, pivot := 0 } }
      = true ∧
    enqueue { front := 0, rear := 999, array := fun _ => { a := 0, pivot := 0 } }
        { a := 7, pivot := 1 }
      = { front := 0, rear := 999, array := fun _ => { a := 0, pivot := 0 } } ∧
    circular_queue_empty (queue_run (queue_init (fun _ => { a := 0, pivot := 0 }))
      [queue_op.enq { a := 0, pivot := 5 }]) = false ∧
    ∃ t, (dequeue (queue_run (queue_init (fun _ => { a := 0, pivot := 0 }))
        [queue_op.enq { a := 0, pivot := 5 }])).1 = some t ∧
      queue_op.enq t ∈ [queue_op.enq { a := 0, pivot := 5 }] :=
  ⟨by decide,
    (no_overwrite_no_garbage _ { a := 7, pivot := 1 } (fun _ => { a := 0, pivot := 0 }) []).1
      (by decide),
    ((no_overwrite_no_garbage (queue_init (fun _ => { a := 0, pivot := 0 }))
      { a := 0, pivot := 0 } (fun _ => { a := 0, pivot := 0 })
      [queue_op.enq { a := 0, pivot := 5 }]).2 _ _ rfl).1,
    (((no_overwrite_no_garbage (queue_init (fun _ => { a := 0, pivot := 0 }))
      { a := 0, pivot := 0 } (fun _ => { a := 0, pivot := 0 })
      [queue_op.enq { a := 0, pivot := 5 }]).2 _ _ rfl).2.2).imp
      (fun _ h => ⟨h.1, h.2.1⟩)⟩

end QueueClaims

section RunEnds

theorem live_tasks_eq_nil {α : Type} : ∀ (bs : List (Block α)) (off : Nat),
    live_tasks off bs = [] → ∀ b ∈ bs, b.st ≠ Status.live := by
  intro bs
  induction bs with
  | nil => intro _ _ b hb; simp at hb
  | cons c bs ih =>
    intro off h b hb
    rw [live_tasks, List.append_eq_nil] at h
    rcases List.mem_cons.1 hb with rfl | hb
    · intro hst
      rw [if_pos hst] at h
      exact List.cons_ne_nil _ _ h.1
    · exact ih _ h.2 b hb

theorem done_count_all_done {α : Type} : ∀ (bs : List (Block α)),
    (∀ b ∈ bs, b.st = Status.done) → done_count bs = (blocks_flat bs).length := by
  intro bs
  induction bs with
  | nil => intro _; rfl
  | cons c bs ih =>
    intro h
    rw [done_count, blocks_flat_cons, List.length_append,
      ih (fun b hb => h b (List.mem_cons_of_mem _ hb)),
      if_pos (h c (List.mem_cons_self _ _))]

variable {α : Type} [Preorder α] [DecidableRel (fun (x y : α) => x < y)]
  [IsTotal α (fun x y => x ≤ y)]

omit [DecidableRel (fun (x y : α) => x < y)] [IsTotal α (fun x y => x ≤ y)] in
/-- In a state in which `sorted_elements` is the length of the input, the array is sorted. -/
theorem pairwise_of_counted {input : List α} {cutoff : Nat} {s : State α}
    {bs : List (Block α)} (h : Inv input cutoff s bs)
    (hN : s.thr_data.sorted_elements = (input.length : Int)) :
    s.a.Pairwise (fun x y => x ≤ y) := by
  have hlen : (blocks_flat bs).length = input.length := by
    rw [← h.flat, List.Perm.length_eq h.perm]
  have hcount : done_count bs = (blocks_flat bs).length := by
    have := h.count
    omega
  have hempty := empty_of_done_count_eq bs hcount
  rw [h.flat]
  refine pairwise_blocks_flat bs h.order ?_
  intro b hb
  by_cases hst : b.st = Status.done
  · exact h.sorted b hb hst
  · rw [hempty b hb hst]
    exact List.Pairwise.nil

omit [DecidableRel (fun (x y : α) => x < y)] [IsTotal α (fun x y => x ≤ y)] in
/-- With a cut-off of at least 1 and at most 1000 elements, a state without queued or held
tasks has counted every element. -/
theorem counted_of_quiescent {input : List α} {cutoff : Nat} {s : State α}
    {bs : List (Block α)} (h : Inv input cutoff s bs) (hc : 1 ≤ cutoff)
    (hN : input.length ≤ 1000) (hq : quiescent s) :
    s.thr_data.sorted_elements = (input.length : Int) := by
  obtain ⟨hq1, hq2⟩ := hq
  have hcnt : queue_count s.global_buffer = 0 := (queue_empty_iff h.wf).1 hq1
  have hnil : queue_toList s.global_buffer = [] :=
    List.length_eq_zero.1 (by rw [queue_length_toList, hcnt])
  have ht := h.tasks
  rw [hnil, hq2, List.append_nil] at ht
  have hlive := live_tasks_eq_nil bs 0 (List.Perm.nil_eq ht).symm
  have hdone : ∀ b ∈ bs, b.st = Status.done := by
    intro b hb
    have h1 := hlive b hb
    have h2 := h.nolost hc hN b hb
    cases hst : b.st
    · exact absurd hst h1
    · rfl
    · exact absurd hst h2
  have hlen : (blocks_flat bs).length = input.length := by
    rw [← h.flat, List.Perm.length_eq h.perm]
  rw [h.count, done_count_all_done bs hdone, hlen]

/-- With a cut-off of at least 1 and at most 1000 elements, some worker can take a step in
every state with a queued or held task: no fault, and no wait on a full queue. -/
theorem progress_of_inv {input : List α} {cutoff : Nat} {s : State α}
    {bs : List (Block α)} (h : Inv input cutoff s bs) (hc : 1 ≤ cutoff)
    (hN : input.length ≤ 1000) (hq : ¬ quiescent s) : ∃ s1, Step cutoff s s1 := by
  cases hh : s.held with
  | cons q rest =>
    have hh1 : s.held = [] ++ q :: rest := by rw [hh]; rfl
    by_cases hle : q.pivot ≤ cutoff
    · obtain ⟨s1, _, g1, _⟩ := inv_leaf h hh1 hle
      exact ⟨s1, Step.process [] rest q hh1 g1⟩
    · have hroom := queue_room h hh1 (by omega) hc hN
      have hf : circular_queue_full s.global_buffer = false := by
        cases hf : circular_queue_full s.global_buffer
        · rfl
        · have := (queue_full_iff h.wf).1 hf
          omega
      obtain ⟨s1, _, g1, _⟩ := inv_split h hh1 (by omega) hf
      exact ⟨s1, Step.process [] rest q hh1 g1⟩
  | nil =>
    have he : circular_queue_empty s.global_buffer = false := by
      cases he : circular_queue_empty s.global_buffer
      · rfl
      · exact absurd ⟨he, hh⟩ hq
    obtain ⟨t, ht, _⟩ := queue_dequeue_nonempty h.wf he
    refine ⟨{ s with global_buffer := (dequeue s.global_buffer).2, held := t :: s.held },
      Step.fetch ?_⟩
    unfold worker_fetch get_job_from_circular_queue
    have hd : dequeue s.global_buffer = (some t, (dequeue s.global_buffer).2) := by
      rw [← ht]
    rw [he, hd]
    rfl

/-- C10: every run of the worker loop on `[5, 3, 4, 1, 2]` with cut-off 2 ends with the array
`[1, 2, 3, 4, 5]` and the progress counter 5: every step decreases the measure, a step is
possible as long as a task is queued or held, and a state without queued or held tasks has the
array `[1, 2, 3, 4, 5]` and `sorted_elements = 5`; the array is `[1, 2, 3, 4, 5]` whenever
`sorted_elements = 5`. -/
theorem scenario_five (buf : Int → quicksort_data) (s : State Int)
    (hr : Reachable 2 (initial_state ([5, 3, 4, 1, 2] : List Int) buf) s) :
    (∀ s1, Step 2 s s1 → measure s1 < measure s) ∧
    (¬ quiescent s → ∃ s1, Step 2 s s1) ∧
    (quiescent s → s.a = [1, 2, 3, 4, 5] ∧ s.thr_data.sorted_elements = 5) ∧
    (s.thr_data.sorted_elements = 5 → s.a = [1, 2, 3, 4, 5]) := by
  obtain ⟨bs, h⟩ := inv_reachable hr
  have hN : ([5, 3, 4, 1, 2] : List Int).length ≤ 1000 := by decide
  have hsorted : s.thr_data.sorted_elements = 5 → s.a = [1, 2, 3, 4, 5] := by
    intro h5
    have hp := pairwise_of_counted h h5
    have hperm : s.a.Perm [1, 2, 3, 4, 5] := h.perm.trans (by decide)
    exact List.eq_of_perm_of_sorted hperm hp (by decide)
  refine ⟨?_, progress_of_inv h (by decide) hN, ?_, hsorted⟩
  · intro s1 hs
    obtain ⟨_, _, g⟩ := inv_step h hs
    exact g (by decide)
  · intro hq
    have h5 := counted_of_quiescent h (by decide) hN hq
    exact ⟨hsorted h5, h5⟩

/-- Witness of C10: the state after the run of one worker. -/
theorem scenario_five_witness :
    Reachable 2 (initial_state ([5, 3, 4, 1, 2] : List Int) (fun _ => { a := 0, pivot := 0 }))
      (worker_run 2 10 (initial_state ([5, 3, 4, 1, 2] : List Int)
        (fun _ => { a := 0, pivot := 0 }))) ∧
    (worker_run 2 10 (initial_state ([5, 3, 4, 1, 2] : List Int)
        (fun _ => { a := 0, pivot := 0 }))).a = [1, 2, 3, 4, 5] ∧
    (worker_run 2 10 (initial_state ([5, 3, 4, 1, 2] : List Int)
        (fun _ => { a := 0, pivot := 0 }))).thr_data.sorted_elements = 5 :=
  ⟨reachable_worker_run 2 10 _,
    (scenario_five _ _ (reachable_worker_run 2 10 _)).2.2.1 ⟨by decide, by decide⟩⟩

end RunEnds

section FastLemmas

theorem fast_push_abs (st : fast_state) (x : quicksort_data)
    (h : st.size = (fast_abs st).1.length) :
    fast_abs (fast_push st x) = (fifo_push (fast_abs st).1 x, (fast_abs st).2) ∧
      (fast_push st x).size = (fast_abs (fast_push st x)).1.length := by
  by_cases hs : st.size < 1000
  · have hs1 : (fast_abs st).1.length < 1000 := by rw [← h]; exact hs
    unfold fast_push fifo_push
    rw [if_pos hs, if_pos hs1]
    unfold fast_abs at h ⊢
    simp only [List.reverse_cons, List.append_assoc, List.length_append, List.length_reverse,
      List.length_singleton] at h ⊢
    exact ⟨trivial, by omega⟩
  · have hs1 : ¬ (fast_abs st).1.length < 1000 := by rw [← h]; exact hs
    unfold fast_push fifo_push
    rw [if_neg hs, if_neg hs1]
    exact ⟨rfl, h⟩

theorem fast_process_abs (cutoff : Nat) (t : quicksort_data) (st : fast_state)
    (h : st.size = (fast_abs st).1.length) :
    shape_iteration cutoff (t :: (fast_abs st).1, (fast_abs st).2)
        = some (fast_abs (fast_process cutoff t st)) ∧
      (fast_process cutoff t st).size = (fast_abs (fast_process cutoff t st)).1.length := by
  unfold shape_iteration fast_process
  by_cases hc : t.pivot ≤ cutoff
  · simp only [hc, if_true]
    exact ⟨rfl, h⟩
  · simp only [hc, if_false]
    obtain ⟨g1, g2⟩ := fast_push_abs st
      (child_tasks t.a ((t.pivot / 2 : Nat) : Int) (t.pivot : Int)).1 h
    obtain ⟨g3, g4⟩ := fast_push_abs _
      (child_tasks t.a ((t.pivot / 2 : Nat) : Int) (t.pivot : Int)).2 g2
    refine ⟨?_, g4⟩
    rw [g3, g1]

theorem fast_iteration_abs (cutoff : Nat) (st : fast_state)
    (h : st.size = (fast_abs st).1.length) :
    shape_iteration cutoff (fast_abs st) = (fast_iteration cutoff st).map fast_abs ∧
      ∀ st1, fast_iteration cutoff st = some st1 → st1.size = (fast_abs st1).1.length := by
  unfold fast_iteration
  cases hf : st.front with
  | cons t rest =>
    simp only
    have h1 : ({ st with front := rest, size := st.size - 1 } : fast_state).size
        = (fast_abs { st with front := rest, size := st.size - 1 }).1.length := by
      unfold fast_abs at h ⊢
      rw [hf] at h
      simp only [List.cons_append, List.length_cons] at h ⊢
      omega
    obtain ⟨g1, g2⟩ := fast_process_abs cutoff t _ h1
    refine ⟨?_, ?_⟩
    · rw [Option.map_some', ← g1]
      unfold fast_abs
      rw [hf]
      rfl
    · intro st1 hst
      cases hst
      exact g2
  | nil =>
    simp only
    cases hb : st.back.reverse with
    | cons t rest =>
      simp only
      have h1 : ({ st with front := rest, back := [], size := st.size - 1 } : fast_state).size
          = (fast_abs { st with front := rest, back := [], size := st.size - 1 }).1.length := by
        unfold fast_abs at h ⊢
        rw [hf, hb] at h
        simp only [List.nil_append, List.length_cons, List.reverse_nil, List.append_nil] at h ⊢
        omega
      obtain ⟨g1, g2⟩ := fast_process_abs cutoff t _ h1
      refine ⟨?_, ?_⟩
      · rw [Option.map_some', ← g1]
        unfold fast_abs
        rw [hf, hb]
        simp
      · intro st1 hst
        cases hst
        exact g2
    | nil =>
      simp only
      refine ⟨?_, fun st1 hst => Option.noConfusion hst⟩
      unfold shape_iteration fast_abs
      rw [hf, hb]
      rfl

/-- The run on a `fast_state` computes the run on the list of queued tasks. -/
theorem fast_run_abs (cutoff : Nat) : ∀ (fuel : Nat) (st : fast_state),
    st.size = (fast_abs st).1.length →
    shape_run cutoff fuel (fast_abs st) = fast_abs (fast_run cutoff fuel st) := by
  intro fuel
  induction fuel with
  | zero => intro st _; rfl
  | succ fuel ih =>
    intro st h
    obtain ⟨g1, g2⟩ := fast_iteration_abs cutoff st h
    unfold shape_run fast_run
    rw [g1]
    cases hi : fast_iteration cutoff st with
    | none => rfl
    | some st1 =>
      simp only [Option.map_some']
      exact ih st1 (g2 st1 hi)

end FastLemmas

section ReplicateLemmas

variable {α : Type} [Preorder α] [DecidableRel (fun (x y : α) => x < y)]

theorem scan_up_replicate (c : α) (n fuel i : Nat) (hi : i < n) :
    scan_up (List.replicate n c) c (fuel + 1) (i : Int) = Except.ok (i : Int) := by
  unfold scan_up
  rw [read_int_natCast, read_at_of_lt _ i (by simpa using hi)]
  simp

theorem scan_down_replicate (c : α) (n fuel j : Nat) (hj : j < n) :
    scan_down (List.replicate n c) c (fuel + 1) (j : Int) = Except.ok (j : Int) := by
  unfold scan_down
  rw [read_int_natCast, read_at_of_lt _ j (by simpa using hj)]
  simp

theorem partition_loop_replicate (c : α) (n : Nat) : ∀ (fuel i j : Nat),
    i + j + 1 = n → i ≤ n / 2 → j + 2 ≤ fuel + i →
    partition_loop c fuel (List.replicate n c) (i : Int) (j : Int)
      = Except.ok (List.replicate n c, ((n / 2 : Nat) : Int)) := by
  intro fuel
  induction fuel with
  | zero => intro i j h1 h2 h3; omega
  | succ fuel ih =>
    intro i j h1 h2 h3
    unfold partition_loop
    rw [List.length_replicate, scan_up_replicate c n n i (by omega),
      scan_down_replicate c n n j (by omega)]
    simp only [except_ok_bind]
    by_cases hge : (i : Int) ≥ (j : Int)
    · simp only [hge, if_true]
      have : i = n / 2 := by omega
      rw [this]
    · simp only [hge, if_false]
      rw [read_int_natCast, read_int_natCast, read_at_of_lt _ i (by simp; omega),
        read_at_of_lt _ j (by simp; omega)]
      simp only [except_ok_bind, List.getElem_replicate]
      rw [write_int_natCast, write_at_of_lt _ i _ (by simp; omega)]
      simp only [except_ok_bind, List.set_replicate_self]
      rw [write_int_natCast, write_at_of_lt _ j _ (by simp; omega)]
      simp only [except_ok_bind, List.set_replicate_self]
      have ec1 : ((i : Int) + 1) = ((i + 1 : Nat) : Int) := by omega
      have ec2 : ((j : Int) - 1) = ((j - 1 : Nat) : Int) := by omega
      rw [ec1, ec2]
      exact ih (i + 1) (j - 1) (by omega) (by omega) (by omega)

theorem swap_if_less_replicate (c : α) (n x y : Nat) (hx : x < n) (hy : y < n) :
    swap_if_less (List.replicate n c) (x : Int) (y : Int) = Except.ok (List.replicate n c) := by
  rw [swap_if_less_eq _ x y (by simpa using hx) (by simpa using hy)]
  simp

/-- On a region of equal elements `perform_quicksort` changes nothing and returns `n / 2`. -/
theorem perform_quicksort_replicate (c : α) (n : Nat) (h1 : 1 ≤ n) :
    perform_quicksort (List.replicate n c) n
      = Except.ok (List.replicate n c, ((n / 2 : Nat) : Int)) := by
  have e1 : ((n : Int) - 1) = ((n - 1 : Nat) : Int) := by omega
  have e0 : (0 : Int) = ((0 : Nat) : Int) := rfl
  unfold perform_quicksort median_of_three
  simp only [e1]
  rw [e0, swap_if_less_replicate c n (n - 1) 0 (by omega) (by omega)]
  simp only [except_ok_bind]
  rw [swap_if_less_replicate c n (n / 2) (n - 1) (by omega) (by omega)]
  simp only [except_ok_bind]
  rw [swap_if_less_replicate c n (n - 1) 0 (by omega) (by omega)]
  simp only [except_ok_bind]
  rw [read_int_natCast, read_at_of_lt _ (n - 1) (by simp; omega)]
  simp only [except_ok_bind, List.getElem_replicate]
  exact partition_loop_replicate c n (n + 1) 0 (n - 1) (by omega) (by omega) (by omega)

omit [Preorder α] [DecidableRel (fun (x y : α) => x < y)] in
theorem replicate_split (c : α) (N off n : Nat) (h : off + n ≤ N) :
    List.replicate N c
      = List.replicate off c ++ List.replicate n c ++ List.replicate (N - off - n) c := by
  rw [← List.replicate_add, ← List.replicate_add]
  congr 1
  omega

omit [Preorder α] [DecidableRel (fun (x y : α) => x < y)] in
theorem region_replicate (c : α) (N off n : Nat) (h : off + n ≤ N) :
    region (List.replicate N c) off n = List.replicate n c := by
  rw [replicate_split c N off n h]
  have := region_mid (List.replicate off c) (List.replicate n c)
    (List.replicate (N - off - n) c)
  simpa using this

omit [Preorder α] [DecidableRel (fun (x y : α) => x < y)] in
theorem region_store_replicate (c : α) (N off n : Nat) (h : off + n ≤ N) :
    region_store (List.replicate N c) off (List.replicate n c) = List.replicate N c := by
  rw [replicate_split c N off n h]
  have := region_store_mid (List.replicate off c) (List.replicate n c)
    (List.replicate (N - off - n) c) (List.replicate n c) rfl
  simpa using this

variable [IsTotal α (fun x y => x ≤ y)]

/-- On an array of equal elements `perform_insertion_sort` only adds to `sorted_elements`. -/
theorem perform_insertion_sort_replicate (c : α) (N off n : Nat) (h : off + n ≤ N)
    (thr : thread_data) :
    perform_insertion_sort (List.replicate N c) off (n : Int) thr
      = Except.ok (List.replicate N c,
          { thr with sorted_elements := thr.sorted_elements + (n : Int) }) := by
  obtain ⟨e1, g1, g2, _⟩ := perform_insertion_sort_spec (List.replicate off c)
    (List.replicate n c) (List.replicate (N - off - n) c) thr
  rw [List.perm_replicate] at g2
  rw [g2, ← replicate_split c N off n h] at g1
  simpa using g1

end ReplicateLemmas

section SimLemmas

theorem mem_fifo_push {u x : quicksort_data} {l : List quicksort_data}
    (h : u ∈ fifo_push l x) : u ∈ l ∨ u = x := by
  unfold fifo_push at h
  split at h
  · rw [List.mem_append, List.mem_singleton] at h
    exact h
  · exact Or.inl h

variable {α : Type} [Preorder α] [DecidableRel (fun (x y : α) => x < y)]
  [IsTotal α (fun x y => x ≤ y)]

omit [Preorder α] [DecidableRel (fun (x y : α) => x < y)] [IsTotal α (fun x y => x ≤ y)] in
theorem queue_count_dequeue {q : circular_queue} (hwf : queue_wf q)
    (he : circular_queue_empty q = false) :
    queue_count (dequeue q).2 + 1 = queue_count q := by
  obtain ⟨t, _, h2⟩ := queue_dequeue_nonempty hwf he
  have := congrArg List.length h2
  rw [List.length_cons, queue_length_toList, queue_length_toList] at this
  omega

/-- An iteration of a single worker on an array of equal elements follows `shape_iteration`. -/
theorem shape_sim_iteration (cutoff N : Nat) (c : α) (s : State α)
    (st : List quicksort_data × Int) (h : shape_sim N c s st) :
    (shape_iteration cutoff st = none → worker_iteration cutoff s = none) ∧
    (∀ st1, shape_iteration cutoff st = some st1 →
      ∃ s1, worker_iteration cutoff s = some s1 ∧ shape_sim N c s1 st1 ∧
        s1.thr_data.shutdown = s.thr_data.shutdown) := by
  obtain ⟨ha, hheld, hwf, hl, hcnt, hb⟩ := h
  obtain ⟨l, cnt⟩ := st
  simp only at hl hcnt hb
  cases l with
  | nil =>
    have he : circular_queue_empty s.global_buffer = true := by
      rw [queue_empty_iff hwf, ← queue_length_toList, hl]
      rfl
    constructor
    · intro _
      unfold worker_iteration worker_fetch get_job_from_circular_queue
      simp [he]
    · intro st1 hst
      simp [shape_iteration] at hst
  | cons t rest =>
    have he : circular_queue_empty s.global_buffer = false := by
      cases he : circular_queue_empty s.global_buffer
      · rfl
      · have := (queue_empty_iff hwf).1 he
        rw [← queue_length_toList, hl] at this
        simp at this
    obtain ⟨t1, hd1, hd2⟩ := queue_dequeue_nonempty hwf he
    rw [hl] at hd2
    obtain ⟨rfl, hrest⟩ := List.cons.inj hd2
    have hwf1 := queue_wf_dequeue hwf
    have hcd := queue_count_dequeue hwf he
    have hcq := queue_count_le hwf
    have hdq : dequeue s.global_buffer = (some t, (dequeue s.global_buffer).2) := by
      rw [← hd1]
    have hfetch : worker_fetch s
        = some { s with global_buffer := (dequeue s.global_buffer).2, held := t :: s.held } := by
      unfold worker_fetch get_job_from_circular_queue
      rw [he, hdq]
      rfl
    have htb : t.a + t.pivot ≤ N := hb t (List.mem_cons_self _ _)
    constructor
    · intro hst
      simp only [shape_iteration] at hst
      split at hst <;> exact Option.noConfusion hst
    · intro st1 hst
      unfold worker_iteration
      rw [hfetch]
      simp only [hheld]
      unfold worker_process
      simp only [shape_iteration] at hst
      by_cases hle : t.pivot ≤ cutoff
      · rw [if_pos hle] at hst
        cases hst
        simp only [hle, if_true]
        rw [ha, perform_insertion_sort_replicate c N t.a t.pivot htb]
        refine ⟨_, rfl, ⟨rfl, rfl, hwf1, hrest.symm, ?_, ?_⟩, rfl⟩
        · show s.thr_data.sorted_elements + (t.pivot : Int) = cnt + (t.pivot : Int)
          rw [hcnt]
        · intro u hu
          exact hb u (List.mem_cons_of_mem _ hu)
      · rw [if_neg hle] at hst
        cases hst
        simp only [hle, if_false]
        have hn1 : 1 ≤ t.pivot := by omega
        rw [ha, region_replicate c N t.a t.pivot htb, perform_quicksort_replicate c t.pivot hn1]
        simp only
        have hf1 : circular_queue_full (dequeue s.global_buffer).2 = false := by
          cases hf : circular_queue_full (dequeue s.global_buffer).2
          · rfl
          · have := (queue_full_iff hwf1).1 hf
            omega
        obtain ⟨q1, hadd, hwfq1, hlq1⟩ :=
          add_jobs_spec hwf1 hf1 t.a (t.pivot / 2) t.pivot (Nat.div_le_self _ _)
        rw [hadd]
        simp only
        rw [region_store_replicate c N t.a t.pivot htb]
        have e2 : ((t.pivot : Int) - ((t.pivot / 2 : Nat) : Int)).toNat
            = t.pivot - t.pivot / 2 := by omega
        have hchild : child_tasks t.a ((t.pivot / 2 : Nat) : Int) (t.pivot : Int)
            = ({ a := t.a, pivot := t.pivot / 2 },
                { a := t.a + t.pivot / 2, pivot := t.pivot - t.pivot / 2 }) := by
          simp only [child_tasks, Int.toNat_ofNat, e2]
        have hlen : rest.length = queue_count (dequeue s.global_buffer).2 := by
          rw [hrest, queue_length_toList]
        refine ⟨_, rfl, ⟨rfl, rfl, hwfq1, ?_, hcnt, ?_⟩, rfl⟩
        · show queue_toList q1 = _
          rw [hlq1, hchild, ← hrest]
          simp only
          have hr1 : rest.length < 1000 := by omega
          have hlen1 : (rest ++ [({ a := t.a, pivot := t.pivot / 2 } : quicksort_data)]).length
              = rest.length + 1 := by simp
          unfold fifo_push
          rw [if_pos hr1]
          by_cases hroom : queue_count (dequeue s.global_buffer).2 + 1 < 1000
          · rw [if_pos hroom, if_pos (by rw [hlen1]; omega)]
            simp
          · rw [if_neg hroom, if_neg (by rw [hlen1]; omega)]
        · show ∀ u ∈ fifo_push (fifo_push rest _) _, u.a + u.pivot ≤ N
          rw [hchild]
          simp only
          have hdiv := Nat.div_le_self t.pivot 2
          intro u hu
          have hmem : u ∈ rest ∨ u = { a := t.a, pivot := t.pivot / 2 } ∨
              u = { a := t.a + t.pivot / 2, pivot := t.pivot - t.pivot / 2 } := by
            rcases mem_fifo_push hu with hu | hu
            · rcases mem_fifo_push hu with hu | hu
              · exact Or.inl hu
              · exact Or.inr (Or.inl hu)
            · exact Or.inr (Or.inr hu)
          rcases hmem with hu | rfl | rfl
          · exact hb u (List.mem_cons_of_mem _ hu)
          · simp only
            omega
          · simp only
            omega

end SimLemmas

section LostTask

variable {α : Type} [Preorder α] [DecidableRel (fun (x y : α) => x < y)]

theorem perform_insertion_sort_thr {mem m : List α} {a : Nat} {n : Int}
    {thr thr1 : thread_data}
    (h : perform_insertion_sort mem a n thr = Except.ok (m, thr1)) :
    thr1 = { thr with sorted_elements := thr.sorted_elements + n } := by
  unfold perform_insertion_sort at h
  split at h
  · cases hi : inssort (region mem a n.toNat) n.toNat with
    | error e =>
      rw [hi] at h
      exact Except.noConfusion h
    | ok r =>
      rw [hi] at h
      simp only [Except.map, except_ok_bind] at h
      injection h with h
      injection h with _ h
      exact h.symm
  · simp only [except_ok_bind] at h
    injection h with h
    injection h with _ h
    exact h.symm

/-- No step decreases `sorted_elements`. -/
theorem counter_mono_step {cutoff : Nat} {s s1 : State α} (hs : Step cutoff s s1) :
    s.thr_data.sorted_elements ≤ s1.thr_data.sorted_elements := by
  cases hs with
  | fetch hf =>
    unfold worker_fetch at hf
    split at hf
    · cases hf
      exact le_refl _
    · exact Option.noConfusion hf
  | process h1 h2 q hh hp =>
    unfold worker_process at hp
    dsimp only at hp
    split at hp
    · split at hp
      · rename_i mem1 thr1 hrun
        cases hp
        rw [perform_insertion_sort_thr hrun]
        show s.thr_data.sorted_elements ≤ s.thr_data.sorted_elements + (q.pivot : Int)
        omega
      · exact Option.noConfusion hp
    · split at hp
      · split at hp
        · cases hp
          exact le_refl _
        · exact Option.noConfusion hp
      · exact Option.noConfusion hp
  | control hc =>
    unfold controller at hc
    split at hc
    · exact Option.noConfusion hc
    · split at hc
      · exact Option.noConfusion hc
      · cases hc
        exact le_refl _

theorem counter_mono {cutoff : Nat} {s s1 : State α} (hr : Reachable cutoff s s1) :
    s.thr_data.sorted_elements ≤ s1.thr_data.sorted_elements := by
  induction hr with
  | refl => exact le_refl _
  | step _ hs ih => exact le_trans ih (counter_mono_step hs)

/-- A state without queued or held tasks and with `sorted_elements < N` has no step: the
workers wait on `msg_in` and the controller waits on `sorted`. -/
theorem dead_end {cutoff : Nat} {s : State α} (hq : quiescent s)
    (hlt : s.thr_data.sorted_elements < (s.a.length : Int)) : ∀ s1, ¬ Step cutoff s s1 := by
  intro s1 hs
  obtain ⟨hq1, hq2⟩ := hq
  cases hs with
  | fetch hf =>
    unfold worker_fetch get_job_from_circular_queue at hf
    simp [hq1] at hf
  | process h1 h2 q hh hp =>
    rw [hq2] at hh
    exact List.cons_ne_nil _ _ (List.append_eq_nil.1 hh.symm).2
  | control hc =>
    unfold controller at hc
    rw [if_pos hlt] at hc
    exact Option.noConfusion hc

variable [IsTotal α (fun x y => x ≤ y)]

/-- The run of a single worker on an array of equal elements follows `shape_run`. -/
theorem shape_sim_run (cutoff N : Nat) (c : α) : ∀ (fuel : Nat) (s : State α)
    (st : List quicksort_data × Int), shape_sim N c s st →
    shape_sim N c (worker_run cutoff fuel s) (shape_run cutoff fuel st) := by
  intro fuel
  induction fuel with
  | zero => intro s st h; exact h
  | succ fuel ih =>
    intro s st h
    obtain ⟨g1, g2⟩ := shape_sim_iteration cutoff N c s st h
    unfold worker_run shape_run
    cases hi : shape_iteration cutoff st with
    | none =>
      rw [g1 hi]
      exact h
    | some st1 =>
      obtain ⟨s1, h1, h2, _⟩ := g2 st1 hi
      rw [h1]
      exact ih s1 st1 h2

omit [Preorder α] [DecidableRel (fun (x y : α) => x < y)] [IsTotal α (fun x y => x ≤ y)] in
theorem shape_sim_initial (N : Nat) (c : α) (buf : Int → quicksort_data) :
    shape_sim N c (initial_state (List.replicate N c) buf) ([{ a := 0, pivot := N }], 0) := by
  refine ⟨rfl, rfl, queue_wf_enqueue _ (queue_wf_init buf), ?_, rfl, ?_⟩
  · show queue_toList (enqueue (queue_init buf) _) = _
    rw [queue_toList_enqueue _ (queue_wf_init buf) (queue_init_not_full buf),
      queue_toList_init, List.length_replicate]
    rfl
  · intro t ht
    rw [List.mem_singleton] at ht
    subst ht
    simp

end LostTask

theorem fast_run_equal_100000 :
    fast_abs (fast_run 100 3000
      { front := [{ a := 0, pivot := 100000 }], back := [], size := 1, count := 0 })
      = ([], 97648) := by
  decide!

/-- C3, failing run: the run of one worker on 100000 equal elements with the cut-off
100 of the program ends in a state with no queued and no held task in which `sorted_elements`
is 97648: no step is possible from this state, and `sorted_elements` is at most 97648 in every
state from which this state is reached. -/
theorem lost_task_run (buf : Int → quicksort_data) :
    Reachable 100 (initial_state (List.replicate 100000 (0 : Int)) buf)
      (worker_run 100 3000 (initial_state (List.replicate 100000 (0 : Int)) buf)) ∧
    quiescent (worker_run 100 3000 (initial_state (List.replicate 100000 (0 : Int)) buf)) ∧
    (worker_run 100 3000 (initial_state (List.replicate 100000 (0 : Int)) buf)).a.length
      = 100000 ∧
    (worker_run 100 3000 (initial_state (List.replicate 100000 (0 : Int))
      buf)).thr_data.sorted_elements = 97648 ∧
    (∀ s1, ¬ Step 100
      (worker_run 100 3000 (initial_state (List.replicate 100000 (0 : Int)) buf)) s1) ∧
    (∀ s, Reachable 100 s
        (worker_run 100 3000 (initial_state (List.replicate 100000 (0 : Int)) buf)) →
      s.thr_data.sorted_elements ≤ 97648) := by
  have hsim := shape_sim_run 100 100000 (0 : Int) 3000 _ _
    (shape_sim_initial 100000 (0 : Int) buf)
  have hrun : shape_run 100 3000 ([{ a := 0, pivot := 100000 }], 0) = ([], 97648) := by
    have := fast_run_abs 100 3000
      { front := [{ a := 0, pivot := 100000 }], back := [], size := 1, count := 0 } rfl
    rw [fast_run_equal_100000] at this
    exact this
  rw [hrun] at hsim
  obtain ⟨ha, hheld, hwf, hl, hcnt, _⟩ := hsim
  have hq : quiescent
      (worker_run 100 3000 (initial_state (List.replicate 100000 (0 : Int)) buf)) := by
    refine ⟨?_, hheld⟩
    rw [queue_empty_iff hwf, ← queue_length_toList, hl]
    rfl
  have hlen : (worker_run 100 3000
      (initial_state (List.replicate 100000 (0 : Int)) buf)).a.length = 100000 := by
    rw [ha, List.length_replicate]
  refine ⟨reachable_worker_run 100 3000 _, hq, hlen, hcnt, ?_, ?_⟩
  · refine dead_end hq ?_
    rw [hlen, hcnt]
    decide
  · intro s hr
    have := counter_mono hr
    rw [hcnt] at this
    exact this

/-- C4, failing input: on a queue that stores 999 tasks (`front = 0`, `rear = 998`), which
is not full, `add_jobs_to_circular_queue` stores the first child only: the queue then stores
1000 tasks, the 999 old ones and the first child, and the second child is not among them. -/
theorem second_child_dropped :
    circular_queue_full
      { front := 0, rear := 998, array := fun _ => { a := 0, pivot := 0 } } = false ∧
    queue_count { front := 0, rear := 998, array := fun _ => { a := 0, pivot := 0 } } = 999 ∧
    ∃ q1, add_jobs_to_circular_queue
        { front := 0, rear := 998, array := fun _ => { a := 0, pivot := 0 } } 2000 50 101
        = some q1 ∧
      queue_count q1 = 1000 ∧
      queue_toList q1
        = queue_toList { front := 0, rear := 998, array := fun _ => { a := 0, pivot := 0 } }
          ++ [(child_tasks 2000 50 101).1] ∧
      (child_tasks 2000 50 101).2 = { a := 2050, pivot := 51 } ∧
      (child_tasks 2000 50 101).2 ∉ queue_toList q1 := by
  have hwf : queue_wf { front := 0, rear := 998, array := fun _ => { a := 0, pivot := 0 } } := by
    right
    simp [CIRCULAR_QUEUE_SIZE]
  have hf : circular_queue_full
      { front := 0, rear := 998, array := fun _ => { a := 0, pivot := 0 } } = false := by
    decide
  have hc : queue_count
      { front := 0, rear := 998, array := fun _ => { a := 0, pivot := 0 } } = 999 := by
    decide
  obtain ⟨q1, h1, hwf1, h2⟩ := add_jobs_spec hwf hf 2000 50 101 (by decide)
  rw [hc] at h2
  simp only [Nat.lt_irrefl, if_false] at h2
  have hc1 : (child_tasks 2000 50 101).1 = { a := 2000, pivot := 50 } := by decide
  have hc2 : (child_tasks 2000 50 101).2 = { a := 2050, pivot := 51 } := by decide
  refine ⟨hf, hc, q1, h1, ?_, ?_, hc2, ?_⟩
  · rw [← queue_length_toList, h2, List.length_append, queue_length_toList, hc]
    rfl
  · rw [h2, hc1]
  · rw [h2, hc2, List.mem_append, List.mem_singleton]
    rintro (h | h)
    · unfold queue_toList at h
      rw [List.mem_map] at h
      obtain ⟨k, _, hk⟩ := h
      have hk1 : ({ a := 0, pivot := 0 } : quicksort_data) = { a := 2050, pivot := 51 } := hk
      exact absurd hk1 (by decide)
    · exact absurd h (by decide)

section Claims3

variable {α : Type} [Preorder α] [DecidableRel (fun (x y : α) => x < y)]
  [IsTotal α (fun x y => x ≤ y)]

/-- C17: on every region of length `n ≥ 1`, `perform_quicksort` terminates and every index
that it reads or writes lies in `[0, n)`: the call returns normally, neither with the fault
`out_of_bounds` nor with the fault `out_of_fuel`, and so does the partition loop with any
fuel of at least `n + 1`. -/
theorem partition_total (a : List α) (n : Nat) (hn : a.length = n) (h1 : 1 ≤ n) :
    (∃ r, perform_quicksort a n = Except.ok r) ∧
    perform_quicksort a n ≠ Except.error Fault.out_of_bounds ∧
    perform_quicksort a n ≠ Except.error Fault.out_of_fuel ∧
    ∃ a3 p, median_of_three a n = Except.ok a3 ∧ read_int a3 ((n : Int) - 1) = Except.ok p ∧
      ∀ fuel, n + 1 ≤ fuel → ∃ r, partition_loop p fuel a3 0 ((n : Int) - 1) = Except.ok r := by
  obtain ⟨a1, r, p, g1, _, _⟩ := perform_quicksort_spec a n hn h1
  refine ⟨⟨_, g1⟩, by rw [g1]; exact fun h => Except.noConfusion h,
    by rw [g1]; exact fun h => Except.noConfusion h, ?_⟩
  obtain ⟨a3, hm, pm⟩ := median_of_three_spec a n hn h1
  have l3 : a3.length = n := by rw [List.Perm.length_eq pm, hn]
  have e1 : ((n : Int) - 1) = ((n - 1 : Nat) : Int) := by omega
  have hlt : n - 1 < a3.length := by omega
  have hp : a3[n - 1]? = some a3[n - 1] := List.getElem?_eq_getElem hlt
  refine ⟨a3, a3[n - 1], hm, by rw [e1, read_int_natCast, read_at_of_lt a3 _ hlt], ?_⟩
  intro fuel hfuel
  obtain ⟨a2, r2, g, _⟩ :=
    partition_loop_spec a3[n - 1] fuel a3 0 (n - 1) hlt (by omega)
      ⟨n - 1, a3[n - 1], by omega, hp, lt_irrefl _⟩
      ⟨n - 1, a3[n - 1], le_refl _, hp, lt_irrefl _⟩
      (fun m y hm0 _ => by omega)
      (fun m y hm1 hy => by
        rw [List.getElem?_eq_none (by omega)] at hy
        exact Option.noConfusion hy)
      (by omega)
  rw [e1]
  exact ⟨_, g⟩

/-- Witness of C17: the region `[5, 3, 4, 1, 2]`. -/
theorem partition_total_witness :
    ([5, 3, 4, 1, 2] : List Int).length = 5 ∧ 1 ≤ 5 ∧
    (∃ r, perform_quicksort ([5, 3, 4, 1, 2] : List Int) 5 = Except.ok r) ∧
    perform_quicksort ([5, 3, 4, 1, 2] : List Int) 5 ≠ Except.error Fault.out_of_bounds ∧
    perform_quicksort ([5, 3, 4, 1, 2] : List Int) 5 ≠ Except.error Fault.out_of_fuel :=
  ⟨rfl, by decide, (partition_total ([5, 3, 4, 1, 2] : List Int) 5 rfl (by decide)).1,
    (partition_total ([5, 3, 4, 1, 2] : List Int) 5 rfl (by decide)).2.1,
    (partition_total ([5, 3, 4, 1, 2] : List Int) 5 rfl (by decide)).2.2.1⟩

/-- C18: on every region of length `n ≥ 2`, `perform_quicksort` returns a split index `i` with
`1 ≤ i ≤ n - 1`, so that both child tasks (of lengths `i` and `n - i`) are non-empty and
strictly shorter than the parent; and with a cut-off of at least 1 every step of the worker
loop decreases the measure of the state, so that no task is split infinitely often. -/
theorem split_progress (a : List α) (n : Nat) (hn : a.length = n) (h2 : 2 ≤ n) (start : Nat)
    (input : List α) (buf : Int → quicksort_data) (cutoff : Nat) (hc : 1 ≤ cutoff)
    (s s1 : State α) (hr : Reachable cutoff (initial_state input buf) s)
    (hs : Step cutoff s s1) :
    (∃ (a1 : List α) (i : Int), perform_quicksort a n = Except.ok (a1, i) ∧
      1 ≤ i ∧ i ≤ (n : Int) - 1 ∧
      (child_tasks start i (n : Int)).1.pivot = i.toNat ∧
      (child_tasks start i (n : Int)).2.pivot = n - i.toNat ∧
      1 ≤ (child_tasks start i (n : Int)).1.pivot ∧
      (child_tasks start i (n : Int)).1.pivot < n ∧
      1 ≤ (child_tasks start i (n : Int)).2.pivot ∧
      (child_tasks start i (n : Int)).2.pivot < n) ∧
    measure s1 < measure s := by
  constructor
  · obtain ⟨a1, r, p, g1, _, _, g4, _, _, g7⟩ := perform_quicksort_spec a n hn (by omega)
    have hr1 := g7 h2
    have e2 : ((n : Int) - (r : Int)).toNat = n - r := by omega
    refine ⟨a1, (r : Int), g1, by omega, by omega, ?_⟩
    simp only [child_tasks, Int.toNat_ofNat, e2]
    exact ⟨trivial, trivial, by omega, by omega, by omega, by omega⟩
  · obtain ⟨bs, h⟩ := inv_reachable hr
    obtain ⟨_, _, g⟩ := inv_step h hs
    exact g hc

/-- Witness of C18: the region `[5, 3, 4, 1, 2]`, and the first step of the worker loop on it
with cut-off 2. -/
theorem split_progress_witness :
    ([5, 3, 4, 1, 2] : List Int).length = 5 ∧ 2 ≤ 5 ∧ 1 ≤ 2 ∧
    (∃ (a1 : List Int) (i : Int),
      perform_quicksort ([5, 3, 4, 1, 2] : List Int) 5 = Except.ok (a1, i) ∧
      1 ≤ i ∧ i ≤ ((5 : Nat) : Int) - 1 ∧
      (child_tasks 0 i ((5 : Nat) : Int)).1.pivot = i.toNat ∧
      (child_tasks 0 i ((5 : Nat) : Int)).2.pivot = 5 - i.toNat ∧
      1 ≤ (child_tasks 0 i ((5 : Nat) : Int)).1.pivot ∧
      (child_tasks 0 i ((5 : Nat) : Int)).1.pivot < 5 ∧
      1 ≤ (child_tasks 0 i ((5 : Nat) : Int)).2.pivot ∧
      (child_tasks 0 i ((5 : Nat) : Int)).2.pivot < 5) ∧
    measure { initial_state ([5, 3, 4, 1, 2] : List Int) (fun _ => { a := 0, pivot := 0 }) with
        global_buffer := (dequeue (initial_state ([5, 3, 4, 1, 2] : List Int)
          (fun _ => { a := 0, pivot := 0 })).global_buffer).2
        held := [{ a := 0, pivot := 5 }] }
      < measure (initial_state ([5, 3, 4, 1, 2] : List Int) (fun _ => { a := 0, pivot := 0 })) :=
  ⟨rfl, by decide, by decide,
    split_progress ([5, 3, 4, 1, 2] : List Int) 5 rfl (by decide) 0 [5, 3, 4, 1, 2]
      (fun _ => { a := 0, pivot := 0 }) 2 (by decide) _ _ Reachable.refl (Step.fetch rfl)⟩

end Claims3

section Idempotence

variable {α : Type} [LinearOrder α]

omit [LinearOrder α] in
theorem pairwise_of_nondecreasing [Preorder α] {a : List α} (h : nondecreasing a) :
    a.Pairwise (fun x y => x ≤ y) := by
  have hc : List.Chain' (fun x y => x ≤ y) a := by
    rw [List.chain'_iff_get]
    intro i hi
    exact h i (by omega)
  exact List.chain'_iff_pairwise.1 hc

/-- C11: for every non-decreasing input array over a total order, the completed sort (a state
of a run of the worker loop in which `sorted_elements` equals `N`) leaves the array equal,
element for element, to the input. -/
theorem idempotent_on_sorted (input : List α) (buf : Int → quicksort_data) (cutoff : Nat)
    (s : State α) (hin : nondecreasing input)
    (hr : Reachable cutoff (initial_state input buf) s)
    (hN : s.thr_data.sorted_elements = (input.length : Int)) : s.a = input := by
  obtain ⟨bs, h⟩ := inv_reachable hr
  exact List.eq_of_perm_of_sorted h.perm (pairwise_of_counted h hN)
    (pairwise_of_nondecreasing hin)

/-- Witness of C11: the run of one worker on `[1, 2, 3, 4, 5]` with cut-off 2. -/
theorem idempotent_on_sorted_witness :
    nondecreasing ([1, 2, 3, 4, 5] : List Int) ∧
    Reachable 2 (initial_state ([1, 2, 3, 4, 5] : List Int) (fun _ => { a := 0, pivot := 0 }))
      (worker_run 2 10 (initial_state ([1, 2, 3, 4, 5] : List Int)
        (fun _ => { a := 0, pivot := 0 }))) ∧
    (worker_run 2 10 (initial_state ([1, 2, 3, 4, 5] : List Int)
      (fun _ => { a := 0, pivot := 0 }))).thr_data.sorted_elements
        = (([1, 2, 3, 4, 5] : List Int).length : Int) ∧
    (worker_run 2 10 (initial_state ([1, 2, 3, 4, 5] : List Int)
      (fun _ => { a := 0, pivot := 0 }))).a = [1, 2, 3, 4, 5] :=
  ⟨nondecreasing_of_pairwise (by decide), reachable_worker_run 2 10 _, by decide,
    idempotent_on_sorted _ _ 2 _ (nondecreasing_of_pairwise (by decide))
      (reachable_worker_run 2 10 _) (by decide)⟩

end Idempotence

section MedianLemmas

variable {α : Type} [Preorder α] [DecidableRel (fun (x y : α) => x < y)]

theorem swap_if_less_same (a : List α) (x : Nat) (hx : x < a.length) :
    swap_if_less a (x : Int) (x : Int) = Except.ok a := by
  rw [swap_if_less_eq a x x hx hx, if_neg (lt_irrefl _)]

variable [IsTotal α (fun x y => x ≤ y)]

/-- The statement `if (a[x] < a[y]) swap` for two different positions: afterwards the value at
`y` is at most the value at `x`, which is the greater of the two old values, and nothing else
has changed. -/
theorem swap_if_less_values (a : List α) (x y : Nat) (hxy : x ≠ y) (ux uy : α)
    (hux : a[x]? = some ux) (huy : a[y]? = some uy) :
    ∃ a1 vx vy, swap_if_less a (x : Int) (y : Int) = Except.ok a1 ∧ a1.length = a.length ∧
      (∀ m, m ≠ x → m ≠ y → a1[m]? = a[m]?) ∧ a1[x]? = some vx ∧ a1[y]? = some vy ∧
      vy ≤ vx ∧ ux ≤ vx ∧ uy ≤ vx ∧ [vx, vy].Perm [ux, uy] := by
  have hx : x < a.length := by
    by_contra hc
    rw [List.getElem?_eq_none (by omega)] at hux
    exact Option.noConfusion hux
  have hy : y < a.length := by
    by_contra hc
    rw [List.getElem?_eq_none (by omega)] at huy
    exact Option.noConfusion huy
  have ex : a[x] = ux := by
    rw [List.getElem?_eq_getElem hx] at hux; exact Option.some.inj hux
  have ey : a[y] = uy := by
    rw [List.getElem?_eq_getElem hy] at huy; exact Option.some.inj huy
  have hrun := swap_if_less_eq a x y hx hy
  rw [ex, ey] at hrun
  by_cases hlt : ux < uy
  · rw [if_pos hlt] at hrun
    have hget := getElem?_swap a x y hx hy
    rw [ex, ey] at hget
    refine ⟨_, uy, ux, hrun, by simp, ?_, ?_, ?_, le_of_lt hlt, le_of_lt hlt, le_refl _,
      List.Perm.swap _ _ _⟩
    · intro m hmx hmy
      rw [hget, if_neg hmy, if_neg hmx]
    · rw [hget, if_neg hxy, if_pos rfl]
    · rw [hget, if_pos rfl]
  · rw [if_neg hlt] at hrun
    exact ⟨a, ux, uy, hrun, rfl, fun _ _ _ => rfl, hux, huy, le_of_not_lt_total hlt,
      le_refl _, le_of_not_lt_total hlt, List.Perm.refl _⟩

omit [DecidableRel (fun (x y : α) => x < y)] [IsTotal α (fun x y => x ≤ y)] [Preorder α] in
theorem perm_three {v0 vm vl w0 wl w2l w2m x y z : α}
    (p1 : [wl, w0].Perm [z, x]) (p2 : [w2m, w2l].Perm [y, wl])
    (p3 : [vl, v0].Perm [w2l, w0]) (hm : vm = w2m) : [v0, vm, vl].Perm [x, y, z] := by
  subst hm
  have r1 : [v0, vm, vl].Perm ([vm, vl] ++ [v0]) :=
    @List.perm_append_comm _ [v0] [vm, vl]
  have r2 : ([vm, vl] ++ [v0]).Perm (vm :: [w2l, w0]) := List.Perm.cons _ p3
  have r3 : (vm :: [w2l, w0]).Perm ([y, wl] ++ [w0]) := List.Perm.append_right [w0] p2
  have r4 : ([y, wl] ++ [w0]).Perm (y :: [z, x]) := List.Perm.cons _ p1
  have r5 : (y :: [z, x]).Perm ([x] ++ [y, z]) :=
    @List.perm_append_comm _ [y, z] [x]
  exact (((r1.trans r2).trans r3).trans r4).trans r5

/-- The three conditional swaps on a region of length `n ≥ 3`: afterwards the smallest of the
three sampled values is at index 0, their median at index `n - 1` and the greatest at index
`n / 2`. -/
theorem median_of_three_values (a : List α) (n : Nat) (hn : a.length = n) (h3 : 3 ≤ n)
    (x y z : α) (hx : a[0]? = some x) (hy : a[n / 2]? = some y) (hz : a[n - 1]? = some z) :
    ∃ a3 v0 vm vl, median_of_three a n = Except.ok a3 ∧ a3.length = n ∧
      a3[0]? = some v0 ∧ a3[n / 2]? = some vm ∧ a3[n - 1]? = some vl ∧
      v0 ≤ vl ∧ vl ≤ vm ∧ [v0, vm, vl].Perm [x, y, z] := by
  have e1 : ((n : Int) - 1) = ((n - 1 : Nat) : Int) := by omega
  have e0 : (0 : Int) = ((0 : Nat) : Int) := rfl
  have d1 : n - 1 ≠ 0 := by omega
  have d2 : n / 2 ≠ n - 1 := by omega
  have d3 : n / 2 ≠ 0 := by omega
  obtain ⟨a1, w1l, w10, r1, l1, k1, g1l, g10, o1, _, _, p1⟩ :=
    swap_if_less_values a (n - 1) 0 d1 z x hz hx
  have g1m : a1[n / 2]? = some y := by rw [k1 _ d2 d3, hy]
  obtain ⟨a2, w2m, w2l, r2, l2, k2, g2m, g2l, o2, _, o2b, p2⟩ :=
    swap_if_less_values a1 (n / 2) (n - 1) d2 y w1l g1m g1l
  have g20 : a2[0]? = some w10 := by rw [k2 _ (Ne.symm d3) (Ne.symm d1), g10]
  obtain ⟨a3, vl, v0, r3, l3, k3, g3l, g30, o3, _, _, p3⟩ :=
    swap_if_less_values a2 (n - 1) 0 d1 w2l w10 g2l g20
  have g3m : a3[n / 2]? = some w2m := by rw [k3 _ d2 d3, g2m]
  refine ⟨a3, v0, w2m, vl, ?_, by rw [l3, l2, l1, hn], g30, g3m, g3l, o3, ?_,
    perm_three p1 p2 p3 rfl⟩
  · unfold median_of_three
    simp only [e1]
    rw [e0, r1]
    simp only [except_ok_bind]
    rw [r2]
    simp only [except_ok_bind]
    rw [r3]
  · have hmem : vl ∈ [w2l, w10] := p3.subset (List.mem_cons_self _ _)
    rw [List.mem_cons, List.mem_singleton] at hmem
    rcases hmem with h | h
    · rw [h]; exact o2
    · rw [h]; exact le_trans o1 o2b

end MedianLemmas

section MedianClaims

variable {α : Type} [Preorder α] [DecidableRel (fun (x y : α) => x < y)]

omit [Preorder α] [DecidableRel (fun (x y : α) => x < y)] in
theorem countP_two_le {f : α → Bool} {v0 vm p : α} (h1 : f v0 = true) (h2 : f p = true) :
    2 ≤ List.countP f [v0, vm, p] := by
  simp only [List.countP_cons, List.countP_nil, h1, h2, if_true]
  omega

omit [Preorder α] [DecidableRel (fun (x y : α) => x < y)] in
theorem countP_two_le_right {f : α → Bool} {v0 vm p : α} (h1 : f vm = true) (h2 : f p = true) :
    2 ≤ List.countP f [v0, vm, p] := by
  simp only [List.countP_cons, List.countP_nil, h1, h2, if_true]
  omega

/-- A value between the two other ones of three values is a median of any arrangement of the
three values. -/
theorem is_median_of_between {v0 vm p x y z : α} (h0 : v0 ≤ p) (hm : p ≤ vm)
    (hp : [v0, vm, p].Perm [x, y, z]) : is_median p [x, y, z] := by
  refine ⟨hp.subset (by simp), ?_, ?_⟩
  · rw [← List.Perm.countP_eq _ hp]
    exact countP_two_le (by simpa using not_lt_of_le h0) (by simp)
  · rw [← List.Perm.countP_eq _ hp]
    exact countP_two_le_right (by simpa using not_lt_of_le hm) (by simp)

theorem median_of_three_one (x : α) : median_of_three [x] 1 = Except.ok [x] := by
  have h := swap_if_less_same [x] 0 (by simp)
  unfold median_of_three
  simp only [Nat.cast_one, sub_self, Nat.reduceDiv, Nat.cast_zero] at h ⊢
  rw [h]
  simp only [except_ok_bind]
  rw [h]
  simp only [except_ok_bind]
  rw [h]

variable [IsTotal α (fun x y => x ≤ y)]

/-- The three conditional swaps on a region of length 2: the region is put in order, so that
the pivot `a[1]` is the greater element. -/
theorem median_of_three_two (u v : α) :
    ∃ lo hi, median_of_three [u, v] 2 = Except.ok [lo, hi] ∧ lo ≤ hi ∧
      [hi, lo].Perm [v, u] ∧ (¬ v < u → lo = u ∧ hi = v) := by
  obtain ⟨a1, hi, lo, r1, l1, _, g1, g0, o1, _, _, p1⟩ :=
    swap_if_less_values [u, v] 1 0 (by decide) v u rfl rfl
  have ha1 : a1 = [lo, hi] := by
    match a1, l1, g1, g0 with
    | [c, d], _, g1, g0 =>
      simp only [List.getElem?_cons_succ, List.getElem?_cons_zero, Option.some.injEq] at g1 g0
      rw [g1, g0]
  subst ha1
  have r2 := swap_if_less_same [lo, hi] 1 (by simp)
  have r3 : swap_if_less [lo, hi] ((1 : Nat) : Int) ((0 : Nat) : Int) = Except.ok [lo, hi] := by
    rw [swap_if_less_eq [lo, hi] 1 0 (by simp) (by simp)]
    simp only [List.getElem_cons_succ, List.getElem_cons_zero]
    rw [if_neg (not_lt_of_le o1)]
  refine ⟨lo, hi, ?_, o1, p1, ?_⟩
  · unfold median_of_three
    have e1 : (((2 : Nat) : Int) - 1) = ((1 : Nat) : Int) := by norm_num
    have e2 : ((2 / 2 : Nat) : Int) = ((1 : Nat) : Int) := by norm_num
    have e0 : (0 : Int) = ((0 : Nat) : Int) := rfl
    simp only [e1, e2]
    rw [e0, r1]
    simp only [except_ok_bind]
    rw [r2]
    simp only [except_ok_bind]
    rw [r3]
  · intro hvu
    have hrun := swap_if_less_eq [u, v] 1 0 (by simp) (by simp)
    simp only [List.getElem_cons_succ, List.getElem_cons_zero] at hrun
    rw [if_neg hvu, r1] at hrun
    injection hrun with hrun
    injection hrun with h1 h2
    injection h2 with h2 _
    exact ⟨h1, h2⟩

end MedianClaims

section MedianClaims2

variable {α : Type} [Preorder α] [DecidableRel (fun (x y : α) => x < y)]
  [IsTotal α (fun x y => x ≤ y)]

/-- C15, as amended: on every region of length `n ≥ 1`, the pivot `p` that the partition pass
of `perform_quicksort` uses is a median of the three values `x`, `y`, `z` that were stored at
the indices 0, `n / 2` and `n - 1`, unless the region has length 2 and its second element is
below its first one; on every region of length 2 the pivot is the greater of the two
elements. -/
theorem pivot_is_median (a : List α) (n : Nat) (hn : a.length = n) (h1 : 1 ≤ n) (x y z : α)
    (hx : a[0]? = some x) (hy : a[n / 2]? = some y) (hz : a[n - 1]? = some z) :
    ∃ a3 p, median_of_three a n = Except.ok a3 ∧ read_int a3 ((n : Int) - 1) = Except.ok p ∧
      pivot_value a n = Except.ok p ∧
      perform_quicksort a n = partition_loop p (n + 1) a3 0 ((n : Int) - 1) ∧
      (¬ (n = 2 ∧ z < x) → is_median p [x, y, z]) ∧
      (n = 2 → p ∈ [x, z] ∧ ¬ p < x ∧ ¬ p < z) := by
  have e1 : ((n : Int) - 1) = ((n - 1 : Nat) : Int) := by omega
  have key : ∀ a3 p, median_of_three a n = Except.ok a3 → a3[n - 1]? = some p →
      read_int a3 ((n : Int) - 1) = Except.ok p ∧ pivot_value a n = Except.ok p ∧
      perform_quicksort a n = partition_loop p (n + 1) a3 0 ((n : Int) - 1) := by
    intro a3 p hm hp
    have hr : read_int a3 ((n : Int) - 1) = Except.ok p := by
      rw [e1, read_int_natCast, read_at_ok_iff]
      exact hp
    refine ⟨hr, ?_, ?_⟩
    · unfold pivot_value
      rw [hm]
      simp only [except_ok_bind]
      exact hr
    · unfold perform_quicksort
      rw [hm]
      simp only [except_ok_bind]
      rw [hr]
      simp only [except_ok_bind]
  by_cases h3 : 3 ≤ n
  · obtain ⟨a3, v0, vm, vl, hm, _, _, _, gl, o1, o2, hp⟩ :=
      median_of_three_values a n hn h3 x y z hx hy hz
    obtain ⟨k1, k2, k3⟩ := key a3 vl hm gl
    exact ⟨a3, vl, hm, k1, k2, k3, fun _ => is_median_of_between o1 o2 hp,
      fun h2 => by omega⟩
  · by_cases h2 : n = 2
    · subst h2
      match a, hn, hx, hy, hz with
      | [u, v], _, hx, hy, hz =>
        simp only [List.getElem?_cons_zero, Nat.reduceDiv, List.getElem?_cons_succ,
          Nat.add_one_sub_one, Option.some.injEq] at hx hy hz
        subst hx hy
        subst hz
        obtain ⟨lo, hi, hm, o1, hp, hsame⟩ := median_of_three_two u v
        obtain ⟨k1, k2, k3⟩ := key [lo, hi] hi hm rfl
        have hmem : hi ∈ [u, v] := by
          have := hp.subset (List.mem_cons_self hi [lo])
          simpa [or_comm] using this
        have hu : u ≤ hi := by
          have : u ∈ [hi, lo] := hp.symm.subset (by simp)
          rw [List.mem_cons, List.mem_singleton] at this
          rcases this with h | h
          · rw [h]
          · rw [h]; exact o1
        have hv : v ≤ hi := by
          have : v ∈ [hi, lo] := hp.symm.subset (by simp)
          rw [List.mem_cons, List.mem_singleton] at this
          rcases this with h | h
          · rw [h]
          · rw [h]; exact o1
        refine ⟨[lo, hi], hi, hm, k1, k2, k3, ?_, fun _ => ⟨hmem, not_lt_of_le hu,
          not_lt_of_le hv⟩⟩
        intro hne
        have hvu : ¬ v < u := fun h => hne ⟨rfl, h⟩
        obtain ⟨rfl, rfl⟩ := hsame hvu
        exact @is_median_of_between _ _ _ lo hi hi _ _ _ o1 (le_refl _) (List.Perm.refl _)
    · have hn1 : n = 1 := by omega
      subst hn1
      match a, hn, hx, hy, hz with
      | [u], _, hx, hy, hz =>
        simp only [List.getElem?_cons_zero, Nat.reduceDiv, Nat.sub_self,
          Option.some.injEq] at hx hy hz
        subst hx hy
        subst hz
        obtain ⟨k1, k2, k3⟩ := key [u] u (median_of_three_one u) rfl
        exact ⟨[u], u, median_of_three_one u, k1, k2, k3,
          fun _ => is_median_of_between (le_refl _) (le_refl _) (List.Perm.refl _),
          fun h => absurd h (by decide)⟩

/-- Witness of C15 as amended: the region `[5, 3, 4, 1, 2]`, with the sampled values 5, 4
and 2. -/
theorem pivot_is_median_witness :
    ([5, 3, 4, 1, 2] : List Int).length = 5 ∧ 1 ≤ 5 ∧
    ([5, 3, 4, 1, 2] : List Int)[0]? = some 5 ∧
    ([5, 3, 4, 1, 2] : List Int)[5 / 2]? = some 4 ∧
    ([5, 3, 4, 1, 2] : List Int)[5 - 1]? = some 2 ∧
    ∃ a3 p, median_of_three ([5, 3, 4, 1, 2] : List Int) 5 = Except.ok a3 ∧
      read_int a3 (((5 : Nat) : Int) - 1) = Except.ok p ∧
      pivot_value ([5, 3, 4, 1, 2] : List Int) 5 = Except.ok p ∧
      perform_quicksort ([5, 3, 4, 1, 2] : List Int) 5
        = partition_loop p (5 + 1) a3 0 (((5 : Nat) : Int) - 1) ∧
      (¬ (5 = 2 ∧ (2 : Int) < 5) → is_median p [5, 4, 2]) ∧
      (5 = 2 → p ∈ [(5 : Int), 2] ∧ ¬ p < 5 ∧ ¬ p < 2) :=
  ⟨rfl, by decide, rfl, rfl, rfl,
    pivot_is_median ([5, 3, 4, 1, 2] : List Int) 5 rfl (by decide) 5 4 2 rfl rfl rfl⟩

end MedianClaims2

/-- C15, counterexample: on the region `[5, 3]` of length 2 the three sampled values are 5, 3
and 3 (the indices `n / 2` and `n - 1` are both 1), the pivot is 5, and 5 is not a median of
5, 3 and 3. -/
theorem pivot_not_median_of_two :
    ([5, 3] : List Int)[0]? = some 5 ∧ ([5, 3] : List Int)[2 / 2]? = some 3 ∧
    ([5, 3] : List Int)[2 - 1]? = some 3 ∧
    pivot_value ([5, 3] : List Int) 2 = Except.ok 5 ∧ ¬ is_median (5 : Int) [5, 3, 3] :=
  ⟨rfl, rfl, rfl, rfl, by unfold is_median; decide⟩

/-- C16, failing input: on the region `[1, 2, 3]` the three conditional swaps of
`perform_quicksort` give `[1, 3, 2]`: the median 2 is at the last index `n - 1` and the
greatest value 3 at the middle index `n / 2`, so that `a[n / 2] ≤ a[n - 1]` fails. -/
theorem median_not_in_the_middle :
    median_of_three ([1, 2, 3] : List Int) 3 = Except.ok [1, 3, 2] ∧
    ([1, 3, 2] : List Int)[3 / 2]? = some 3 ∧ ([1, 3, 2] : List Int)[3 - 1]? = some 2 ∧
    ¬ ((3 : Int) ≤ 2) ∧ pivot_value ([1, 2, 3] : List Int) 3 = Except.ok 2 :=
  ⟨rfl, rfl, rfl, by decide, rfl⟩

section Stability

variable {α : Type} [Preorder α] [DecidableRel (fun (x y : α) => x < y)]
  [IsTotal α (fun x y => x ≤ y)]

/-- Two elements of which one is strictly below the other do not both compare equal to `z`. -/
theorem ties_not_both {x y z : α} (hxy : x < y) (hx : ties z x = true)
    (hy : ties z y = true) : False := by
  unfold ties at hx hy
  simp only [Bool.and_eq_true, decide_eq_true_eq] at hx hy
  have h1 : z ≤ x := le_of_not_lt_total hx.2
  have h2 : y ≤ z := le_of_not_lt_total hy.1
  exact not_lt_of_le (le_trans h2 h1) hxy

/-- Exchanging two adjacent elements of which the left one is strictly greater does not change
the order of the elements that compare equal to `z`. -/
theorem filter_ties_swap {x y : α} (z : α) (hxy : x < y) :
    [x, y].filter (ties z) = [y, x].filter (ties z) := by
  cases hx : ties z x <;> cases hy : ties z y
  · simp [List.filter, hx, hy]
  · simp [List.filter, hx, hy]
  · simp [List.filter, hx, hy]
  · exact absurd (ties_not_both hxy hx hy) (fun h => h)

omit [IsTotal α (fun x y => x ≤ y)] in
/-- The inner loop of `inssort` does not exchange two adjacent elements unless the left one is
strictly greater. -/
theorem inssort_while_no_exchange (l : List α) (x y : α) (r : List α) (h : ¬ x > y) :
    inssort_while (l.length + 1) (l ++ x :: y :: r) = Except.ok (l ++ x :: y :: r) := by
  have e2 : l ++ x :: y :: r = (l ++ [x]) ++ y :: r := by simp
  unfold inssort_while
  rw [read_at_mid l x (y :: r) rfl, e2, read_at_mid (l ++ [x]) y r (by simp), ← e2]
  simp only [except_ok_bind, h, if_false]

theorem inssort_while_stable : ∀ (j : Nat) (l : List α) (x : α) (r : List α), l.length = j →
    ∃ l1, inssort_while j (l ++ x :: r) = Except.ok (l1 ++ r) ∧ l1.length = j + 1 ∧
      ∀ z, l1.filter (ties z) = (l ++ [x]).filter (ties z) := by
  intro j
  induction j with
  | zero =>
    intro l x r hl
    have : l = [] := List.length_eq_zero.1 hl
    subst this
    exact ⟨[x], rfl, rfl, fun _ => rfl⟩
  | succ j ih =>
    intro l x r hl
    rcases List.eq_nil_or_concat l with h | ⟨l0, y, h⟩
    · subst h
      simp at hl
    · rw [List.concat_eq_append] at h
      subst h
      have hl0 : l0.length = j := by simpa using hl
      have e1 : l0 ++ [y] ++ x :: r = l0 ++ y :: x :: r := by simp
      have e2 : l0 ++ y :: x :: r = (l0 ++ [y]) ++ x :: r := by simp
      rw [e1]
      unfold inssort_while
      rw [read_at_mid l0 y (x :: r) hl0.symm, e2,
        read_at_mid (l0 ++ [y]) x r (by simp [hl0]), ← e2]
      simp only [except_ok_bind, gt_iff_lt]
      by_cases hxy : x < y
      · simp only [hxy, if_true]
        rw [write_at_mid l0 y x (x :: r) hl0.symm]
        simp only [except_ok_bind]
        have e3 : l0 ++ x :: x :: r = (l0 ++ [x]) ++ x :: r := by simp
        rw [e3, write_at_mid (l0 ++ [x]) x y r (by simp [hl0])]
        simp only [except_ok_bind]
        have e4 : l0 ++ [x] ++ y :: r = l0 ++ x :: (y :: r) := by simp
        rw [e4]
        obtain ⟨l1, h1, h2, h3⟩ := ih l0 x (y :: r) hl0
        refine ⟨l1 ++ [y], ?_, by simp [h2], ?_⟩
        · rw [h1]; simp
        · intro z
          have hsw := filter_ties_swap z hxy
          calc (l1 ++ [y]).filter (ties z)
              = l1.filter (ties z) ++ [y].filter (ties z) := List.filter_append _ _
            _ = (l0 ++ [x]).filter (ties z) ++ [y].filter (ties z) := by rw [h3 z]
            _ = l0.filter (ties z) ++ [x, y].filter (ties z) := by
                rw [List.filter_append, List.append_assoc, ← List.filter_append]
                rfl
            _ = l0.filter (ties z) ++ [y, x].filter (ties z) := by rw [hsw]
            _ = (l0 ++ [y] ++ [x]).filter (ties z) := by
                rw [List.append_assoc, List.filter_append]
                rfl
      · simp only [hxy, if_false]
        exact ⟨l0 ++ [y] ++ [x], by simp, by simp [hl0], fun _ => rfl⟩

theorem inssort_fold_stable : ∀ (k s : Nat) (l r : List α), l.length = s → k ≤ r.length →
    ∃ l1, (List.range' s k).foldlM (fun a i => inssort_while i a) (l ++ r)
        = Except.ok (l1 ++ r.drop k) ∧ l1.length = s + k ∧
      ∀ z, l1.filter (ties z) = (l ++ r.take k).filter (ties z) := by
  intro k
  induction k with
  | zero =>
    intro s l r hl _
    exact ⟨l, by simp, by simp [hl], fun _ => by simp⟩
  | succ k ih =>
    intro s l r hl hk
    cases r with
    | nil => simp at hk
    | cons x r =>
      have hk1 : k ≤ r.length := by simpa using hk
      obtain ⟨l1, h1, h2, h3⟩ := inssort_while_stable s l x r hl
      obtain ⟨l2, g1, g2, g3⟩ := ih (s + 1) l1 r h2 hk1
      refine ⟨l2, ?_, by omega, ?_⟩
      · rw [List.range', List.foldlM_cons, h1]
        simpa using g1
      · intro z
        rw [g3 z, List.filter_append, h3 z, ← List.filter_append]
        simp

/-- The function `inssort` keeps the order of the elements that compare equal. -/
theorem inssort_stable (a : List α) (n : Nat) (hn : n ≤ a.length) :
    ∃ l1, inssort a n = Except.ok (l1 ++ a.drop n) ∧ l1.length = n ∧
      ∀ z, l1.filter (ties z) = (a.take n).filter (ties z) := by
  unfold inssort
  cases a with
  | nil =>
    have : n = 0 := by simpa using hn
    subst this
    exact ⟨[], rfl, rfl, fun _ => rfl⟩
  | cons x r =>
    cases n with
    | zero => exact ⟨[], rfl, rfl, fun _ => rfl⟩
    | succ n =>
      have hn1 : n ≤ r.length := by simpa using hn
      obtain ⟨l1, h1, h2, h3⟩ := inssort_fold_stable n 1 [x] r rfl hn1
      refine ⟨l1, ?_, by omega, ?_⟩
      · simpa using h1
      · intro z
        rw [h3 z]
        simp

/-- C12: `inssort` is a stable in-place sort: for every array `a` and every `n` (at most the
length of `a`), `inssort(a, n)` returns normally, leaves `a[n..)` as it is, and the region
`a[0..n)` is then non-decreasing, is a permutation of its original contents, and for every `z`
the elements that compare equal to `z` are in their original order; two adjacent elements are
exchanged only when the left one is strictly greater. -/
theorem inssort_stable_sort (a : List α) (n : Nat) (hn : n ≤ a.length) :
    (∃ l1, inssort a n = Except.ok (l1 ++ a.drop n) ∧ l1.length = n ∧
      nondecreasing l1 ∧ l1.Pairwise (fun x y => x ≤ y) ∧ l1.Perm (a.take n) ∧
      ∀ z, l1.filter (ties z) = (a.take n).filter (ties z)) ∧
    (∀ (l : List α) (x y : α) (r : List α), ¬ x > y →
      inssort_while (l.length + 1) (l ++ x :: y :: r) = Except.ok (l ++ x :: y :: r)) := by
  refine ⟨?_, fun l x y r h => inssort_while_no_exchange l x y r h⟩
  obtain ⟨l1, h1, h2, h3⟩ := inssort_take a n hn
  obtain ⟨l2, g1, g2, g3⟩ := inssort_stable a n hn
  have heq : l1 = l2 := by
    rw [h1] at g1
    injection g1 with g1
    exact List.append_cancel_right g1
  subst heq
  exact ⟨l1, h1, g2, nondecreasing_of_pairwise h3, h3, h2, g3⟩

end Stability

/-- Witness of C12: four elements with the keys 2, 1, 2, 1 and the tags 0, 1, 2, 3; `inssort`
returns them with the keys 1, 1, 2, 2 and the tags 1, 3, 0, 2. -/
theorem inssort_stable_sort_witness :
    4 ≤ ([⟨2, 0⟩, ⟨1, 1⟩, ⟨2, 2⟩, ⟨1, 3⟩] : List tagged).length ∧
    inssort ([⟨2, 0⟩, ⟨1, 1⟩, ⟨2, 2⟩, ⟨1, 3⟩] : List tagged) 4
      = Except.ok [⟨1, 1⟩, ⟨1, 3⟩, ⟨2, 0⟩, ⟨2, 2⟩] ∧
    ∃ l1, inssort ([⟨2, 0⟩, ⟨1, 1⟩, ⟨2, 2⟩, ⟨1, 3⟩] : List tagged) 4
        = Except.ok (l1 ++ ([⟨2, 0⟩, ⟨1, 1⟩, ⟨2, 2⟩, ⟨1, 3⟩] : List tagged).drop 4) ∧
      l1.length = 4 ∧ nondecreasing l1 ∧ l1.Pairwise (fun x y => x ≤ y) ∧
      l1.Perm (([⟨2, 0⟩, ⟨1, 1⟩, ⟨2, 2⟩, ⟨1, 3⟩] : List tagged).take 4) ∧
      ∀ z, l1.filter (ties z)
        = (([⟨2, 0⟩, ⟨1, 1⟩, ⟨2, 2⟩, ⟨1, 3⟩] : List tagged).take 4).filter (ties z) :=
  ⟨by decide, rfl,
    (inssort_stable_sort ([⟨2, 0⟩, ⟨1, 1⟩, ⟨2, 2⟩, ⟨1, 3⟩] : List tagged) 4 (by decide)).1⟩

section Shutdown

theorem live_tasks_of_no_live {α : Type} : ∀ (bs : List (Block α)) (off : Nat),
    (∀ b ∈ bs, b.st ≠ Status.live) → live_tasks off bs = [] := by
  intro bs
  induction bs with
  | nil => intro _ _; rfl
  | cons c bs ih =>
    intro off h
    rw [live_tasks, if_neg (h c (List.mem_cons_self _ _)),
      ih _ (fun b hb => h b (List.mem_cons_of_mem _ hb))]
    rfl

variable {α : Type} [Preorder α] [DecidableRel (fun (x y : α) => x < y)]

/-- What a step does to `thr_data`: nothing, or a leaf task adds its length to
`sorted_elements`, or the controller sets `shutdown`, which was not set. -/
theorem thr_data_step {cutoff : Nat} {s s1 : State α} (hs : Step cutoff s s1) :
    s1.thr_data = s.thr_data ∨
    (∃ q : quicksort_data, q.pivot ≤ cutoff ∧ s1.thr_data =
      { s.thr_data with sorted_elements := s.thr_data.sorted_elements + (q.pivot : Int) }) ∨
    (s.thr_data.shutdown = false ∧ s1.thr_data = { s.thr_data with shutdown := true }) := by
  cases hs with
  | fetch hf =>
    unfold worker_fetch at hf
    split at hf
    · cases hf
      exact Or.inl rfl
    · exact Option.noConfusion hf
  | process h1 h2 q hh hp =>
    unfold worker_process at hp
    dsimp only at hp
    split at hp
    · rename_i hle
      split at hp
      · rename_i mem1 thr1 hrun
        cases hp
        exact Or.inr (Or.inl ⟨q, hle, perform_insertion_sort_thr hrun⟩)
      · exact Option.noConfusion hp
    · split at hp
      · split at hp
        · cases hp
          exact Or.inl rfl
        · exact Option.noConfusion hp
      · exact Option.noConfusion hp
  | control hc =>
    unfold controller at hc
    split at hc
    · exact Option.noConfusion hc
    · split at hc
      · exact Option.noConfusion hc
      · rename_i hsh
        cases hc
        exact Or.inr (Or.inr ⟨by simpa using hsh, rfl⟩)

/-- Once `shutdown` is set it stays set. -/
theorem shutdown_stays {cutoff : Nat} {s s2 : State α} (hr : Reachable cutoff s s2)
    (h : s.thr_data.shutdown = true) : s2.thr_data.shutdown = true := by
  induction hr with
  | refl => exact h
  | step _ hs ih =>
    rcases thr_data_step hs with h1 | ⟨q, _, h1⟩ | ⟨_, h1⟩
    · rw [h1]; exact ih
    · rw [h1]; exact ih
    · rw [h1]

/-- With the cut-off 0 no leaf task has an element, and `sorted_elements` stays 0. -/
theorem counter_zero_of_cutoff_zero {input : List α} {buf : Int → quicksort_data}
    {s : State α} (hr : Reachable 0 (initial_state input buf) s) :
    s.thr_data.sorted_elements = 0 := by
  induction hr with
  | refl => rfl
  | step _ hs ih =>
    rcases thr_data_step hs with h1 | ⟨q, hq, h1⟩ | ⟨_, h1⟩
    · rw [h1]; exact ih
    · rw [h1]
      show _ + (q.pivot : Int) = 0
      rw [ih]
      omega
    · rw [h1]; exact ih

/-- A state without queued and held tasks in which `shutdown` is set has no step. -/
theorem no_step_after_shutdown {cutoff : Nat} {s : State α} (hq : quiescent s)
    (hsd : s.thr_data.shutdown = true) : ∀ s1, ¬ Step cutoff s s1 := by
  intro s1 hs
  obtain ⟨hq1, hq2⟩ := hq
  cases hs with
  | fetch hf =>
    unfold worker_fetch get_job_from_circular_queue at hf
    simp [hq1] at hf
  | process h1 h2 q hh hp =>
    rw [hq2] at hh
    exact List.cons_ne_nil _ _ (List.append_eq_nil.1 hh.symm).2
  | control hc =>
    unfold controller at hc
    rw [hsd] at hc
    simp at hc

omit [DecidableRel (fun (x y : α) => x < y)] in
/-- With at least one element and a cut-off of at least 1, no task is queued or held once
`shutdown` is set. -/
theorem quiescent_of_shutdown {input : List α} {cutoff : Nat} {s : State α}
    {bs : List (Block α)} (h : Inv input cutoff s bs) (hc : 1 ≤ cutoff)
    (hN : 1 ≤ input.length) (hsd : s.thr_data.shutdown = true) : quiescent s := by
  have hlen : (blocks_flat bs).length = input.length := by
    rw [← h.flat, List.Perm.length_eq h.perm]
  have hle := done_count_le bs
  have hcount : done_count bs = (blocks_flat bs).length := by
    have h1 := h.flag hsd
    have h2 := h.count
    omega
  have hempty := empty_of_done_count_eq bs hcount
  have hnolive : ∀ b ∈ bs, b.st ≠ Status.live := by
    intro b hb hst
    have h1 : b.st ≠ Status.done := by rw [hst]; exact fun hx => Status.noConfusion hx
    exact h.nonempty hc hN b hb hst (hempty b hb h1)
  have ht := h.tasks
  rw [live_tasks_of_no_live bs 0 hnolive] at ht
  have hnil := List.Perm.eq_nil ht
  obtain ⟨hq, hh⟩ := List.append_eq_nil.1 hnil
  refine ⟨?_, hh⟩
  rw [queue_empty_iff h.wf, ← queue_length_toList, hq]
  rfl

variable [IsTotal α (fun x y => x ≤ y)]

/-- C13, as amended: in every state of every run of the system, (1) if the array has at least
one element and `shutdown` is set, then no task is dequeued, sorted, partitioned or enqueued:
no task is queued or held, `get_job_from_circular_queue` finds no task, and no step is
possible; and (2) for every length of the array, the empty array included, the flag stays set
in every later state once it is set, so that it goes from false to true at most once. -/
theorem shutdown_ends_work (input : List α) (buf : Int → quicksort_data) (cutoff : Nat)
    (s : State α) (hr : Reachable cutoff (initial_state input buf) s) :
    (1 ≤ input.length → s.thr_data.shutdown = true →
      quiescent s ∧ worker_fetch s = none ∧ ∀ s1, ¬ Step cutoff s s1) ∧
    (∀ s2, Reachable cutoff s s2 → s.thr_data.shutdown = true →
      s2.thr_data.shutdown = true) := by
  refine ⟨?_, fun s2 hr2 h => shutdown_stays hr2 h⟩
  intro hN hsd
  obtain ⟨bs, h⟩ := inv_reachable hr
  have hq : quiescent s := by
    rcases Nat.eq_zero_or_pos cutoff with hc | hc
    · subst hc
      have h1 := h.flag hsd
      have h2 := counter_zero_of_cutoff_zero hr
      omega
    · exact quiescent_of_shutdown h hc hN hsd
  refine ⟨hq, ?_, no_step_after_shutdown hq hsd⟩
  unfold worker_fetch get_job_from_circular_queue
  simp [hq.1]

end Shutdown

/-- Witness of C13 as amended: the state after the run of one worker on `[3, 1, 2]` with cut-off
1, followed by the step of the controller; `shutdown` is set in this state. -/
theorem shutdown_ends_work_witness :
    1 ≤ ([3, 1, 2] : List Int).length ∧
    Reachable 1 (initial_state ([3, 1, 2] : List Int) (fun _ => { a := 0, pivot := 0 }))
      { worker_run 1 5 (initial_state ([3, 1, 2] : List Int)
          (fun _ => { a := 0, pivot := 0 })) with
        thr_data := { shutdown := true, sorted_elements := 3 } } ∧
    quiescent
      { worker_run 1 5 (initial_state ([3, 1, 2] : List Int)
          (fun _ => { a := 0, pivot := 0 })) with
        thr_data := { shutdown := true, sorted_elements := 3 } } :=
  ⟨by decide,
    Reachable.step (reachable_worker_run 1 5 _) (Step.control rfl),
    ((shutdown_ends_work ([3, 1, 2] : List Int) (fun _ => { a := 0, pivot := 0 }) 1 _
      (Reachable.step (reachable_worker_run 1 5 _) (Step.control rfl))).1 (by decide) rfl).1⟩

/-- C13, counterexample: on the empty array (`N = 0`) the controller can set `shutdown` while
the root task is still queued; in the state it reaches, `shutdown` is set, a task is queued,
and a worker takes this task from the queue. -/
theorem shutdown_with_queued_task :
    Reachable 100 (initial_state ([] : List Int) (fun _ => { a := 0, pivot := 0 }))
      { initial_state ([] : List Int) (fun _ => { a := 0, pivot := 0 }) with
        thr_data := { shutdown := true, sorted_elements := 0 } } ∧
    ({ initial_state ([] : List Int) (fun _ => { a := 0, pivot := 0 }) with
        thr_data := { shutdown := true, sorted_elements := 0 } } :
      State Int).thr_data.shutdown = true ∧
    ¬ quiescent ({ initial_state ([] : List Int) (fun _ => { a := 0, pivot := 0 }) with
        thr_data := { shutdown := true, sorted_elements := 0 } } : State Int) ∧
    ∃ s1 : State Int, Step 100
      { initial_state ([] : List Int) (fun _ => { a := 0, pivot := 0 }) with
        thr_data := { shutdown := true, sorted_elements := 0 } } s1 ∧
      s1.held = [{ a := 0, pivot := 0 }] ∧ s1.thr_data.shutdown = true :=
  ⟨Reachable.step Reachable.refl (Step.control rfl), rfl,
    fun h => absurd h.1 (by decide),
    ⟨_, Step.fetch rfl, rfl, rfl⟩⟩

end Quicksort
